import Mathlib

/-!
# Movie render pipeline: sample accumulation

A shallow embedding of `MoviePipeline::AccumulateSample_TaskThread`
(`MoviePipelineImagePassBase.cpp`, lines 576-776) together with the engine
types it drives, and of the accumulator pool
(`FAccumulatorPool::BlockAndGetAccumulator_GameThread`, lines 526-572).  The
task function is translated statement by statement.
Calls made on the output merger and on the image accumulator are recorded, in
program order, in an event list, so that statements about which calls happen,
how often and in what order can be read off the result.

Conventions.
* `check(c)` is fatal: the run stops with status `Fatal`, keeping the events
  and the accumulator state reached so far.  `ensure(c)` only logs and is not
  modelled.
* The weak pointers of `FImageSampleAccumulationArgs` are live, as the
  `ensure`s of the function state: the accumulator is passed as a state and
  the merger is the event list.
* Channel values are exact rationals; timing and logging are left out.
* The wait loop of the pool takes a fuel argument that bounds its iterations;
  an instance of the pool is identified by its index.

The file also embeds, from the same source file, the tiling of the projection
(`CalculatePrinciplePointOffsetForTiling`, `ModifyProjectionMatrixForTiling`,
lines 473-524) and the path tracing block of `CalculateViewFamily` (lines
179-197); the tile loop of `UProceduralIncrementalCooker::Cook`
(`ProceduralIncrementalCooker.cpp`); the labelling of display names in
`FMDLImporterUtility::UpdateParametersSheet` (`MDLImporterUtility.cpp`); and
`MangleMdlPath` and `UnmangleMdlPath` (`MDLPathUtility.cpp`).

* Arithmetic on `int32` wraps around (`Wrap32`) where a sum or product can
  leave the range; the float computations of the tiling are exact rationals.
* The tile loop of `Cook` takes a fuel argument; what the engine, Houdini and
  the hooks decide is an environment given to the run.
* An `FString` is the list of its 16-bit code units, and the string operations
  of the engine follow their documented defaults (comparisons ignore the case
  of ASCII letters).
-/

namespace MoviePipeline

/-- Pixel formats: the engine enumeration `EImagePixelType`. -/
inductive EImagePixelType where
  | Color
  | Float16
  | Float32
  deriving DecidableEq, Repr

/-- Integer point of the engine (`FIntPoint`), used for sizes and offsets. -/
structure FIntPoint where
  X : Int
  Y : Int
  deriving DecidableEq, Repr

/-- Two dimensional vector of the engine (`FVector2D`). -/
structure FVector2D where
  X : ℚ
  Y : ℚ
  deriving DecidableEq

/-- Four channel colour.  The same record stands for `FColor`,
`FFloat16Color` and `FLinearColor` pixels: each channel holds the exact value
of the stored number. -/
structure FLinearColor where
  R : ℚ
  G : ℚ
  B : ℚ
  A : ℚ
  deriving DecidableEq

/-- Modelled from the spec: `FTileWeight1D` is declared in the accumulator
header, which is absent.  The spec describes it as a one dimensional piecewise
function from a pixel position within the padded tile to a blend weight. -/
structure FTileWeight1D where
  CalculateWeight : Int → ℚ

/-- Modelled from the spec: `FImagePixelDataPayload` is declared in
`MoviePipelineDataTypes.h`, which is absent.  Every member that
`AccumulateSample_TaskThread` reads is a field: the three `SampleState` members
it touches, and, for each const accessor it calls, the value the call
returns. -/
structure FImagePixelDataPayload where
  bWriteSampleToDisk : Bool
  SpatialSampleCount : Int
  AccumulationGamma : ℚ
  IsFirstTile : Bool
  IsLastTile : Bool
  IsFirstTemporalSample : Bool
  IsLastTemporalSample : Bool
  GetAccumulatorSize : FIntPoint
  GetOverlapPaddedSize : FIntPoint
  GetOverlapPaddedSizeIsValid : FIntPoint → Bool
  GetOverlappedOffset : FIntPoint
  GetOverlappedSubpixelShift : FVector2D
  WeightFunctionX : FTileWeight1D
  WeightFunctionY : FTileWeight1D

/-- Modelled from the spec: `FImagePixelData` and `TImagePixelData<T>` are
declared in the engine header `ImagePixelData.h`, which is absent.  A buffer
has a format tag, a declared size, its pixel array and an optional payload
(`GetPayload` may return null). -/
structure FImagePixelData where
  PixelType : EImagePixelType
  Size : FIntPoint
  Pixels : List FLinearColor
  Payload : Option FImagePixelDataPayload

/-- Bits per channel of a format (`GetBitDepth`). -/
def EImagePixelType.GetBitDepth : EImagePixelType → Int
  | .Color => 8
  | .Float16 => 16
  | .Float32 => 32

/-- Bytes of one stored pixel: `sizeof(FColor)`, `sizeof(FFloat16Color)`,
`sizeof(FLinearColor)`. -/
def EImagePixelType.PixelBytes : EImagePixelType → Int
  | .Color => 4
  | .Float16 => 8
  | .Float32 => 16

namespace FImagePixelData

/-- Number of bits of one channel. -/
def GetBitDepth (d : FImagePixelData) : Int := d.PixelType.GetBitDepth

/-- Every one of the three formats has four channels. -/
def GetNumChannels (_d : FImagePixelData) : Int := 4

/-- Size in bytes of the pixel array. -/
def GetRawDataSizeInBytes (d : FImagePixelData) : Int :=
  (d.Pixels.length : Int) * d.PixelType.PixelBytes

/-- Modelled from the spec: the body of `IsDataWellFormed` is in the absent
engine header.  The diagnostic block of the task function (lines 586-598)
spells out the test: the raw byte size equals
`SizeX * SizeY * ByteDepth * NumChannels`. -/
def IsDataWellFormed (d : FImagePixelData) : Bool :=
  d.GetRawDataSizeInBytes == d.Size.X * d.Size.Y * (d.GetBitDepth / 8) * d.GetNumChannels

/-- The call `CopyImageData` returns a copy of the buffer. -/
def CopyImageData (d : FImagePixelData) : FImagePixelData :=
  { PixelType := d.PixelType, Size := d.Size, Pixels := d.Pixels, Payload := d.Payload }

end FImagePixelData

/-- Modelled from the spec: `FImageOverlappedAccumulator` is declared in the
accumulator header, which is absent.  The spec describes a persistent two
dimensional array of accumulated weighted sums per channel and of weight sums,
plus a gamma value; `NumChannels` and `PlaneSize` are the members the task
function reads. -/
structure FImageOverlappedAccumulator where
  PlaneSize : FIntPoint
  NumChannels : Int
  AccumulationGamma : ℚ
  ChannelPlanes : List (List ℚ)
  WeightPlane : List ℚ
  deriving DecidableEq

/-- Engine routines the kernel calls whose bodies are absent.  They are
parameters of the model: nothing is assumed about them.
* `ImageResize SrcX SrcY Src DstX DstY i` is the pixel that
  `FImageUtils::ImageResize` writes at index `i` of the destination view.
* `Place Offset Shift x y` is the output position of sample pixel `(x, y)`,
  determined by the declared offset and the sub-pixel shift.
* `Linearize Gamma v` and `Encode Gamma v` apply and undo the stored gamma.
* `ToFloat16` and `ToColor` round a full precision channel value to the half
  float and to the 8-bit representation. -/
structure FEngine where
  ImageResize : Int → Int → List FLinearColor → Int → Int → Nat → FLinearColor
  Place : FIntPoint → FVector2D → Int → Int → FIntPoint
  Linearize : ℚ → ℚ → ℚ
  Encode : ℚ → ℚ → ℚ
  ToFloat16 : ℚ → ℚ
  ToColor : ℚ → ℚ

/-- The members of `FImageSampleAccumulationArgs` other than the two weak
pointers. -/
structure FImageSampleAccumulationArgs where
  bAccumulateAlpha : Bool


namespace FImageOverlappedAccumulator

/-- Number of cells of one plane. -/
def PlaneCells (Size : FIntPoint) : Nat := (Size.X * Size.Y).toNat

/-- Modelled from the spec: `InitMemory` (absent) allocates the buffer, one
plane of weighted sums per channel and one plane of weight sums, sized to the
extents it is given. -/
def InitMemory (a : FImageOverlappedAccumulator) (InPlaneSize : FIntPoint) (InNumChannels : Int) :
    FImageOverlappedAccumulator :=
  { PlaneSize := InPlaneSize
    NumChannels := InNumChannels
    AccumulationGamma := a.AccumulationGamma
    ChannelPlanes := List.replicate InNumChannels.toNat (List.replicate (PlaneCells InPlaneSize) 0)
    WeightPlane := List.replicate (PlaneCells InPlaneSize) 0 }

/-- Modelled from the spec: `ZeroPlanes` (absent) sets every weighted sum and
every weight sum to zero. -/
def ZeroPlanes (a : FImageOverlappedAccumulator) : FImageOverlappedAccumulator :=
  { a with
    ChannelPlanes := a.ChannelPlanes.map (fun Plane => Plane.map (fun _ => 0))
    WeightPlane := a.WeightPlane.map (fun _ => 0) }

/-- Modelled from the spec: `Reset` (absent) "zeroes all weight/sum planes and
channel count". -/
def Reset (a : FImageOverlappedAccumulator) : FImageOverlappedAccumulator :=
  { a with
    NumChannels := 0
    ChannelPlanes := a.ChannelPlanes.map (fun Plane => Plane.map (fun _ => 0))
    WeightPlane := a.WeightPlane.map (fun _ => 0) }

/-- Adds `v` to cell `i` of a plane; a cell outside the plane is not written. -/
def AddAt : Nat → ℚ → List ℚ → List ℚ
  | _, _, [] => []
  | 0, v, x :: xs => (x + v) :: xs
  | i + 1, v, x :: xs => x :: AddAt i v xs

/-- Adds the weighted channel values of one pixel to cell `i` of the channel
planes, channel by channel. -/
def AddChannels (i : Nat) (w : ℚ) : List (List ℚ) → List ℚ → List (List ℚ)
  | [], _ => []
  | Planes, [] => Planes
  | Plane :: Planes, v :: vs => AddAt i (w * v) Plane :: AddChannels i w Planes vs

/-- One weighted pixel on its way into the buffer: the output position, the
combined weight and the linearised channel values. -/
structure FContribution where
  Position : FIntPoint
  Weight : ℚ
  Channels : List ℚ

/-- Modelled from the spec: the inner step of `AccumulatePixelData` (absent):
"add both the weighted color and the weight itself into the Accumulation
Buffer's running sum/weight-sum for that output pixel".  A position outside
the planes is skipped. -/
def AddContribution (a : FImageOverlappedAccumulator) (c : FContribution) :
    FImageOverlappedAccumulator :=
  if 0 ≤ c.Position.X ∧ c.Position.X < a.PlaneSize.X ∧
      0 ≤ c.Position.Y ∧ c.Position.Y < a.PlaneSize.Y then
    { a with
      ChannelPlanes :=
        AddChannels (c.Position.Y * a.PlaneSize.X + c.Position.X).toNat c.Weight
          a.ChannelPlanes c.Channels
      WeightPlane :=
        AddAt (c.Position.Y * a.PlaneSize.X + c.Position.X).toNat c.Weight a.WeightPlane }
  else a

end FImageOverlappedAccumulator

/-- The arguments of one `AccumulatePixelData` call (line 724). -/
structure FAccumulateCall where
  Data : FImagePixelData
  Offset : FIntPoint
  SubpixelShift : FVector2D
  WeightX : FTileWeight1D
  WeightY : FTileWeight1D

/-- Modelled from the spec: the per-pixel part of `AccumulatePixelData`
(absent): "for each pixel in the sample's padded region, compute horizontal
and vertical blend weights from the Weight Function evaluated at that pixel's
offset within the tile, multiply the combined weight by the pixel's color", at
"the position determined by the sample's declared offset and sub-pixel shift".
Pixel `k` of the row-major array has column `k % SizeX` and row `k / SizeX`. -/
def Contributions (E : FEngine) (Gamma : ℚ) (c : FAccumulateCall) :
    List FImageOverlappedAccumulator.FContribution :=
  c.Data.Pixels.enum.map (fun kp =>
    { Position := E.Place c.Offset c.SubpixelShift
        ((kp.1 : Int) % c.Data.Size.X) ((kp.1 : Int) / c.Data.Size.X)
      Weight := c.WeightX.CalculateWeight ((kp.1 : Int) % c.Data.Size.X) *
        c.WeightY.CalculateWeight ((kp.1 : Int) / c.Data.Size.X)
      Channels := [E.Linearize Gamma kp.2.R, E.Linearize Gamma kp.2.G,
        E.Linearize Gamma kp.2.B, E.Linearize Gamma kp.2.A] })

/-- Modelled from the spec: `AccumulatePixelData` (absent) adds every weighted
pixel of the sample into the running sums and weight sums. -/
def FImageOverlappedAccumulator.AccumulatePixelData (E : FEngine)
    (a : FImageOverlappedAccumulator) (c : FAccumulateCall) : FImageOverlappedAccumulator :=
  (Contributions E a.AccumulationGamma c).foldl FImageOverlappedAccumulator.AddContribution a

/-- Modelled from the spec: the normalisation of the fetch functions (absent):
"final pixel = accumulated-weighted-sum / accumulated-weight-sum per channel",
re-encoded with the stored gamma.  A channel the accumulator does not hold
(alpha, with three channels) reads as 1. -/
def FImageOverlappedAccumulator.NormalizedChannel (E : FEngine)
    (a : FImageOverlappedAccumulator) (Channel : Nat) (i : Nat) : ℚ :=
  match a.ChannelPlanes.get? Channel with
  | some Plane => E.Encode a.AccumulationGamma (Plane.getD i 0 / a.WeightPlane.getD i 0)
  | none => 1

/-- Modelled from the spec: `FetchFinalPixelDataLinearColor` (absent) fills the
array with one normalised pixel per cell of the plane. -/
def FImageOverlappedAccumulator.FetchFinalPixelDataLinearColor (E : FEngine)
    (a : FImageOverlappedAccumulator) : List FLinearColor :=
  (List.range (FImageOverlappedAccumulator.PlaneCells a.PlaneSize)).map (fun i =>
    { R := a.NormalizedChannel E 0 i, G := a.NormalizedChannel E 1 i,
      B := a.NormalizedChannel E 2 i, A := a.NormalizedChannel E 3 i })

/-- Modelled from the spec: `FetchFinalPixelDataHalfFloat` (absent) is the
normalised result converted to half floats. -/
def FImageOverlappedAccumulator.FetchFinalPixelDataHalfFloat (E : FEngine)
    (a : FImageOverlappedAccumulator) : List FLinearColor :=
  (a.FetchFinalPixelDataLinearColor E).map (fun p =>
    { R := E.ToFloat16 p.R, G := E.ToFloat16 p.G, B := E.ToFloat16 p.B, A := E.ToFloat16 p.A })

/-- Modelled from the spec: `FetchFinalPixelDataByte` (absent) is the
normalised result converted to 8-bit colours. -/
def FImageOverlappedAccumulator.FetchFinalPixelDataByte (E : FEngine)
    (a : FImageOverlappedAccumulator) : List FLinearColor :=
  (a.FetchFinalPixelDataLinearColor E).map (fun p =>
    { R := E.ToColor p.R, G := E.ToColor p.G, B := E.ToColor p.B, A := E.ToColor p.A })

/-- One call made by the task function on the output merger or on the image
accumulator.  The list of events of a run is in program order. -/
inductive FEvent where
  | OnSingleSampleDataAvailable (Data : FImagePixelData)
  | OnCompleteRenderPassDataAvailable (Data : FImagePixelData)
  | InitMemory (Size : FIntPoint) (ChannelCount : Int)
  | ZeroPlanes
  | AccumulatePixelData (Call : FAccumulateCall)
  | FetchFinalPixelDataLinearColor
  | FetchFinalPixelDataHalfFloat
  | FetchFinalPixelDataByte
  | Reset

/-- How a run ends: it returns, or a `check` fails. -/
inductive FStatus where
  | Returned
  | Fatal
  deriving DecidableEq, Repr

/-- Result of one run of the task function: how it ended, the calls it made
and the state it left the accumulator in. -/
structure FTaskResult where
  Status : FStatus
  Events : List FEvent
  Accumulator : FImageOverlappedAccumulator

/-- The lazy allocation of lines 646-653: when `NumChannels` is 0 the
accumulator gets its memory, zeroed planes and the gamma of the sample. -/
def AllocateIfNeeded (InParams : FImageSampleAccumulationArgs)
    (NewPayload : FImagePixelDataPayload) (a : FImageOverlappedAccumulator) :
    FImageOverlappedAccumulator × List FEvent :=
  if a.NumChannels = 0 then
    let ChannelCount : Int := if InParams.bAccumulateAlpha then 4 else 3
    ({ ((a.InitMemory NewPayload.GetAccumulatorSize ChannelCount).ZeroPlanes) with
        AccumulationGamma := NewPayload.AccumulationGamma },
      [FEvent.InitMemory NewPayload.GetAccumulatorSize ChannelCount, FEvent.ZeroPlanes])
  else (a, [])

/-- The resize block of lines 660-714.  A sample of the expected size is kept.
Otherwise a `Float32` array is copied and a `Float16` array is widened, any
other format hits `check(0)` (`none`); the converted pixels are resized to
`GetOverlapPaddedSize` and become a new `TImagePixelData<FLinearColor>`
carrying the payload.  The block runs after `check(bIsWellFormed)`, so the
array holds exactly `SizeX * SizeY` pixels and both conversions, which are
exact, give the pixel list itself. -/
def ResizeIfNeeded (E : FEngine) (NewPayload : FImagePixelDataPayload)
    (SamplePixelData : FImagePixelData) : Option FImagePixelData :=
  let RawSize := SamplePixelData.Size
  let bCorrectSize := NewPayload.GetOverlapPaddedSizeIsValid RawSize
  if bCorrectSize then some SamplePixelData
  else
    let Converted : Option (List FLinearColor) :=
      match SamplePixelData.PixelType with
      | .Float32 => some SamplePixelData.Pixels
      | .Float16 => some SamplePixelData.Pixels
      | .Color => none
    match Converted with
    | none => none
    | some FullSizeData =>
      let TargetSize := NewPayload.GetOverlapPaddedSize
      let NewPixelData := (List.range (TargetSize.X * TargetSize.Y).toNat).map
        (E.ImageResize RawSize.X RawSize.Y FullSizeData TargetSize.X TargetSize.Y)
      some { PixelType := .Float32, Size := { X := TargetSize.X, Y := TargetSize.Y },
             Pixels := NewPixelData, Payload := some NewPayload }

/-- The final fetch of lines 736-771: the buffer has the accumulator's plane
size and the format of the sample that drives the fetch; the event is the
fetch function called. -/
def FetchFinal (E : FEngine) (NewPayload : FImagePixelDataPayload)
    (a : FImageOverlappedAccumulator) (SamplePixelData : FImagePixelData) :
    FEvent × FImagePixelData :=
  let FullSizeX := a.PlaneSize.X
  let FullSizeY := a.PlaneSize.Y
  match SamplePixelData.PixelType with
  | .Float32 =>
    (FEvent.FetchFinalPixelDataLinearColor,
      { PixelType := .Float32, Size := { X := FullSizeX, Y := FullSizeY },
        Pixels := a.FetchFinalPixelDataLinearColor E, Payload := some NewPayload })
  | .Float16 =>
    (FEvent.FetchFinalPixelDataHalfFloat,
      { PixelType := .Float16, Size := { X := FullSizeX, Y := FullSizeY },
        Pixels := a.FetchFinalPixelDataHalfFloat E, Payload := some NewPayload })
  | .Color =>
    (FEvent.FetchFinalPixelDataByte,
      { PixelType := .Color, Size := { X := FullSizeX, Y := FullSizeY },
        Pixels := a.FetchFinalPixelDataByte E, Payload := some NewPayload })

/-- The debug copy of lines 611-619: with `bWriteSampleToDisk` a copy of the
sample goes to `OnSingleSampleDataAvailable_AnyThread`. -/
def SendSingleSample (NewPayload : FImagePixelDataPayload) (SamplePixelData : FImagePixelData) :
    List FEvent :=
  if NewPayload.bWriteSampleToDisk then
    [FEvent.OnSingleSampleDataAvailable SamplePixelData.CopyImageData]
  else []

/-- The arguments of the `AccumulatePixelData` call of line 724. -/
def AccumulateArguments (NewPayload : FImagePixelDataPayload)
    (SamplePixelData : FImagePixelData) : FAccumulateCall :=
  { Data := SamplePixelData
    Offset := NewPayload.GetOverlappedOffset
    SubpixelShift := NewPayload.GetOverlappedSubpixelShift
    WeightX := NewPayload.WeightFunctionX
    WeightY := NewPayload.WeightFunctionY }

/-- The task function `AccumulateSample_TaskThread` (lines 576-776). -/
def AccumulateSample_TaskThread (E : FEngine) (InParams : FImageSampleAccumulationArgs)
    (ImageAccumulator : FImageOverlappedAccumulator) (InPixelData : FImagePixelData) :
    FTaskResult :=
  let SamplePixelData := InPixelData
  let bIsWellFormed := SamplePixelData.IsDataWellFormed
  -- check(bIsWellFormed)
  if !bIsWellFormed then { Status := .Fatal, Events := [], Accumulator := ImageAccumulator }
  else
  -- check(OriginalFramePayload)
  match SamplePixelData.Payload with
  | none => { Status := .Fatal, Events := [], Accumulator := ImageAccumulator }
  | some NewPayload =>
    let Sent := SendSingleSample NewPayload SamplePixelData
    let bOneTile := NewPayload.IsFirstTile && NewPayload.IsLastTile
    let bOneTS := NewPayload.IsFirstTemporalSample && NewPayload.IsLastTemporalSample
    let bOneSS := NewPayload.SpatialSampleCount == 1
    if bOneTile && bOneTS && bOneSS then
      { Status := .Returned
        Events := Sent ++ [FEvent.OnCompleteRenderPassDataAvailable SamplePixelData]
        Accumulator := ImageAccumulator }
    else
    let Allocated := AllocateIfNeeded InParams NewPayload ImageAccumulator
    let Events1 := Sent ++ Allocated.2
    match ResizeIfNeeded E NewPayload SamplePixelData with
    | none => { Status := .Fatal, Events := Events1, Accumulator := Allocated.1 }
    | some Resized =>
      let RawSize := Resized.Size
      -- check(NewPayload->GetOverlapPaddedSizeIsValid(RawSize))
      if !NewPayload.GetOverlapPaddedSizeIsValid RawSize then
        { Status := .Fatal, Events := Events1, Accumulator := Allocated.1 }
      else
      let Accumulated := Allocated.1.AccumulatePixelData E (AccumulateArguments NewPayload Resized)
      let Events2 := Events1 ++ [FEvent.AccumulatePixelData (AccumulateArguments NewPayload Resized)]
      if NewPayload.IsLastTile && NewPayload.IsLastTemporalSample then
        let Final := FetchFinal E NewPayload Accumulated Resized
        { Status := .Returned
          Events := Events2 ++
            [Final.1, FEvent.OnCompleteRenderPassDataAvailable Final.2, FEvent.Reset]
          Accumulator := Accumulated.Reset }
      else { Status := .Returned, Events := Events2, Accumulator := Accumulated }

/-- The condition of the early return of lines 623-627:
`bOneTile && bOneTS && bOneSS`. -/
def TakesFastPath (p : FImagePixelDataPayload) : Bool :=
  (p.IsFirstTile && p.IsLastTile) &&
    (p.IsFirstTemporalSample && p.IsLastTemporalSample) && (p.SpatialSampleCount == 1)

/-- The buffer handed to `OnCompleteRenderPassDataAvailable_AnyThread`, if the
event is such a call. -/
def FEvent.CompletePassData : FEvent → Option FImagePixelData
  | .OnCompleteRenderPassDataAvailable d => some d
  | _ => none

/-- The buffer handed to `OnSingleSampleDataAvailable_AnyThread`, if the event
is such a call. -/
def FEvent.SingleSampleData : FEvent → Option FImagePixelData
  | .OnSingleSampleDataAvailable d => some d
  | _ => none

/-- The arguments of an `AccumulatePixelData` call, if the event is one. -/
def FEvent.AccumulateCall : FEvent → Option FAccumulateCall
  | .AccumulatePixelData c => some c
  | _ => none

/-- Whether the event is a call on the image accumulator. -/
def FEvent.IsAccumulatorCall : FEvent → Bool
  | .OnSingleSampleDataAvailable _ => false
  | .OnCompleteRenderPassDataAvailable _ => false
  | _ => true

/-- Whether the event is a call on the output merger. -/
def FEvent.IsMergerCall : FEvent → Bool
  | .OnSingleSampleDataAvailable _ => true
  | .OnCompleteRenderPassDataAvailable _ => true
  | _ => false

/-- Whether the event is the `Reset` call. -/
def FEvent.IsReset : FEvent → Bool
  | .Reset => true
  | _ => false

/-- The complete-pass buffers of an event list, in order. -/
def CompletePassEmissions (Events : List FEvent) : List FImagePixelData :=
  Events.filterMap FEvent.CompletePassData

/-- The single-sample buffers of an event list, in order. -/
def SingleSampleEmissions (Events : List FEvent) : List FImagePixelData :=
  Events.filterMap FEvent.SingleSampleData

/-- The `AccumulatePixelData` calls of an event list, in order. -/
def AccumulateCalls (Events : List FEvent) : List FAccumulateCall :=
  Events.filterMap FEvent.AccumulateCall

/-- The events of a run up to the resize block: the debug copy and the lazy
allocation. -/
def EventsBeforeResize (InParams : FImageSampleAccumulationArgs) (p : FImagePixelDataPayload)
    (a : FImageOverlappedAccumulator) (s : FImagePixelData) : List FEvent :=
  SendSingleSample p s ++ (AllocateIfNeeded InParams p a).2

/-- The accumulator after the sample `d` has been accumulated into the lazily
allocated buffer. -/
def AccumulatedState (E : FEngine) (InParams : FImageSampleAccumulationArgs)
    (p : FImagePixelDataPayload) (a : FImageOverlappedAccumulator) (d : FImagePixelData) :
    FImageOverlappedAccumulator :=
  (AllocateIfNeeded InParams p a).1.AccumulatePixelData E (AccumulateArguments p d)

/-! ## Concrete data used to run the definitions -/

/-- An engine for running the model: nearest-index resize, placement at
offset plus pixel coordinate, gamma and rounding left out. -/
def SampleEngine : FEngine :=
  { ImageResize := fun _ _ Src _ _ i => Src.getD i { R := 0, G := 0, B := 0, A := 1 }
    Place := fun Offset _ x y => { X := Offset.X + x, Y := Offset.Y + y }
    Linearize := fun _ v => v
    Encode := fun _ v => v
    ToFloat16 := fun v => v
    ToColor := fun v => v }

/-- A weight function that is 1 everywhere. -/
def FullWeight : FTileWeight1D := { CalculateWeight := fun _ => 1 }

/-- Payload of tile (0, 0) of a 1x1 tiling, with `TemporalCount` temporal and
`SpatialCount` spatial samples; the sample is the last temporal and last
spatial one, and the first ones exactly when the counts are 1.  The tile is
2x2 pixels without overlap. -/
def SingleTilePayload (TemporalCount SpatialCount : Int) (bWrite : Bool) :
    FImagePixelDataPayload :=
  { bWriteSampleToDisk := bWrite
    SpatialSampleCount := SpatialCount
    AccumulationGamma := 1
    IsFirstTile := SpatialCount == 1
    IsLastTile := true
    IsFirstTemporalSample := TemporalCount == 1
    IsLastTemporalSample := true
    GetAccumulatorSize := { X := 2, Y := 2 }
    GetOverlapPaddedSize := { X := 2, Y := 2 }
    GetOverlapPaddedSizeIsValid := fun RawSize => RawSize.X == 2 && RawSize.Y == 2
    GetOverlappedOffset := { X := 0, Y := 0 }
    GetOverlappedSubpixelShift := { X := 0, Y := 0 }
    WeightFunctionX := FullWeight
    WeightFunctionY := FullWeight }

/-- Payload of tile (0, 0) of a 2x1 tiling with one temporal and one spatial
sample: the first tile but not the last one.  Tiles are 2x2 pixels. -/
def FirstOfTwoTilesPayload : FImagePixelDataPayload :=
  { bWriteSampleToDisk := false
    SpatialSampleCount := 1
    AccumulationGamma := 1
    IsFirstTile := true
    IsLastTile := false
    IsFirstTemporalSample := true
    IsLastTemporalSample := true
    GetAccumulatorSize := { X := 4, Y := 2 }
    GetOverlapPaddedSize := { X := 2, Y := 2 }
    GetOverlapPaddedSizeIsValid := fun RawSize => RawSize.X == 2 && RawSize.Y == 2
    GetOverlappedOffset := { X := 0, Y := 0 }
    GetOverlappedSubpixelShift := { X := 0, Y := 0 }
    WeightFunctionX := FullWeight
    WeightFunctionY := FullWeight }

/-- A grey pixel. -/
def Grey (v : ℚ) : FLinearColor := { R := v, G := v, B := v, A := 1 }

/-- A 1x1 buffer of the given format: well formed, and not of the 2x2 size the
payloads above expect. -/
def OnePixelSample (PixelType : EImagePixelType) (p : FImagePixelDataPayload) : FImagePixelData :=
  { PixelType := PixelType, Size := { X := 1, Y := 1 }, Pixels := [Grey 3], Payload := some p }

/-- A 2x2 buffer of the given format: well formed and of the expected size. -/
def FourPixelSample (PixelType : EImagePixelType) (p : FImagePixelDataPayload) : FImagePixelData :=
  { PixelType := PixelType, Size := { X := 2, Y := 2 },
    Pixels := [Grey 1, Grey 2, Grey 3, Grey 4], Payload := some p }

/-- A buffer that declares 2x2 pixels but holds three. -/
def TruncatedSample (p : FImagePixelDataPayload) : FImagePixelData :=
  { PixelType := .Float32, Size := { X := 2, Y := 2 },
    Pixels := [Grey 1, Grey 2, Grey 3], Payload := some p }

/-- An accumulator that has not been allocated. -/
def EmptyAccumulator : FImageOverlappedAccumulator :=
  { PlaneSize := { X := 0, Y := 0 }, NumChannels := 0, AccumulationGamma := 1,
    ChannelPlanes := [], WeightPlane := [] }

/-- Arguments that accumulate alpha. -/
def AlphaArgs : FImageSampleAccumulationArgs := { bAccumulateAlpha := true }

/-- A 2x2 accumulator with four channels, allocated and zeroed. -/
def AllocatedAccumulator : FImageOverlappedAccumulator :=
  (EmptyAccumulator.InitMemory { X := 2, Y := 2 } 4).ZeroPlanes

/-- The accumulation of a 2x2 sample at offset (0, 0) with full weight. -/
def FullSampleCall : FAccumulateCall :=
  AccumulateArguments (SingleTilePayload 2 1 false)
    (FourPixelSample .Float32 (SingleTilePayload 2 1 false))

/-- The accumulation of a 1x1 sample at offset (0, 0) with full weight. -/
def SmallSampleCall : FAccumulateCall :=
  AccumulateArguments (SingleTilePayload 2 1 false)
    (OnePixelSample .Float32 (SingleTilePayload 2 1 false))

/-! ## The accumulator pool -/

/-- Modelled from the spec: `FMoviePipelinePassIdentifier` is declared in a
header that is absent.  The pool only compares identifiers for equality; the
spec calls it the output pass of the (frame, pass) key. -/
structure FMoviePipelinePassIdentifier where
  Name : String
  deriving DecidableEq, Repr

/-- Modelled from the spec: `FAccumulatorPool::FAccumulatorInstance` is
declared in a header that is absent.  The members are the four that
`BlockAndGetAccumulator_GameThread` (lines 526-562) reads and assigns;
`TaskPrereq` is a task handle or null. -/
structure FAccumulatorInstance where
  ActiveFrameNumber : Int
  ActivePassIdentifier : FMoviePipelinePassIdentifier
  bIsActive : Bool
  TaskPrereq : Option Nat
  deriving DecidableEq, Repr

/-- The accessor `IsActive` (lines 564-567). -/
def FAccumulatorInstance.IsActive (x : FAccumulatorInstance) : Bool :=
  x.bIsActive

/-- The setter `SetIsActive` (lines 569-572). -/
def FAccumulatorInstance.SetIsActive (x : FAccumulatorInstance) (bInIsActive : Bool) :
    FAccumulatorInstance :=
  { x with bIsActive := bInIsActive }

/-- The pool: the array `Accumulators`.  An instance is identified by its
index; the critical section is not modelled. -/
structure FAccumulatorPool where
  Accumulators : List FAccumulatorInstance
  deriving DecidableEq, Repr

/-- The test of the first loop (line 535): the instance carries the requested
frame number and pass identifier. -/
def FAccumulatorInstance.IsBoundTo (x : FAccumulatorInstance) (InFrameNumber : Int)
    (InPassIdentifier : FMoviePipelinePassIdentifier) : Bool :=
  InFrameNumber == x.ActiveFrameNumber && InPassIdentifier == x.ActivePassIdentifier

namespace FAccumulatorPool

/-- One iteration of the `while` loop of lines 531-559.  The first `for` loop
takes the lowest index whose instance carries the requested key; if there is
none, the second takes the lowest index whose instance is not active and
assigns its four members.  The result is `AvailableIndex` with the pool as the
iteration leaves it, or `none` when `AvailableIndex` is still `INDEX_NONE`. -/
def SearchOnce (Pool : FAccumulatorPool) (InFrameNumber : Int)
    (InPassIdentifier : FMoviePipelinePassIdentifier) : Option (Nat × FAccumulatorPool) :=
  match Pool.Accumulators.findIdx? (fun x => x.IsBoundTo InFrameNumber InPassIdentifier) with
  | some Index => some (Index, Pool)
  | none =>
    match Pool.Accumulators.findIdx? (fun x => !x.IsActive) with
    | some Index =>
      some (Index,
        { Accumulators := Pool.Accumulators.set Index
            { ActiveFrameNumber := InFrameNumber
              ActivePassIdentifier := InPassIdentifier
              bIsActive := true
              TaskPrereq := none } })
    | none => none

/-- The function `BlockAndGetAccumulator_GameThread` (lines 526-562): the
`while` loop runs until an index is found.  `Fuel` bounds the number of
iterations; `none` means the loop is still running when the fuel is used up.
The result is the index of the returned instance and the pool on return. -/
def BlockAndGetAccumulator_GameThread (Fuel : Nat) (Pool : FAccumulatorPool)
    (InFrameNumber : Int) (InPassIdentifier : FMoviePipelinePassIdentifier) :
    Option (Nat × FAccumulatorPool) :=
  match Fuel with
  | 0 => none
  | Fuel + 1 =>
    match Pool.SearchOnce InFrameNumber InPassIdentifier with
    | some Found => some Found
    | none => BlockAndGetAccumulator_GameThread Fuel Pool InFrameNumber InPassIdentifier

/-- The call `SetIsActive(bInIsActive)` on the instance at `Index`. -/
def SetIsActive (Pool : FAccumulatorPool) (Index : Nat) (bInIsActive : Bool) :
    FAccumulatorPool :=
  match Pool.Accumulators[Index]? with
  | some x => { Accumulators := Pool.Accumulators.set Index (x.SetIsActive bInIsActive) }
  | none => Pool

end FAccumulatorPool

/-- A call on the pool: a request for the accumulator of a key, run with some
fuel, or the release `SetIsActive(false)` of the instance at an index. -/
inductive FPoolCall where
  | BlockAndGetAccumulator (Fuel : Nat) (InFrameNumber : Int)
      (InPassIdentifier : FMoviePipelinePassIdentifier)
  | Release (Index : Nat)
  deriving DecidableEq, Repr

/-- The pool after a call.  A request that does not return leaves the pool as
it is. -/
def FAccumulatorPool.Apply (Pool : FAccumulatorPool) : FPoolCall → FAccumulatorPool
  | .BlockAndGetAccumulator Fuel InFrameNumber InPassIdentifier =>
    match Pool.BlockAndGetAccumulator_GameThread Fuel InFrameNumber InPassIdentifier with
    | some Found => Found.2
    | none => Pool
  | .Release Index => Pool.SetIsActive Index false

/-- The pool after a sequence of calls. -/
def FAccumulatorPool.Run (Pool : FAccumulatorPool) (Calls : List FPoolCall) : FAccumulatorPool :=
  Calls.foldl FAccumulatorPool.Apply Pool

/-- Two instances that are both active and carry the same key. -/
def SharesActiveKey (x y : FAccumulatorInstance) : Prop :=
  x.bIsActive = true ∧ y.bIsActive = true ∧ x.ActiveFrameNumber = y.ActiveFrameNumber ∧
    x.ActivePassIdentifier = y.ActivePassIdentifier

instance (x y : FAccumulatorInstance) : Decidable (SharesActiveKey x y) := by
  unfold SharesActiveKey
  infer_instance

/-- The invariant of the pool: no two active instances carry the same (frame
number, pass identifier) key. -/
def NoTwoActiveShareKey (Pool : FAccumulatorPool) : Prop :=
  Pool.Accumulators.Pairwise (fun x y => ¬ SharesActiveKey x y)

instance (Pool : FAccumulatorPool) : Decidable (NoTwoActiveShareKey Pool) := by
  unfold NoTwoActiveShareKey
  infer_instance

/-- An inactive instance tagged with frame -1 and an empty pass name. -/
def IdleInstance : FAccumulatorInstance :=
  { ActiveFrameNumber := -1, ActivePassIdentifier := { Name := "" }, bIsActive := false,
    TaskPrereq := none }

/-- A pool of two idle instances. -/
def IdlePool : FAccumulatorPool := { Accumulators := [IdleInstance, IdleInstance] }

/-- The pass identifier used in the examples. -/
def FinalImagePass : FMoviePipelinePassIdentifier := { Name := "FinalImage" }

/-- Whether the event is one of the two allocation calls, `InitMemory` or
`ZeroPlanes`. -/
def FEvent.IsAllocation : FEvent → Bool
  | .InitMemory _ _ => true
  | .ZeroPlanes => true
  | _ => false

/-- The accumulator of plane size `Size` with `Channels` channels after the
pixels `qs` have been added, with weight 1 and in row-major order, to zeroed
planes: the cells filled so far hold the linearised channel values and the
weight 1, the other cells are zero. -/
def PartiallyFilled (E : FEngine) (Size : FIntPoint) (Channels : Nat) (Gamma : ℚ)
    (qs : List FLinearColor) : FImageOverlappedAccumulator :=
  { PlaneSize := Size
    NumChannels := (Channels : Int)
    AccumulationGamma := Gamma
    ChannelPlanes :=
      List.take Channels
        [qs.map (fun q => E.Linearize Gamma q.R) ++
            List.replicate (FImageOverlappedAccumulator.PlaneCells Size - qs.length) 0,
          qs.map (fun q => E.Linearize Gamma q.G) ++
            List.replicate (FImageOverlappedAccumulator.PlaneCells Size - qs.length) 0,
          qs.map (fun q => E.Linearize Gamma q.B) ++
            List.replicate (FImageOverlappedAccumulator.PlaneCells Size - qs.length) 0,
          qs.map (fun q => E.Linearize Gamma q.A) ++
            List.replicate (FImageOverlappedAccumulator.PlaneCells Size - qs.length) 0]
    WeightPlane := List.replicate qs.length 1 ++
      List.replicate (FImageOverlappedAccumulator.PlaneCells Size - qs.length) 0 }

/-! ## Tiling of the projection and path tracer sampling -/

/-- The value of an `int32` expression: the mathematical result wrapped into
the range from -2^31 to 2^31 - 1. -/
def Wrap32 (x : Int) : Int :=
  (x + 2147483648) % 4294967296 - 2147483648

/-- Modelled from the spec: `FMoviePipelineRenderPassMetrics` is declared in a
header that is absent.  The members are those read and written by the tiling
functions (lines 473-524) and by the path tracer block of
`CalculateViewFamily` (lines 179-197). -/
structure FMoviePipelineRenderPassMetrics where
  TileIndexes : FIntPoint
  TileCounts : FIntPoint
  TileSize : FIntPoint
  OverlappedPad : FIntPoint
  TemporalSampleIndex : Int
  TemporalSampleCount : Int
  SpatialSampleIndex : Int
  SpatialSampleCount : Int
  bDiscardResult : Bool
  deriving DecidableEq

/-- Four component vector of the engine (`FVector4`). -/
structure FVector4 where
  X : ℚ
  Y : ℚ
  Z : ℚ
  W : ℚ
  deriving DecidableEq

/-- The 4x4 matrix of the engine (`FMatrix`): `M i j` is `M[i][j]`. -/
structure FMatrix where
  M : Fin 4 → Fin 4 → ℚ

/-- The local `OverlapScale.X` of `CalculatePrinciplePointOffsetForTiling`
(line 484): the product `2 * OverlappedPad.X` is an `int32` product, converted
to `float` after it is formed. -/
def OverlapScaleX (InSampleState : FMoviePipelineRenderPassMetrics) : ℚ :=
  1 + ((Wrap32 (2 * InSampleState.OverlappedPad.X) : Int) : ℚ) /
    (InSampleState.TileSize.X : ℚ)

/-- The local `OverlapScale.Y` of `CalculatePrinciplePointOffsetForTiling`
(line 485). -/
def OverlapScaleY (InSampleState : FMoviePipelineRenderPassMetrics) : ℚ :=
  1 + ((Wrap32 (2 * InSampleState.OverlappedPad.Y) : Int) : ℚ) /
    (InSampleState.TileSize.Y : ℚ)

/-- The first value of the local `TilePrincipalPointOffset.X` of
`CalculatePrinciplePointOffsetForTiling` (line 480): the middle of the tile in
offset screen space. -/
def TileMiddleOffsetX (InSampleState : FMoviePipelineRenderPassMetrics) : ℚ :=
  ((InSampleState.TileIndexes.X : ℚ) + 1 / 2 - (1 / 2 * (InSampleState.TileCounts.X : ℚ))) * 2

/-- The first value of the local `TilePrincipalPointOffset.Y` of
`CalculatePrinciplePointOffsetForTiling` (line 481). -/
def TileMiddleOffsetY (InSampleState : FMoviePipelineRenderPassMetrics) : ℚ :=
  ((InSampleState.TileIndexes.Y : ℚ) + 1 / 2 - (1 / 2 * (InSampleState.TileCounts.Y : ℚ))) * 2

/-- The function `CalculatePrinciplePointOffsetForTiling` (lines 473-498).  The
integer products are `int32` products; the `float` computation is exact: every
`float` is a rational and `float(n)` is the integer `n`.  A division by zero,
which the code answers with an infinity or a NaN, has the value 0 here; no
statement below rests on that value. -/
def CalculatePrinciplePointOffsetForTiling (InSampleState : FMoviePipelineRenderPassMetrics) :
    FVector4 :=
  let OffsetX1 := TileMiddleOffsetX InSampleState / OverlapScaleX InSampleState
  let OffsetY1 := TileMiddleOffsetY InSampleState / OverlapScaleY InSampleState
  let TilePrincipalPointScaleX := OverlapScaleX InSampleState / (InSampleState.TileCounts.X : ℚ)
  let TilePrincipalPointScaleY := OverlapScaleY InSampleState / (InSampleState.TileCounts.Y : ℚ)
  let OffsetX2 := OffsetX1 * TilePrincipalPointScaleX
  let OffsetY2 := OffsetY1 * TilePrincipalPointScaleY
  { X := OffsetX2, Y := -OffsetY2, Z := TilePrincipalPointScaleX, W := TilePrincipalPointScaleY }

/-- The pad ratio of the X axis in `ModifyProjectionMatrixForTiling` (lines
502-509): 1 unless both pads are positive.  The sum
`OverlappedPad.X * 2 + TileSize.X` is formed in `int32` before it is converted
to `float`. -/
def PadRatioX (InSampleState : FMoviePipelineRenderPassMetrics) : ℚ :=
  if InSampleState.OverlappedPad.X > 0 ∧ InSampleState.OverlappedPad.Y > 0 then
    ((Wrap32 (Wrap32 (InSampleState.OverlappedPad.X * 2) + InSampleState.TileSize.X) : Int) :
        ℚ) / (InSampleState.TileSize.X : ℚ)
  else 1

/-- The pad ratio of the Y axis in `ModifyProjectionMatrixForTiling` (lines
502-509): 1 unless both pads are positive.  The sum
`OverlappedPad.Y * 2 + TileSize.Y` is formed in `int32` before it is converted
to `float`. -/
def PadRatioY (InSampleState : FMoviePipelineRenderPassMetrics) : ℚ :=
  if InSampleState.OverlappedPad.X > 0 ∧ InSampleState.OverlappedPad.Y > 0 then
    ((Wrap32 (Wrap32 (InSampleState.OverlappedPad.Y * 2) + InSampleState.TileSize.Y) : Int) :
        ℚ) / (InSampleState.TileSize.Y : ℚ)
  else 1

/-- The local `ScaleX` of `ModifyProjectionMatrixForTiling` (line 511). -/
def ProjectionScaleX (InSampleState : FMoviePipelineRenderPassMetrics) : ℚ :=
  PadRatioX InSampleState / (InSampleState.TileCounts.X : ℚ)

/-- The local `ScaleY` of `ModifyProjectionMatrixForTiling` (line 512). -/
def ProjectionScaleY (InSampleState : FMoviePipelineRenderPassMetrics) : ℚ :=
  PadRatioY InSampleState / (InSampleState.TileCounts.Y : ℚ)

/-- The local `OffsetX` of `ModifyProjectionMatrixForTiling` (line 519). -/
def ProjectionOffsetX (InSampleState : FMoviePipelineRenderPassMetrics) : ℚ :=
  -(((InSampleState.TileIndexes.X : ℚ) + 1 / 2 - (InSampleState.TileCounts.X : ℚ) / 2) * 2)

/-- The local `OffsetY` of `ModifyProjectionMatrixForTiling` (line 520). -/
def ProjectionOffsetY (InSampleState : FMoviePipelineRenderPassMetrics) : ℚ :=
  ((InSampleState.TileIndexes.Y : ℚ) + 1 / 2 - (InSampleState.TileCounts.Y : ℚ) / 2) * 2

/-- The function `ModifyProjectionMatrixForTiling` (lines 500-524), in exact
arithmetic: the matrix after the four assignments and `OutDoFSensorScale`.
Line 523 divides `OffsetY` by `PadRatioX`. -/
def ModifyProjectionMatrixForTiling (InSampleState : FMoviePipelineRenderPassMetrics)
    (InOutProjectionMatrix : FMatrix) : FMatrix × ℚ :=
  ({ M := fun i j =>
      if i = 0 ∧ j = 0 then InOutProjectionMatrix.M 0 0 / ProjectionScaleX InSampleState
      else if i = 1 ∧ j = 1 then InOutProjectionMatrix.M 1 1 / ProjectionScaleY InSampleState
      else if i = 2 ∧ j = 0 then
        InOutProjectionMatrix.M 2 0 + ProjectionOffsetX InSampleState / PadRatioX InSampleState
      else if i = 2 ∧ j = 1 then
        InOutProjectionMatrix.M 2 1 + ProjectionOffsetY InSampleState / PadRatioX InSampleState
      else InOutProjectionMatrix.M i j },
    ProjectionScaleX InSampleState)

/-- The members of the view that the path tracer block assigns. -/
structure FPathTracerView where
  bOverride_PathTracingSamplesPerPixel : Bool
  PathTracingSamplesPerPixel : Int
  bForcePathTracerReset : Bool
  deriving DecidableEq

/-- The path tracer block of `CalculateViewFamily` (lines 179-197).  The show
flag `PathTracing` is an input.  No other statement of the function under
`src/` writes `bDiscardResult`, so the value the block leaves is the value on
return. -/
def PathTracerSampling (PathTracing : Bool) (InOutSampleState : FMoviePipelineRenderPassMetrics)
    (View : FPathTracerView) : FMoviePipelineRenderPassMetrics × FPathTracerView :=
  if PathTracing then
    ({ InOutSampleState with
        bDiscardResult := InOutSampleState.bDiscardResult ||
          !(InOutSampleState.SpatialSampleIndex ==
            Wrap32 (InOutSampleState.SpatialSampleCount - 1)) },
      { bOverride_PathTracingSamplesPerPixel := true
        PathTracingSamplesPerPixel := InOutSampleState.SpatialSampleCount
        bForcePathTracerReset := InOutSampleState.SpatialSampleIndex == 0 })
  else (InOutSampleState, View)

/-- A sample state of a tiling with the given tile index, tile count, tile
size and overlap pad, first of one temporal and one spatial sample. -/
def TiledState (TileIndexes TileCounts TileSize OverlappedPad : FIntPoint) :
    FMoviePipelineRenderPassMetrics :=
  { TileIndexes := TileIndexes
    TileCounts := TileCounts
    TileSize := TileSize
    OverlappedPad := OverlappedPad
    TemporalSampleIndex := 0
    TemporalSampleCount := 1
    SpatialSampleIndex := 0
    SpatialSampleCount := 1
    bDiscardResult := false }

/-- The matrix with all entries zero. -/
def ZeroMatrix : FMatrix := { M := fun _ _ => 0 }

/-! ## Strings of the host engine

`FString` and its operations belong to the host engine, not to this
repository.  They are modelled after the engine's documented behaviour: a
string is the sequence of its UTF-16 code units, and `operator==`, `EndsWith`,
`StartsWith` and `Find` compare with `ESearchCase::IgnoreCase`, their default,
which folds the ASCII letters only. -/

/-- An `FString`: its code units (`TCHAR`, one UTF-16 code unit each, given by
its numeric value) in order, without the terminating NUL. -/
abbrev FString := List Nat

/-- The string literal `TEXT("...")`. -/
def TEXT (s : String) : FString := s.toList.map Char.toNat

/-- The conversion `TCHAR(x)` of an `int32` to a 16-bit code unit. -/
def ToTCHAR (x : Int) : Nat := (x % 65536).toNat

/-- Lower case of an ASCII letter; every other code unit is left as it is. -/
def ToLower (c : Nat) : Nat := if 65 ≤ c ∧ c ≤ 90 then c + 32 else c

/-- `operator==` of `FString` (also against a `TCHAR*` literal and inside
`TArray::Find` and `TArray::AddUnique`): equality ignoring ASCII case. -/
def FString.Equals (A B : FString) : Bool := decide (A.map ToLower = B.map ToLower)

/-- `FString::Len`. -/
def FString.Len (S : FString) : Int := S.length

/-- `FString::EndsWith` with the default `ESearchCase::IgnoreCase`; an empty
suffix is never found. -/
def FString.EndsWith (S InSuffix : FString) : Bool :=
  !InSuffix.isEmpty && decide (InSuffix.length ≤ S.length) &&
    FString.Equals (S.drop (S.length - InSuffix.length)) InSuffix

/-- `FString::StartsWith` with the default `ESearchCase::IgnoreCase`. -/
def FString.StartsWith (S InPrefix : FString) : Bool :=
  !InPrefix.isEmpty && decide (InPrefix.length ≤ S.length) &&
    FString.Equals (S.take InPrefix.length) InPrefix

/-- `FString::Left`: the first `Count` code units. -/
def FString.Left (S : FString) (Count : Int) : FString := S.take Count.toNat

/-- `FString::LeftChop`: the string without its last `Count` code units. -/
def FString.LeftChop (S : FString) (Count : Int) : FString :=
  S.take (S.length - Count.toNat)

/-- `FString::RightChop`: the string without its first `Count` code units. -/
def FString.RightChop (S : FString) (Count : Int) : FString := S.drop Count.toNat

/-- Search of `FString::Find` from the code unit at position `Index` on. -/
def FString.FindFrom (SubStr : FString) : FString → Int → Int
  | [], _ => -1
  | c :: Rest, Index =>
    if (SubStr.map ToLower).isPrefixOf ((c :: Rest).map ToLower) then Index
    else FString.FindFrom SubStr Rest (Index + 1)

/-- `FString::Find` with its defaults (ignoring case, from the start): the
index of the first occurrence, or `INDEX_NONE`, which is -1. -/
def FString.Find (S SubStr : FString) : Int := FString.FindFrom SubStr S 0

/-- The pieces collected by `ParseIntoArray`: `Skip` code units of a delimiter
just found are still to be passed over; `Cur` is the piece read so far. -/
def FString.ParseIntoArrayFrom (Delim : FString) : Nat → FString → FString → List FString
  | _, Cur, [] => if Cur.isEmpty then [] else [Cur]
  | Skip + 1, Cur, _ :: Rest => FString.ParseIntoArrayFrom Delim Skip Cur Rest
  | 0, Cur, c :: Rest =>
    if Delim.isPrefixOf (c :: Rest) then
      (if Cur.isEmpty then [] else [Cur]) ++
        FString.ParseIntoArrayFrom Delim (Delim.length - 1) [] Rest
    else FString.ParseIntoArrayFrom Delim 0 (Cur ++ [c]) Rest

/-- `FString::ParseIntoArray` with `InCullEmpty` at its default, true: the
string is cut at every occurrence of the delimiter, found from the left by an
exact (case sensitive) search, and the empty pieces are dropped. -/
def FString.ParseIntoArray (S Delim : FString) : List FString :=
  if Delim.isEmpty then [] else FString.ParseIntoArrayFrom Delim 0 [] S

/-- The decimal digits of `n`, most significant first, put before `Acc`. -/
def FromIntDigits : Nat → Nat → FString → FString
  | 0, _, Acc => Acc
  | Fuel + 1, n, Acc =>
    if n < 10 then (48 + n) :: Acc
    else FromIntDigits Fuel (n / 10) ((48 + n % 10) :: Acc)

/-- `FString::FromInt`: the decimal representation, with a minus sign for a
negative number. -/
def FString.FromInt (Num : Int) : FString :=
  if Num < 0 then 45 :: FromIntDigits (Num.natAbs + 1) Num.natAbs []
  else FromIntDigits (Num.natAbs + 1) Num.natAbs []

/-- White space as skipped by `Strtoi`. -/
def IsSpace (c : Nat) : Bool := decide (c = 32 ∨ (9 ≤ c ∧ c ≤ 13))

/-- The value of the leading decimal digits, continuing from `Acc`. -/
def StrtoiDigits : FString → Nat → Nat
  | [], Acc => Acc
  | c :: Rest, Acc =>
    if 48 ≤ c ∧ c ≤ 57 then StrtoiDigits Rest (Acc * 10 + (c - 48)) else Acc

/-- `FCString::Strtoi` in base 10: white space is skipped, a sign is read, the
leading digits give the value (0 when there is none) and the value is held
within the `int32` range, as `wcstol` does with a 32-bit `long`. -/
def Strtoi (S : FString) : Int :=
  let Value : Int :=
    match S.dropWhile IsSpace with
    | 45 :: Rest => -(StrtoiDigits Rest 0 : Int)
    | 43 :: Rest => (StrtoiDigits Rest 0 : Int)
    | Rest => (StrtoiDigits Rest 0 : Int)
  max (-2147483648) (min Value 2147483647)

/-! ## Incremental cooking of tiles -/

/-- The configuration of `UProceduralIncrementalCooker` that the tile loop of
`Cook` reads (`int32` properties loaded from the config file). -/
structure UProceduralIncrementalCooker where
  TilesPerAxis : Int
  TilesPerIncrement : Int
  TileStartIndex : Int
  deriving DecidableEq

/-- What happens in one pass through the tile loop of `Cook`, as far as the
engine, Houdini and the overridable hooks decide it. -/
inductive FIncrementOutcome where
  /-- The session restart, the asset load or the actor creation fails: `Cook`
  returns false before `OnPreCookTiles` is called. -/
  | SetupFails
  /-- The hook `OnPreCookTiles` is called and returns false. -/
  | PreCookTilesFails
  /-- The hook `OnPreCookTiles` succeeds and `OnPreSave`, `OnPostCookTiles` or
  the cook itself fails. -/
  | CookFails
  /-- The increment is cooked, baked and saved. -/
  | Succeeds
  deriving DecidableEq

/-- The surroundings of one run of `Cook`. -/
structure FCookEnvironment where
  /-- The world is valid and its config file exists. -/
  bWorldAndConfig : Bool
  /-- The hook `OnPreCook` succeeds and a Houdini session is available. -/
  bPreCookAndSession : Bool
  /-- The outcome of each pass through the loop, counted from 0. -/
  Increment : Nat → FIncrementOutcome

/-- The result of `Cook`: its return value and the tile ranges
`(TileIndexStart, TileIndexEnd)` handed to `OnPreCookTiles`, in call order. -/
structure FCookResult where
  bSuccess : Bool
  PreCookTiles : List (Int × Int)
  deriving DecidableEq

/-- `FMath::Clamp`. -/
def Clamp (X Min Max : Int) : Int := if X < Min then Min else if X < Max then X else Max

/-- The tile loop of `Cook`, in `int32` arithmetic, from its pass number `k`
on.  The result is `none` when the fuel is used up before the loop ends. -/
def CookTiles (C : UProceduralIncrementalCooker) (Env : FCookEnvironment)
    (TileTotalCount : Int) : Nat → Nat → Int → List (Int × Int) → Option FCookResult
  | 0, _, _, _ => none
  | Fuel + 1, k, TileIndexStart, Calls =>
    if TileIndexStart < TileTotalCount then
      let TileIndexEnd :=
        Wrap32 (min (Wrap32 (TileIndexStart + C.TilesPerIncrement)) TileTotalCount - 1)
      match Env.Increment k with
      | .SetupFails => some { bSuccess := false, PreCookTiles := Calls }
      | .PreCookTilesFails =>
        some { bSuccess := false, PreCookTiles := Calls ++ [(TileIndexStart, TileIndexEnd)] }
      | .CookFails =>
        some { bSuccess := false, PreCookTiles := Calls ++ [(TileIndexStart, TileIndexEnd)] }
      | .Succeeds =>
        CookTiles C Env TileTotalCount Fuel (k + 1) (Wrap32 (TileIndexEnd + 1))
          (Calls ++ [(TileIndexStart, TileIndexEnd)])
    else some { bSuccess := true, PreCookTiles := Calls }

/-- The method `UProceduralIncrementalCooker::Cook`. -/
def Cook (C : UProceduralIncrementalCooker) (Env : FCookEnvironment) (Fuel : Nat) :
    Option FCookResult :=
  if !Env.bWorldAndConfig then some { bSuccess := false, PreCookTiles := [] }
  else if C.TilesPerIncrement < 1 then some { bSuccess := false, PreCookTiles := [] }
  else
    let TileTotalCount := Wrap32 (C.TilesPerAxis * C.TilesPerAxis)
    let TileEffectiveStartIndex := Clamp C.TileStartIndex 0 TileTotalCount
    if !Env.bPreCookAndSession then some { bSuccess := false, PreCookTiles := [] }
    else CookTiles C Env TileTotalCount Fuel 0 TileEffectiveStartIndex []

/-- Surroundings in which nothing fails. -/
def AllSucceed : FCookEnvironment :=
  { bWorldAndConfig := true, bPreCookAndSession := true, Increment := fun _ => .Succeeds }

/-- The tiles of a range handed to `OnPreCookTiles`, both ends included. -/
def TilesOf (R : Int × Int) : List Int :=
  (List.range (R.2 - R.1 + 1).toNat).map (fun (i : Nat) => R.1 + (i : Int))

/-! ## Parameter sheet of an MDL material -/

/-- The enumeration `EMdlValueType`. -/
inductive EMdlValueType where
  | MDL_UNKNOWN | MDL_BOOL | MDL_INT | MDL_FLOAT | MDL_FLOAT2 | MDL_FLOAT3 | MDL_FLOAT4
  | MDL_COLOR | MDL_TEXTURE
  deriving DecidableEq

/-- The structure `FMDLParameterInfo`. -/
structure FMDLParameterInfo where
  ParameterType : EMdlValueType
  ParameterName : FString
  DisplayName : FString
  deriving DecidableEq

/-- The structure `FMDLParametersList`. -/
structure FMDLParametersList where
  ParametersList : List FMDLParameterInfo
  deriving DecidableEq

/-- What the MDL SDK reports for one parameter of the compiled material. -/
structure FCompiledParameter where
  /-- The result of `get_parameter_name`. -/
  ParameterName : FString
  /-- The display name set by `FindDisplayNameByParameterName`, or `none` when
  it returns false. -/
  DisplayName : Option FString
  /-- The value type chosen by the switch on the kind of `get_argument`, or
  `none` when there is no argument. -/
  ValueType : Option EMdlValueType

/-- The state of the first loop of `UpdateParametersSheet`. -/
structure FSheetState where
  ParametersList : List FMDLParameterInfo
  UniqueDisplayNames : List FString
  DisplayNamesToLabel : List FString

/-- The test `TArray::Find(Item) != INDEX_NONE` on an array of strings. -/
def Contains (Names : List FString) (Item : FString) : Bool :=
  Names.any (fun Name => FString.Equals Name Item)

/-- The method `TArray::AddUnique` on an array of strings. -/
def AddUnique (Names : List FString) (Item : FString) : List FString :=
  if Contains Names Item then Names else Names ++ [Item]

/-- One pass of the first loop of `UpdateParametersSheet`. -/
def CollectParameter (S : FSheetState) (P : FCompiledParameter) : FSheetState :=
  match P.DisplayName, P.ValueType with
  | some DisplayName, some ValueType =>
    { ParametersList := S.ParametersList ++
        [{ ParameterType := ValueType, ParameterName := P.ParameterName,
           DisplayName := DisplayName }],
      UniqueDisplayNames :=
        if Contains S.UniqueDisplayNames DisplayName then S.UniqueDisplayNames
        else S.UniqueDisplayNames ++ [DisplayName],
      DisplayNamesToLabel :=
        if Contains S.UniqueDisplayNames DisplayName then
          AddUnique S.DisplayNamesToLabel DisplayName
        else S.DisplayNamesToLabel }
  | _, _ => S

/-- The inner loop of the labelling: every entry whose display name equals
`DispName` gets the label `DispName`, a blank and the next number. -/
def LabelDisplayName (DispName : FString) : List FMDLParameterInfo → Int →
    List FMDLParameterInfo
  | [], _ => []
  | Info :: Rest, Number =>
    if FString.Equals Info.DisplayName DispName then
      { Info with DisplayName := DispName ++ TEXT " " ++ FString.FromInt (Number + 1) } ::
        LabelDisplayName DispName Rest (Number + 1)
    else Info :: LabelDisplayName DispName Rest Number

/-- The method `FMDLImporterUtility::UpdateParametersSheet`: the list it
stores in `List.ParametersList`. -/
def UpdateParametersSheet (Parameters : List FCompiledParameter) : FMDLParametersList :=
  let S := Parameters.foldl CollectParameter
    { ParametersList := [], UniqueDisplayNames := [], DisplayNamesToLabel := [] }
  { ParametersList := S.DisplayNamesToLabel.foldl
      (fun ParametersList DispName => LabelDisplayName DispName ParametersList 0)
      S.ParametersList }

/-- A float parameter with the given parameter and display names. -/
def FloatParameter (ParameterName DisplayName : String) : FCompiledParameter :=
  { ParameterName := TEXT ParameterName, DisplayName := some (TEXT DisplayName),
    ValueType := some .MDL_FLOAT }

/-- The display names of a parameter list, in order. -/
def DisplayNames (L : FMDLParametersList) : List FString :=
  L.ParametersList.map (fun Info => Info.DisplayName)

/-! ## Mangling of MDL paths -/

/-- The package that starts a mangled path. -/
def MangledPathPrefixPkg : FString := TEXT "MANGLED"

/-- The mark that starts a mangled element and ends its length. -/
def MangledElemPrefix : FString := TEXT "z"

/-- The file suffix of an MDL module. -/
def MDLSuffix : FString := TEXT ".mdl"

/-- The separator of a file path. -/
def FileSeparator : FString := TEXT "/"

/-- The separator of an MDL name. -/
def MDLSeparator : FString := TEXT "::"

/-- The function `IsValidMdlPathChar`: ASCII letters and digits. -/
def IsValidMdlPathChar (c : Nat) : Bool :=
  decide ((65 ≤ c ∧ c ≤ 90) ∨ (97 ≤ c ∧ c ≤ 122) ∨ (48 ≤ c ∧ c ≤ 57))

/-- The loop of `MangleMdlPath` over the code units of one element: a valid
one is appended as it is, any other as its number between two underscores. -/
def MangleChars (Output : FString) : FString → FString
  | [] => Output
  | Char :: Rest =>
    if IsValidMdlPathChar Char then MangleChars (Output ++ [Char]) Rest
    else MangleChars (Output ++ (TEXT "_" ++ FString.FromInt Char ++ TEXT "_")) Rest

/-- The loop of `MangleMdlPath` over the elements, from `ModuleIndex` on; the
result is `(Output, RelativeOutput)`. -/
def MangleModules (Separator : FString) (Num : Int) :
    List FString → Int → FString → FString → FString × FString
  | [], _, Output, RelativeOutput => (Output, RelativeOutput)
  | Module :: Rest, ModuleIndex, Output, RelativeOutput =>
    if FString.Equals Module (TEXT ".") || FString.Equals Module (TEXT "..") then
      MangleModules Separator Num Rest (ModuleIndex + 1) Output
        (RelativeOutput ++ (Module ++ Separator))
    else
      let Output1 :=
        if Output.isEmpty then Output ++ (MangledPathPrefixPkg ++ Separator) else Output
      let Output2 := Output1 ++ MangledElemPrefix
      let Output3 := Output2 ++ FString.FromInt (FString.Len Module)
      let Output4 := Output3 ++ MangledElemPrefix
      let Output5 := MangleChars Output4 Module
      let Output6 := if ModuleIndex < Num - 1 then Output5 ++ Separator else Output5
      MangleModules Separator Num Rest (ModuleIndex + 1) Output6 RelativeOutput

/-- The function `MangleMdlPath`. -/
def MangleMdlPath (Input : FString) (bMDLSeparator : Bool) : FString :=
  let bHasSuffix := FString.EndsWith Input MDLSuffix
  let ModulePath :=
    if bHasSuffix then FString.LeftChop Input (FString.Len MDLSuffix) else Input
  let Separator := if bMDLSeparator then MDLSeparator else FileSeparator
  let bStartWithSeparator := FString.StartsWith ModulePath Separator
  let Modules := FString.ParseIntoArray ModulePath Separator
  let Out := MangleModules Separator Modules.length Modules 0 [] []
  let Output := (if bStartWithSeparator then Separator else Out.2) ++ Out.1
  if bHasSuffix then Output ++ MDLSuffix else Output

/-- `FString::operator+=` with one `TCHAR` (`AppendChar`): the code unit 0
adds nothing to the string. -/
def AppendChar (S : FString) (c : Nat) : FString := if c = 0 then S else S ++ [c]

/-- The loop of `UnmangleMdlPath` over the code units after the length of a
mangled element; the result is `UnmangledModule`. -/
def UnmangleChars : FString → Bool → FString → FString → FString
  | [], _, _, UnmangledModule => UnmangledModule
  | Char :: Rest, bUnmangleChar, MangledChar, UnmangledModule =>
    if Char = 95 then
      if !bUnmangleChar then UnmangleChars Rest true [] UnmangledModule
      else
        UnmangleChars Rest false MangledChar
          (AppendChar UnmangledModule (ToTCHAR (Strtoi MangledChar)))
    else if bUnmangleChar then
      UnmangleChars Rest true (AppendChar MangledChar Char) UnmangledModule
    else UnmangleChars Rest false MangledChar (AppendChar UnmangledModule Char)

/-- What `UnmangleMdlPath` appends to `Output` for one element that follows
the package. -/
def UnmangleModule (Module : FString) : FString :=
  if !FString.StartsWith Module MangledElemPrefix then Module
  else
    let MangledModule := FString.RightChop Module (FString.Len MangledElemPrefix)
    let PrefixIndex := FString.Find MangledModule MangledElemPrefix
    if PrefixIndex = -1 then Module
    else
      let CheckSize := Strtoi (FString.Left MangledModule PrefixIndex)
      let MangledModule1 :=
        FString.RightChop MangledModule (PrefixIndex + FString.Len MangledElemPrefix)
      let UnmangledModule := UnmangleChars MangledModule1 false [] []
      if FString.Len UnmangledModule = CheckSize then UnmangledModule else Module

/-- The loop of `UnmangleMdlPath` over the elements, from `ModuleIndex` on; the
result is `(Output, RelativeOutput)`, or `none` when the loop is left by
`return Input`. -/
def UnmangleModules (Separator : FString) (Num : Int) :
    List FString → Int → Bool → FString → FString → Option (FString × FString)
  | [], _, _, Output, RelativeOutput => some (Output, RelativeOutput)
  | Module :: Rest, ModuleIndex, bPrefixPkgLocated, Output, RelativeOutput =>
    if FString.Equals Module (TEXT ".") || FString.Equals Module (TEXT "..") then
      UnmangleModules Separator Num Rest (ModuleIndex + 1) bPrefixPkgLocated Output
        (RelativeOutput ++ (Module ++ Separator))
    else if FString.Equals Module MangledPathPrefixPkg then
      UnmangleModules Separator Num Rest (ModuleIndex + 1) true Output RelativeOutput
    else if !bPrefixPkgLocated then none
    else
      let Output1 := Output ++ UnmangleModule Module
      let Output2 := if ModuleIndex < Num - 1 then Output1 ++ Separator else Output1
      UnmangleModules Separator Num Rest (ModuleIndex + 1) bPrefixPkgLocated Output2
        RelativeOutput

/-- The function `UnmangleMdlPath`. -/
def UnmangleMdlPath (Input : FString) (bMDLSeparator : Bool) : FString :=
  let Separator := if bMDLSeparator then MDLSeparator else FileSeparator
  let bHasSuffix := FString.EndsWith Input MDLSuffix
  let ModulePath :=
    if bHasSuffix then FString.LeftChop Input (FString.Len MDLSuffix) else Input
  let bStartWithSeparator := FString.StartsWith ModulePath Separator
  let Modules := FString.ParseIntoArray ModulePath Separator
  match UnmangleModules Separator Modules.length Modules 0 false [] [] with
  | none => Input
  | some Out =>
    let Output := (if bStartWithSeparator then Separator else Out.2) ++ Out.1
    if bHasSuffix then Output ++ MDLSuffix else Output

/-- The separator chosen by the flag `bMDLSeparator`. -/
def PathSeparator (bMDLSeparator : Bool) : FString :=
  if bMDLSeparator then MDLSeparator else FileSeparator

/-- The test of both path functions for a relative element, "." or "..". -/
def IsRelativeModule (Module : FString) : Bool :=
  FString.Equals Module (TEXT ".") || FString.Equals Module (TEXT "..")

/-- The path without the suffix that both path functions set aside. -/
def ModulePathOf (Input : FString) : FString :=
  if FString.EndsWith Input MDLSuffix then FString.LeftChop Input (FString.Len MDLSuffix)
  else Input

/-- The elements of a path, joined by single separators. -/
def JoinPath (Separator : FString) : List FString → FString
  | [] => []
  | [Element] => Element
  | Element :: Next :: Rest => Element ++ Separator ++ JoinPath Separator (Next :: Rest)

/-- A path written out: an optional leading separator, the elements joined by
single separators, and an optional suffix ".mdl". -/
def WritePath (bMDLSeparator bLeadingSeparator bSuffix : Bool) (Elements : List FString) :
    FString :=
  (if bLeadingSeparator then PathSeparator bMDLSeparator else []) ++
    JoinPath (PathSeparator bMDLSeparator) Elements ++ (if bSuffix then MDLSuffix else [])

/-- An ASCII letter, a digit or the underscore. -/
def IsIdentifierChar (c : Nat) : Bool := IsValidMdlPathChar c || decide (c = 95)

/-- An ASCII letter. -/
def IsLetter (c : Nat) : Bool := decide ((65 ≤ c ∧ c ≤ 90) ∨ (97 ≤ c ∧ c ≤ 122))

/-- Words, each followed by the separator, and a last word. -/
def Chain (Separator : FString) (Words : List FString) (Last : FString) : FString :=
  (Words.map (fun w => w ++ Separator)).flatten ++ Last

/-- The mangled form of one element: the mark, the length of the element, the
mark, and the code units of the element, each kept or written as its number. -/
def MangledElement (Module : FString) : FString :=
  MangledElemPrefix ++ FString.FromInt (FString.Len Module) ++ MangledElemPrefix ++
    MangleChars [] Module

/-- A word of the mangled output: the package, or the mangled form of an
element that satisfies `Q`. -/
def IsMangledWord (Q : FString → Prop) (w : FString) : Prop :=
  w = MangledPathPrefixPkg ∨ ∃ Module, Q Module ∧ w = MangledElement Module

/-- The words of the mangled form of a list of elements: none for no element,
else the package and the mangled elements. -/
def MangledWords (Modules : List FString) : List FString :=
  if Modules.isEmpty then [] else MangledPathPrefixPkg :: Modules.map MangledElement

/-- The normal form of a path.  With the elements of the path being the pieces
that `ParseIntoArray` cuts from it once a trailing ".mdl" (in any letter case)
is set aside: the separator if the path starts with one, else its elements "."
and "..", each followed by a separator; then its other elements joined by
single separators; then ".mdl" if the path ended in it. -/
def NormalPath (Input : FString) (bMDLSeparator : Bool) : FString :=
  (if FString.StartsWith (ModulePathOf Input) (PathSeparator bMDLSeparator) then
      PathSeparator bMDLSeparator
    else
      Chain (PathSeparator bMDLSeparator)
        ((FString.ParseIntoArray (ModulePathOf Input) (PathSeparator bMDLSeparator)).filter
          IsRelativeModule) []) ++
    JoinPath (PathSeparator bMDLSeparator)
      ((FString.ParseIntoArray (ModulePathOf Input) (PathSeparator bMDLSeparator)).filter
        (fun Module => !IsRelativeModule Module)) ++
    (if FString.EndsWith Input MDLSuffix then MDLSuffix else [])

/-! ## Properties of the task function -/

/-- The run of a well-formed sample that takes the early return of line 632:
the single-sample copy, if requested, then the sample itself. -/
theorem run_fast_path (E : FEngine) (InParams : FImageSampleAccumulationArgs)
    (a : FImageOverlappedAccumulator) (s : FImagePixelData) (p : FImagePixelDataPayload)
    (hwf : s.IsDataWellFormed = true) (hp : s.Payload = some p)
    (hfast : TakesFastPath p = true) :
    AccumulateSample_TaskThread E InParams a s =
      { Status := .Returned
        Events := SendSingleSample p s ++ [FEvent.OnCompleteRenderPassDataAvailable s]
        Accumulator := a } := by
  unfold TakesFastPath at hfast
  simp only [AccumulateSample_TaskThread, hwf, hp, hfast]
  simp

/-- The run of a well-formed sample that does not take the early return and is
stopped by the `check(0)` of the resize block. -/
theorem run_resize_rejected (E : FEngine) (InParams : FImageSampleAccumulationArgs)
    (a : FImageOverlappedAccumulator) (s : FImagePixelData) (p : FImagePixelDataPayload)
    (hwf : s.IsDataWellFormed = true) (hp : s.Payload = some p)
    (hslow : TakesFastPath p = false) (hres : ResizeIfNeeded E p s = none) :
    AccumulateSample_TaskThread E InParams a s =
      { Status := .Fatal
        Events := EventsBeforeResize InParams p a s
        Accumulator := (AllocateIfNeeded InParams p a).1 } := by
  unfold TakesFastPath at hslow
  simp only [AccumulateSample_TaskThread, hwf, hp, hslow, hres, EventsBeforeResize]
  simp

/-- The run of a well-formed sample that does not take the early return and
whose buffer fails the size check of line 719. -/
theorem run_size_check_fails (E : FEngine) (InParams : FImageSampleAccumulationArgs)
    (a : FImageOverlappedAccumulator) (s d : FImagePixelData) (p : FImagePixelDataPayload)
    (hwf : s.IsDataWellFormed = true) (hp : s.Payload = some p)
    (hslow : TakesFastPath p = false) (hres : ResizeIfNeeded E p s = some d)
    (hbad : p.GetOverlapPaddedSizeIsValid d.Size = false) :
    AccumulateSample_TaskThread E InParams a s =
      { Status := .Fatal
        Events := EventsBeforeResize InParams p a s
        Accumulator := (AllocateIfNeeded InParams p a).1 } := by
  unfold TakesFastPath at hslow
  simp only [AccumulateSample_TaskThread, hwf, hp, hslow, hres, hbad, EventsBeforeResize]
  simp

/-- The run of a well-formed sample that does not take the early return and
reaches the accumulation with the buffer `d`. -/
theorem run_accumulates (E : FEngine) (InParams : FImageSampleAccumulationArgs)
    (a : FImageOverlappedAccumulator) (s d : FImagePixelData) (p : FImagePixelDataPayload)
    (hwf : s.IsDataWellFormed = true) (hp : s.Payload = some p)
    (hslow : TakesFastPath p = false) (hres : ResizeIfNeeded E p s = some d)
    (hok : p.GetOverlapPaddedSizeIsValid d.Size = true) :
    AccumulateSample_TaskThread E InParams a s =
      if p.IsLastTile && p.IsLastTemporalSample then
        { Status := .Returned
          Events := EventsBeforeResize InParams p a s ++
            [FEvent.AccumulatePixelData (AccumulateArguments p d)] ++
            [(FetchFinal E p (AccumulatedState E InParams p a d) d).1,
             FEvent.OnCompleteRenderPassDataAvailable
               (FetchFinal E p (AccumulatedState E InParams p a d) d).2,
             FEvent.Reset]
          Accumulator := (AccumulatedState E InParams p a d).Reset }
      else
        { Status := .Returned
          Events := EventsBeforeResize InParams p a s ++
            [FEvent.AccumulatePixelData (AccumulateArguments p d)]
          Accumulator := AccumulatedState E InParams p a d } := by
  unfold TakesFastPath at hslow
  simp only [AccumulateSample_TaskThread, hwf, hp, hslow, hres, hok, EventsBeforeResize,
    AccumulatedState]
  simp

/-- The debug copy makes no complete-pass call. -/
theorem completePass_sendSingleSample (p : FImagePixelDataPayload) (s : FImagePixelData) :
    CompletePassEmissions (SendSingleSample p s) = [] := by
  unfold SendSingleSample CompletePassEmissions
  split <;> simp [FEvent.CompletePassData]

/-- The debug copy makes no accumulator call. -/
theorem accumulatorCall_sendSingleSample (p : FImagePixelDataPayload) (s : FImagePixelData) :
    ∀ e ∈ SendSingleSample p s, e.IsAccumulatorCall = false := by
  unfold SendSingleSample
  split <;> simp [FEvent.IsAccumulatorCall]

/-- The debug copy makes no `AccumulatePixelData` call. -/
theorem accumulateCalls_sendSingleSample (p : FImagePixelDataPayload) (s : FImagePixelData) :
    AccumulateCalls (SendSingleSample p s) = [] := by
  unfold SendSingleSample AccumulateCalls
  split <;> simp [FEvent.AccumulateCall]

/-- The lazy allocation makes no complete-pass call. -/
theorem completePass_allocate (InParams : FImageSampleAccumulationArgs)
    (p : FImagePixelDataPayload) (a : FImageOverlappedAccumulator) :
    CompletePassEmissions (AllocateIfNeeded InParams p a).2 = [] := by
  unfold AllocateIfNeeded CompletePassEmissions
  split <;> simp [FEvent.CompletePassData]

/-- The lazy allocation makes no `AccumulatePixelData` call. -/
theorem accumulateCalls_allocate (InParams : FImageSampleAccumulationArgs)
    (p : FImagePixelDataPayload) (a : FImageOverlappedAccumulator) :
    AccumulateCalls (AllocateIfNeeded InParams p a).2 = [] := by
  unfold AllocateIfNeeded AccumulateCalls
  split <;> simp [FEvent.AccumulateCall]

/-- Before the resize block no complete-pass call has been made. -/
theorem completePass_eventsBeforeResize (InParams : FImageSampleAccumulationArgs)
    (p : FImagePixelDataPayload) (a : FImageOverlappedAccumulator) (s : FImagePixelData) :
    CompletePassEmissions (EventsBeforeResize InParams p a s) = [] := by
  have h1 := completePass_sendSingleSample p s
  have h2 := completePass_allocate InParams p a
  unfold CompletePassEmissions at *
  simp [EventsBeforeResize, List.filterMap_append, h1, h2]

/-- Before the resize block no `AccumulatePixelData` call has been made. -/
theorem accumulateCalls_eventsBeforeResize (InParams : FImageSampleAccumulationArgs)
    (p : FImagePixelDataPayload) (a : FImageOverlappedAccumulator) (s : FImagePixelData) :
    AccumulateCalls (EventsBeforeResize InParams p a s) = [] := by
  have h1 := accumulateCalls_sendSingleSample p s
  have h2 := accumulateCalls_allocate InParams p a
  unfold AccumulateCalls at *
  simp [EventsBeforeResize, List.filterMap_append, h1, h2]

/-- The fetch event of the final fetch is neither a complete-pass call, nor an
`AccumulatePixelData` call, nor `Reset`. -/
theorem fetchFinal_event (E : FEngine) (p : FImagePixelDataPayload)
    (a : FImageOverlappedAccumulator) (d : FImagePixelData) :
    (FetchFinal E p a d).1.CompletePassData = none ∧
      (FetchFinal E p a d).1.AccumulateCall = none ∧
      (FetchFinal E p a d).1.IsReset = false := by
  unfold FetchFinal
  cases d.PixelType <;> simp [FEvent.CompletePassData, FEvent.AccumulateCall, FEvent.IsReset]

/-- The buffer of the final fetch has the plane size of the accumulator it is
fetched from and the format of the driving sample. -/
theorem fetchFinal_data (E : FEngine) (p : FImagePixelDataPayload)
    (a : FImageOverlappedAccumulator) (d : FImagePixelData) :
    (FetchFinal E p a d).2.Size = a.PlaneSize ∧
      (FetchFinal E p a d).2.PixelType = d.PixelType := by
  unfold FetchFinal
  cases h : d.PixelType <;> simp

/-- A sample of the expected size passes the resize block unchanged. -/
theorem resize_correct_size (E : FEngine) (p : FImagePixelDataPayload) (s : FImagePixelData)
    (h : p.GetOverlapPaddedSizeIsValid s.Size = true) : ResizeIfNeeded E p s = some s := by
  simp [ResizeIfNeeded, h]

/-- An 8-bit sample of another size hits `check(0)` in the resize block. -/
theorem resize_color_rejected (E : FEngine) (p : FImagePixelDataPayload) (s : FImagePixelData)
    (h : p.GetOverlapPaddedSizeIsValid s.Size = false) (ht : s.PixelType = .Color) :
    ResizeIfNeeded E p s = none := by
  simp [ResizeIfNeeded, h, ht]

/-- A float sample of another size is replaced by a `Float32` buffer of the
padded size. -/
theorem resize_float (E : FEngine) (p : FImagePixelDataPayload) (s : FImagePixelData)
    (h : p.GetOverlapPaddedSizeIsValid s.Size = false) (ht : s.PixelType ≠ .Color) :
    ResizeIfNeeded E p s = some
      { PixelType := .Float32
        Size := p.GetOverlapPaddedSize
        Pixels := (List.range (p.GetOverlapPaddedSize.X * p.GetOverlapPaddedSize.Y).toNat).map
          (E.ImageResize s.Size.X s.Size.Y s.Pixels
            p.GetOverlapPaddedSize.X p.GetOverlapPaddedSize.Y)
        Payload := some p } := by
  cases hty : s.PixelType
  · exact absurd hty ht
  · simp [ResizeIfNeeded, h, hty]
  · simp [ResizeIfNeeded, h, hty]

/-- The fast path condition holds when the payload is the first and the last
tile, the first and the last temporal sample, and has one spatial sample. -/
theorem takesFastPath_of_flags (p : FImagePixelDataPayload)
    (hft : p.IsFirstTile = true) (hlt : p.IsLastTile = true)
    (hfs : p.IsFirstTemporalSample = true) (hls : p.IsLastTemporalSample = true)
    (hss : p.SpatialSampleCount = 1) : TakesFastPath p = true := by
  simp [TakesFastPath, hft, hlt, hfs, hls, hss]

/-- C1: a well-formed sample whose payload is the first and the last tile, the
first and the last temporal sample and has `SpatialSampleCount == 1` makes the
task function return after exactly one `OnCompleteRenderPassDataAvailable`
call, which carries the submitted buffer itself (same size, format and
pixels); the run makes no call on the accumulator and leaves its state as it
was. -/
theorem fast_path_forwards_sample (E : FEngine) (InParams : FImageSampleAccumulationArgs)
    (a : FImageOverlappedAccumulator) (s : FImagePixelData) (p : FImagePixelDataPayload)
    (hwf : s.IsDataWellFormed = true) (hp : s.Payload = some p)
    (hft : p.IsFirstTile = true) (hlt : p.IsLastTile = true)
    (hfs : p.IsFirstTemporalSample = true) (hls : p.IsLastTemporalSample = true)
    (hss : p.SpatialSampleCount = 1) :
    (AccumulateSample_TaskThread E InParams a s).Status = .Returned ∧
      CompletePassEmissions (AccumulateSample_TaskThread E InParams a s).Events = [s] ∧
      (∀ e ∈ (AccumulateSample_TaskThread E InParams a s).Events,
        e.IsAccumulatorCall = false) ∧
      (AccumulateSample_TaskThread E InParams a s).Accumulator = a := by
  rw [run_fast_path E InParams a s p hwf hp (takesFastPath_of_flags p hft hlt hfs hls hss)]
  refine ⟨rfl, ?_, ?_, rfl⟩
  · have h := completePass_sendSingleSample p s
    unfold CompletePassEmissions at *
    simp [List.filterMap_append, h, FEvent.CompletePassData]
  · intro e he
    rcases List.mem_append.1 he with h | h
    · exact accumulatorCall_sendSingleSample p s e h
    · simp at h
      subst h
      rfl

/-- C1 at a concrete input: a well-formed 2x2 `Float32` sample of a frame with
one tile, one temporal and one spatial sample. -/
theorem fast_path_forwards_sample_witness :
    (AccumulateSample_TaskThread SampleEngine AlphaArgs EmptyAccumulator
        (FourPixelSample .Float32 (SingleTilePayload 1 1 true))).Status = .Returned ∧
      CompletePassEmissions (AccumulateSample_TaskThread SampleEngine AlphaArgs EmptyAccumulator
        (FourPixelSample .Float32 (SingleTilePayload 1 1 true))).Events =
        [FourPixelSample .Float32 (SingleTilePayload 1 1 true)] ∧
      (∀ e ∈ (AccumulateSample_TaskThread SampleEngine AlphaArgs EmptyAccumulator
        (FourPixelSample .Float32 (SingleTilePayload 1 1 true))).Events,
        e.IsAccumulatorCall = false) ∧
      (AccumulateSample_TaskThread SampleEngine AlphaArgs EmptyAccumulator
        (FourPixelSample .Float32 (SingleTilePayload 1 1 true))).Accumulator =
        EmptyAccumulator :=
  fast_path_forwards_sample SampleEngine AlphaArgs EmptyAccumulator
    (FourPixelSample .Float32 (SingleTilePayload 1 1 true)) (SingleTilePayload 1 1 true)
    (by decide) rfl (by decide) rfl (by decide) rfl rfl

/-- C3: a sample whose raw byte size differs from
`SizeX * SizeY * ByteDepth * NumChannels` is not well formed and is rejected at
`check(bIsWellFormed)`: the run is fatal, has made no call on the output merger
or on the accumulator, and the accumulator is as it was. -/
theorem malformed_sample_is_fatal (E : FEngine) (InParams : FImageSampleAccumulationArgs)
    (a : FImageOverlappedAccumulator) (s : FImagePixelData)
    (hsize : s.GetRawDataSizeInBytes ≠
      s.Size.X * s.Size.Y * (s.GetBitDepth / 8) * s.GetNumChannels) :
    s.IsDataWellFormed = false ∧
      AccumulateSample_TaskThread E InParams a s =
        { Status := .Fatal, Events := [], Accumulator := a } := by
  have hwf : s.IsDataWellFormed = false := by
    simp [FImagePixelData.IsDataWellFormed, hsize]
  refine ⟨hwf, ?_⟩
  simp [AccumulateSample_TaskThread, hwf]

/-- C3 at a concrete input: a `Float32` buffer declared 2x2 that holds three
pixels (48 bytes instead of 64). -/
theorem malformed_sample_is_fatal_witness :
    (TruncatedSample FirstOfTwoTilesPayload).IsDataWellFormed = false ∧
      AccumulateSample_TaskThread SampleEngine AlphaArgs EmptyAccumulator
          (TruncatedSample FirstOfTwoTilesPayload) =
        { Status := .Fatal, Events := [], Accumulator := EmptyAccumulator } :=
  malformed_sample_is_fatal SampleEngine AlphaArgs EmptyAccumulator
    (TruncatedSample FirstOfTwoTilesPayload) (by decide)

/-- A sample that passes the guards of the resize block leaves it as a buffer
that passes the size check of line 719: the sample itself when its size is the
expected one, a `Float32` buffer of the padded size otherwise. -/
theorem resize_of_guards (E : FEngine) (p : FImagePixelDataPayload) (s : FImagePixelData)
    (hguard : p.GetOverlapPaddedSizeIsValid s.Size = true ∨
      (s.PixelType ≠ .Color ∧ p.GetOverlapPaddedSizeIsValid p.GetOverlapPaddedSize = true)) :
    ∃ d, ResizeIfNeeded E p s = some d ∧ p.GetOverlapPaddedSizeIsValid d.Size = true ∧
      (p.GetOverlapPaddedSizeIsValid s.Size = true → d = s) ∧
      (p.GetOverlapPaddedSizeIsValid s.Size = false →
        d.PixelType = .Float32 ∧ d.Size = p.GetOverlapPaddedSize ∧
        d.Pixels = (List.range (p.GetOverlapPaddedSize.X * p.GetOverlapPaddedSize.Y).toNat).map
          (E.ImageResize s.Size.X s.Size.Y s.Pixels
            p.GetOverlapPaddedSize.X p.GetOverlapPaddedSize.Y)) := by
  cases hv : p.GetOverlapPaddedSizeIsValid s.Size
  · rcases hguard with h | ⟨ht, hpad⟩
    · rw [hv] at h
      exact absurd h (by decide)
    · exact ⟨_, resize_float E p s hv ht, hpad, by intro h; exact absurd h (by decide),
        fun _ => ⟨rfl, rfl, rfl⟩⟩
  · exact ⟨s, resize_correct_size E p s hv, hv, fun _ => rfl,
      by intro h; exact absurd h (by decide)⟩

/-- Adding one contribution keeps the plane size. -/
theorem addContribution_planeSize (a : FImageOverlappedAccumulator)
    (c : FImageOverlappedAccumulator.FContribution) :
    (a.AddContribution c).PlaneSize = a.PlaneSize := by
  unfold FImageOverlappedAccumulator.AddContribution
  split <;> rfl

/-- Adding one contribution keeps the gamma. -/
theorem addContribution_gamma (a : FImageOverlappedAccumulator)
    (c : FImageOverlappedAccumulator.FContribution) :
    (a.AddContribution c).AccumulationGamma = a.AccumulationGamma := by
  unfold FImageOverlappedAccumulator.AddContribution
  split <;> rfl

/-- Adding one contribution keeps the channel count. -/
theorem addContribution_numChannels (a : FImageOverlappedAccumulator)
    (c : FImageOverlappedAccumulator.FContribution) :
    (a.AddContribution c).NumChannels = a.NumChannels := by
  unfold FImageOverlappedAccumulator.AddContribution
  split <;> rfl

/-- Adding contributions keeps plane size, gamma and channel count. -/
theorem foldl_addContribution_fields (l : List FImageOverlappedAccumulator.FContribution)
    (a : FImageOverlappedAccumulator) :
    (l.foldl FImageOverlappedAccumulator.AddContribution a).PlaneSize = a.PlaneSize ∧
      (l.foldl FImageOverlappedAccumulator.AddContribution a).AccumulationGamma =
        a.AccumulationGamma ∧
      (l.foldl FImageOverlappedAccumulator.AddContribution a).NumChannels = a.NumChannels := by
  induction l generalizing a with
  | nil => exact ⟨rfl, rfl, rfl⟩
  | cons c l ih =>
    obtain ⟨h1, h2, h3⟩ := ih (a.AddContribution c)
    simp only [List.foldl_cons]
    exact ⟨h1.trans (addContribution_planeSize a c), h2.trans (addContribution_gamma a c),
      h3.trans (addContribution_numChannels a c)⟩

/-- Accumulating a sample keeps the plane size of the accumulator. -/
theorem accumulatePixelData_planeSize (E : FEngine) (a : FImageOverlappedAccumulator)
    (c : FAccumulateCall) : (a.AccumulatePixelData E c).PlaneSize = a.PlaneSize :=
  (foldl_addContribution_fields _ a).1

/-- The plane size after the lazy allocation: the payload's accumulator size
when the buffer is allocated by this sample, the existing plane size
otherwise. -/
theorem allocate_planeSize (InParams : FImageSampleAccumulationArgs)
    (p : FImagePixelDataPayload) (a : FImageOverlappedAccumulator) :
    (AllocateIfNeeded InParams p a).1.PlaneSize =
      if a.NumChannels = 0 then p.GetAccumulatorSize else a.PlaneSize := by
  unfold AllocateIfNeeded
  split <;> rfl

/-- The event list of a run that ends with the final fetch holds exactly one
complete-pass call. -/
theorem completePass_final (E : FEngine) (p : FImagePixelDataPayload)
    (b : FImageOverlappedAccumulator) (d : FImagePixelData) (Before : List FEvent)
    (hb : CompletePassEmissions Before = []) :
    CompletePassEmissions (Before ++ [FEvent.AccumulatePixelData (AccumulateArguments p d)] ++
      [(FetchFinal E p b d).1, FEvent.OnCompleteRenderPassDataAvailable (FetchFinal E p b d).2,
        FEvent.Reset]) = [(FetchFinal E p b d).2] := by
  have hf := (fetchFinal_event E p b d).1
  unfold CompletePassEmissions at *
  simp only [List.filterMap_append, List.filterMap_cons, List.filterMap_nil, hb, hf]
  rfl

/-- The event list of a run that ends after the accumulation holds no
complete-pass call. -/
theorem completePass_not_final (p : FImagePixelDataPayload) (d : FImagePixelData)
    (Before : List FEvent) (hb : CompletePassEmissions Before = []) :
    CompletePassEmissions (Before ++ [FEvent.AccumulatePixelData (AccumulateArguments p d)]) =
      [] := by
  unfold CompletePassEmissions at *
  simp [List.filterMap_append, hb, FEvent.CompletePassData]

/-- C4, as stated, fails for the 8-bit format: a well-formed 1x1 `Color`
sample of the first of two tiles (not on the fast path), where 2x2 is expected,
is not resampled; the run is fatal at the `check(0)` of the resize block and
nothing is accumulated. -/
theorem color_sample_of_wrong_size_aborts :
    (OnePixelSample .Color FirstOfTwoTilesPayload).IsDataWellFormed = true ∧
      TakesFastPath FirstOfTwoTilesPayload = false ∧
      FirstOfTwoTilesPayload.GetOverlapPaddedSizeIsValid
        (OnePixelSample .Color FirstOfTwoTilesPayload).Size = false ∧
      (AccumulateSample_TaskThread SampleEngine AlphaArgs EmptyAccumulator
        (OnePixelSample .Color FirstOfTwoTilesPayload)).Status = .Fatal ∧
      AccumulateCalls (AccumulateSample_TaskThread SampleEngine AlphaArgs EmptyAccumulator
        (OnePixelSample .Color FirstOfTwoTilesPayload)).Events = [] := by
  refine ⟨by decide, by decide, by decide, ?_, ?_⟩
  · rw [run_resize_rejected SampleEngine AlphaArgs EmptyAccumulator _
      FirstOfTwoTilesPayload (by decide) rfl (by decide)
      (resize_color_rejected _ _ _ (by decide) rfl)]
  · rw [run_resize_rejected SampleEngine AlphaArgs EmptyAccumulator _
      FirstOfTwoTilesPayload (by decide) rfl (by decide)
      (resize_color_rejected _ _ _ (by decide) rfl)]
    exact accumulateCalls_eventsBeforeResize _ _ _ _

/-- C4, amended: a well-formed `Float16` or `Float32` sample that does not take
the fast path and whose raw size is not the expected padded size does not
abort, provided the size check accepts `GetOverlapPaddedSize()`: the run
returns and makes exactly one `AccumulatePixelData` call, on a `Float32` buffer
of size `GetOverlapPaddedSize()` whose pixels are the resampled pixels of the
sample. -/
theorem float_sample_of_wrong_size_is_resampled (E : FEngine)
    (InParams : FImageSampleAccumulationArgs) (a : FImageOverlappedAccumulator)
    (s : FImagePixelData) (p : FImagePixelDataPayload)
    (hwf : s.IsDataWellFormed = true) (hp : s.Payload = some p)
    (hslow : TakesFastPath p = false) (hfloat : s.PixelType ≠ .Color)
    (hwrong : p.GetOverlapPaddedSizeIsValid s.Size = false)
    (hpad : p.GetOverlapPaddedSizeIsValid p.GetOverlapPaddedSize = true) :
    (AccumulateSample_TaskThread E InParams a s).Status = .Returned ∧
      AccumulateCalls (AccumulateSample_TaskThread E InParams a s).Events =
        [AccumulateArguments p
          { PixelType := .Float32
            Size := p.GetOverlapPaddedSize
            Pixels :=
              (List.range (p.GetOverlapPaddedSize.X * p.GetOverlapPaddedSize.Y).toNat).map
                (E.ImageResize s.Size.X s.Size.Y s.Pixels
                  p.GetOverlapPaddedSize.X p.GetOverlapPaddedSize.Y)
            Payload := some p }] := by
  have hres := resize_float E p s hwrong hfloat
  rw [run_accumulates E InParams a s _ p hwf hp hslow hres hpad]
  have hpre := accumulateCalls_eventsBeforeResize InParams p a s
  cases hcond : (p.IsLastTile && p.IsLastTemporalSample)
  · rw [if_neg Bool.false_ne_true]
    refine ⟨rfl, ?_⟩
    unfold AccumulateCalls at *
    simp only [List.filterMap_append, List.filterMap_cons, List.filterMap_nil, hpre]
    rfl
  · rw [if_pos rfl]
    refine ⟨rfl, ?_⟩
    have hf := (fetchFinal_event E p (AccumulatedState E InParams p a
      { PixelType := .Float32
        Size := p.GetOverlapPaddedSize
        Pixels :=
          (List.range (p.GetOverlapPaddedSize.X * p.GetOverlapPaddedSize.Y).toNat).map
            (E.ImageResize s.Size.X s.Size.Y s.Pixels
              p.GetOverlapPaddedSize.X p.GetOverlapPaddedSize.Y)
        Payload := some p })
      { PixelType := .Float32
        Size := p.GetOverlapPaddedSize
        Pixels :=
          (List.range (p.GetOverlapPaddedSize.X * p.GetOverlapPaddedSize.Y).toNat).map
            (E.ImageResize s.Size.X s.Size.Y s.Pixels
              p.GetOverlapPaddedSize.X p.GetOverlapPaddedSize.Y)
        Payload := some p }).2.1
    unfold AccumulateCalls at *
    simp only [List.filterMap_append, List.filterMap_cons, List.filterMap_nil, hpre, hf]
    rfl

/-- C4, amended, at a concrete input: a well-formed 1x1 `Float16` sample of the
first of two tiles, where 2x2 is expected. -/
theorem float_sample_of_wrong_size_is_resampled_witness :
    (AccumulateSample_TaskThread SampleEngine AlphaArgs EmptyAccumulator
        (OnePixelSample .Float16 FirstOfTwoTilesPayload)).Status = .Returned ∧
      AccumulateCalls (AccumulateSample_TaskThread SampleEngine AlphaArgs EmptyAccumulator
        (OnePixelSample .Float16 FirstOfTwoTilesPayload)).Events =
        [AccumulateArguments FirstOfTwoTilesPayload
          { PixelType := .Float32
            Size := FirstOfTwoTilesPayload.GetOverlapPaddedSize
            Pixels :=
              (List.range (FirstOfTwoTilesPayload.GetOverlapPaddedSize.X *
                FirstOfTwoTilesPayload.GetOverlapPaddedSize.Y).toNat).map
                (SampleEngine.ImageResize (OnePixelSample .Float16 FirstOfTwoTilesPayload).Size.X
                  (OnePixelSample .Float16 FirstOfTwoTilesPayload).Size.Y
                  (OnePixelSample .Float16 FirstOfTwoTilesPayload).Pixels
                  FirstOfTwoTilesPayload.GetOverlapPaddedSize.X
                  FirstOfTwoTilesPayload.GetOverlapPaddedSize.Y)
            Payload := some FirstOfTwoTilesPayload }] :=
  float_sample_of_wrong_size_is_resampled SampleEngine AlphaArgs EmptyAccumulator
    (OnePixelSample .Float16 FirstOfTwoTilesPayload) FirstOfTwoTilesPayload
    (by decide) rfl (by decide) (by decide) (by decide) (by decide)

/-- C5 at the failing input: a well-formed 1x1 `Float16` sample, the last tile
and last temporal sample of a frame with two spatial samples, where 2x2 is
expected.  The resize block replaces the sample by a `Float32` buffer, the
final fetch dispatches on the replaced buffer, and the one complete-pass buffer
is `Float32`, not `Float16`. -/
theorem resized_half_float_is_emitted_as_float32 :
    (OnePixelSample .Float16 (SingleTilePayload 1 2 false)).IsDataWellFormed = true ∧
      (OnePixelSample .Float16 (SingleTilePayload 1 2 false)).PixelType = .Float16 ∧
      TakesFastPath (SingleTilePayload 1 2 false) = false ∧
      (SingleTilePayload 1 2 false).IsLastTile = true ∧
      (SingleTilePayload 1 2 false).IsLastTemporalSample = true ∧
      (AccumulateSample_TaskThread SampleEngine AlphaArgs EmptyAccumulator
        (OnePixelSample .Float16 (SingleTilePayload 1 2 false))).Status = .Returned ∧
      (CompletePassEmissions (AccumulateSample_TaskThread SampleEngine AlphaArgs
        EmptyAccumulator (OnePixelSample .Float16 (SingleTilePayload 1 2 false))).Events).map
        (fun d => d.PixelType) = [.Float32] := by
  have hres := resize_float SampleEngine (SingleTilePayload 1 2 false)
    (OnePixelSample .Float16 (SingleTilePayload 1 2 false)) (by decide) (by decide)
  have hrun := run_accumulates SampleEngine AlphaArgs EmptyAccumulator
    (OnePixelSample .Float16 (SingleTilePayload 1 2 false)) _ (SingleTilePayload 1 2 false)
    (by decide) rfl (by decide) hres (by decide)
  have hlast : ((SingleTilePayload 1 2 false).IsLastTile &&
    (SingleTilePayload 1 2 false).IsLastTemporalSample) = true := rfl
  rw [hlast, if_pos rfl] at hrun
  refine ⟨by decide, rfl, by decide, rfl, rfl, ?_, ?_⟩
  · rw [hrun]
  · rw [hrun, completePass_final _ _ _ _ _ (completePass_eventsBeforeResize _ _ _ _)]
    simp only [List.map_cons, List.map_nil]
    rw [(fetchFinal_data _ _ _ _).2]

/-- A run that reaches the accumulation returns and makes exactly one
`AccumulatePixelData` call, on the buffer that left the resize block. -/
theorem accumulateCalls_run_accumulates (E : FEngine) (InParams : FImageSampleAccumulationArgs)
    (a : FImageOverlappedAccumulator) (s d : FImagePixelData) (p : FImagePixelDataPayload)
    (hwf : s.IsDataWellFormed = true) (hp : s.Payload = some p)
    (hslow : TakesFastPath p = false) (hres : ResizeIfNeeded E p s = some d)
    (hok : p.GetOverlapPaddedSizeIsValid d.Size = true) :
    (AccumulateSample_TaskThread E InParams a s).Status = .Returned ∧
      AccumulateCalls (AccumulateSample_TaskThread E InParams a s).Events =
        [AccumulateArguments p d] := by
  rw [run_accumulates E InParams a s d p hwf hp hslow hres hok]
  have hpre := accumulateCalls_eventsBeforeResize InParams p a s
  have hf := (fetchFinal_event E p (AccumulatedState E InParams p a d) d).2.1
  cases hcond : (p.IsLastTile && p.IsLastTemporalSample)
  · rw [if_neg Bool.false_ne_true]
    refine ⟨rfl, ?_⟩
    unfold AccumulateCalls at *
    simp only [List.filterMap_append, List.filterMap_cons, List.filterMap_nil, hpre]
    rfl
  · rw [if_pos rfl]
    refine ⟨rfl, ?_⟩
    unfold AccumulateCalls at *
    simp only [List.filterMap_append, List.filterMap_cons, List.filterMap_nil, hpre, hf]
    rfl

/-- Every `AccumulatePixelData` call of a run is made on a buffer that passes
the size check of the payload. -/
theorem accumulateCalls_size_valid (E : FEngine) (InParams : FImageSampleAccumulationArgs)
    (a : FImageOverlappedAccumulator) (s : FImagePixelData) (p : FImagePixelDataPayload)
    (hp : s.Payload = some p) :
    ∀ c ∈ AccumulateCalls (AccumulateSample_TaskThread E InParams a s).Events,
      p.GetOverlapPaddedSizeIsValid c.Data.Size = true := by
  intro c hc
  cases hwf : s.IsDataWellFormed
  · have hrun : AccumulateSample_TaskThread E InParams a s =
        { Status := .Fatal, Events := [], Accumulator := a } := by
      simp [AccumulateSample_TaskThread, hwf]
    rw [hrun] at hc
    simp [AccumulateCalls] at hc
  · cases hfast : TakesFastPath p
    · cases hres : ResizeIfNeeded E p s with
      | none =>
        rw [run_resize_rejected E InParams a s p hwf hp hfast hres,
          accumulateCalls_eventsBeforeResize] at hc
        simp at hc
      | some d =>
        cases hok : p.GetOverlapPaddedSizeIsValid d.Size
        · rw [run_size_check_fails E InParams a s d p hwf hp hfast hres hok,
            accumulateCalls_eventsBeforeResize] at hc
          simp at hc
        · rw [(accumulateCalls_run_accumulates E InParams a s d p hwf hp hfast hres hok).2] at hc
          simp at hc
          subst hc
          exact hok
    · rw [run_fast_path E InParams a s p hwf hp hfast] at hc
      have h1 := accumulateCalls_sendSingleSample p s
      unfold AccumulateCalls at *
      simp only [List.filterMap_append, List.filterMap_cons, List.filterMap_nil, h1] at hc
      simp [FEvent.AccumulateCall] at hc

/-- C6: whenever the task function reaches `AccumulatePixelData`, the buffer
passed to it passes the size check of the payload; and for a well-formed
`Float16` or `Float32` sample no check fails, assuming the size check accepts
`GetOverlapPaddedSize()`: the run returns, and off the fast path it makes one
`AccumulatePixelData` call, on the sample itself when its size is the expected
one, and otherwise on a `Float32` (`FLinearColor`) buffer of exactly the size
`GetOverlapPaddedSize()`. -/
theorem accumulated_buffer_has_padded_size (E : FEngine)
    (InParams : FImageSampleAccumulationArgs) (a : FImageOverlappedAccumulator)
    (s : FImagePixelData) (p : FImagePixelDataPayload) (hp : s.Payload = some p) :
    (∀ c ∈ AccumulateCalls (AccumulateSample_TaskThread E InParams a s).Events,
      p.GetOverlapPaddedSizeIsValid c.Data.Size = true) ∧
    (s.IsDataWellFormed = true → s.PixelType ≠ .Color →
      p.GetOverlapPaddedSizeIsValid p.GetOverlapPaddedSize = true →
      (AccumulateSample_TaskThread E InParams a s).Status = .Returned ∧
      (TakesFastPath p = false →
        ∃ d, AccumulateCalls (AccumulateSample_TaskThread E InParams a s).Events =
            [AccumulateArguments p d] ∧
          p.GetOverlapPaddedSizeIsValid d.Size = true ∧
          (p.GetOverlapPaddedSizeIsValid s.Size = true → d = s) ∧
          (p.GetOverlapPaddedSizeIsValid s.Size = false →
            d.PixelType = .Float32 ∧ d.Size = p.GetOverlapPaddedSize))) := by
  refine ⟨accumulateCalls_size_valid E InParams a s p hp, ?_⟩
  intro hwf hfloat hpad
  obtain ⟨d, hres, hok, hsame, hnew⟩ := resize_of_guards E p s (Or.inr ⟨hfloat, hpad⟩)
  cases hfast : TakesFastPath p
  · obtain ⟨hst, hcalls⟩ :=
      accumulateCalls_run_accumulates E InParams a s d p hwf hp hfast hres hok
    exact ⟨hst, fun _ => ⟨d, hcalls, hok, hsame, fun h => ⟨(hnew h).1, (hnew h).2.1⟩⟩⟩
  · rw [run_fast_path E InParams a s p hwf hp hfast]
    exact ⟨rfl, fun h => absurd h (by decide)⟩

/-- C6 at a concrete input: a well-formed 1x1 `Float32` sample of the first of
two tiles, where 2x2 is expected: the run returns and the one accumulated
buffer passes the size check. -/
theorem accumulated_buffer_has_padded_size_witness :
    (AccumulateSample_TaskThread SampleEngine AlphaArgs EmptyAccumulator
        (OnePixelSample .Float32 FirstOfTwoTilesPayload)).Status = .Returned ∧
      ∃ d, AccumulateCalls (AccumulateSample_TaskThread SampleEngine AlphaArgs EmptyAccumulator
          (OnePixelSample .Float32 FirstOfTwoTilesPayload)).Events =
          [AccumulateArguments FirstOfTwoTilesPayload d] ∧
        FirstOfTwoTilesPayload.GetOverlapPaddedSizeIsValid d.Size = true ∧
        d.PixelType = .Float32 ∧ d.Size = FirstOfTwoTilesPayload.GetOverlapPaddedSize := by
  obtain ⟨hst, hcall⟩ :=
    (accumulated_buffer_has_padded_size SampleEngine AlphaArgs EmptyAccumulator
      (OnePixelSample .Float32 FirstOfTwoTilesPayload) FirstOfTwoTilesPayload rfl).2
      (by decide) (by decide) (by decide)
  obtain ⟨d, hcalls, hok, -, hnew⟩ := hcall (by decide)
  exact ⟨hst, d, hcalls, hok, hnew (by decide)⟩

/-- Two additions into a plane commute. -/
theorem addAt_comm (i j : Nat) (u v : ℚ) (l : List ℚ) :
    FImageOverlappedAccumulator.AddAt i u (FImageOverlappedAccumulator.AddAt j v l) =
      FImageOverlappedAccumulator.AddAt j v (FImageOverlappedAccumulator.AddAt i u l) := by
  induction l generalizing i j with
  | nil => cases i <;> cases j <;> rfl
  | cons x xs ih =>
    cases i with
    | zero =>
      cases j with
      | zero => simp [FImageOverlappedAccumulator.AddAt, add_right_comm]
      | succ j => simp [FImageOverlappedAccumulator.AddAt]
    | succ i =>
      cases j with
      | zero => simp [FImageOverlappedAccumulator.AddAt]
      | succ j => simp [FImageOverlappedAccumulator.AddAt, ih]

/-- Two additions of weighted pixels into the channel planes commute. -/
theorem addChannels_comm (i j : Nat) (u v : ℚ) (Planes : List (List ℚ)) (us vs : List ℚ) :
    FImageOverlappedAccumulator.AddChannels i u
        (FImageOverlappedAccumulator.AddChannels j v Planes vs) us =
      FImageOverlappedAccumulator.AddChannels j v
        (FImageOverlappedAccumulator.AddChannels i u Planes us) vs := by
  induction Planes generalizing us vs with
  | nil => cases us <;> cases vs <;> rfl
  | cons Plane Planes ih =>
    cases us with
    | nil => cases vs <;> simp [FImageOverlappedAccumulator.AddChannels]
    | cons x us =>
      cases vs with
      | nil => simp [FImageOverlappedAccumulator.AddChannels]
      | cons y vs =>
        simp only [FImageOverlappedAccumulator.AddChannels]
        rw [addAt_comm, ih]

/-- Two contributions commute. -/
theorem addContribution_comm (a : FImageOverlappedAccumulator)
    (c1 c2 : FImageOverlappedAccumulator.FContribution) :
    (a.AddContribution c1).AddContribution c2 = (a.AddContribution c2).AddContribution c1 := by
  unfold FImageOverlappedAccumulator.AddContribution
  by_cases h1 : 0 ≤ c1.Position.X ∧ c1.Position.X < a.PlaneSize.X ∧
      0 ≤ c1.Position.Y ∧ c1.Position.Y < a.PlaneSize.Y
  · by_cases h2 : 0 ≤ c2.Position.X ∧ c2.Position.X < a.PlaneSize.X ∧
        0 ≤ c2.Position.Y ∧ c2.Position.Y < a.PlaneSize.Y
    · simp only [h1, h2, and_self, if_true]
      rw [addChannels_comm, addAt_comm]
    · simp only [h1, h2, and_self, if_true, if_false]
  · by_cases h2 : 0 ≤ c2.Position.X ∧ c2.Position.X < a.PlaneSize.X ∧
        0 ≤ c2.Position.Y ∧ c2.Position.Y < a.PlaneSize.Y
    · simp only [h1, h2, and_self, if_true, if_false]
    · simp only [h1, h2, if_false]

/-- The sums after a list of contributions do not depend on their order. -/
theorem foldl_addContribution_perm (l1 l2 : List FImageOverlappedAccumulator.FContribution)
    (h : l1.Perm l2) (a : FImageOverlappedAccumulator) :
    l1.foldl FImageOverlappedAccumulator.AddContribution a =
      l2.foldl FImageOverlappedAccumulator.AddContribution a :=
  h.foldl_eq' (fun x _ y _ z => addContribution_comm z x y) a

/-- Accumulating two samples in either order gives the same sums. -/
theorem accumulatePixelData_comm (E : FEngine) (a : FImageOverlappedAccumulator)
    (c1 c2 : FAccumulateCall) :
    (a.AccumulatePixelData E c1).AccumulatePixelData E c2 =
      (a.AccumulatePixelData E c2).AccumulatePixelData E c1 := by
  unfold FImageOverlappedAccumulator.AccumulatePixelData
  rw [(foldl_addContribution_fields _ a).2.1, (foldl_addContribution_fields _ a).2.1,
    ← List.foldl_append, ← List.foldl_append]
  exact foldl_addContribution_perm _ _ List.perm_append_comm a

/-- C8: accumulation is order independent.  For every list of samples
accumulated into the same accumulator, every permutation of the submission
order leaves the same accumulator state (weighted sums, weight sums, plane
size, channel count, gamma), and therefore the same normalised result in each
of the three output formats.  Channel values are exact rationals. -/
theorem accumulation_is_order_independent (E : FEngine) (a : FImageOverlappedAccumulator)
    (Samples Permuted : List FAccumulateCall) (h : Samples.Perm Permuted) :
    Samples.foldl (FImageOverlappedAccumulator.AccumulatePixelData E) a =
        Permuted.foldl (FImageOverlappedAccumulator.AccumulatePixelData E) a ∧
      (Samples.foldl (FImageOverlappedAccumulator.AccumulatePixelData E)
          a).FetchFinalPixelDataLinearColor E =
        (Permuted.foldl (FImageOverlappedAccumulator.AccumulatePixelData E)
          a).FetchFinalPixelDataLinearColor E ∧
      (Samples.foldl (FImageOverlappedAccumulator.AccumulatePixelData E)
          a).FetchFinalPixelDataHalfFloat E =
        (Permuted.foldl (FImageOverlappedAccumulator.AccumulatePixelData E)
          a).FetchFinalPixelDataHalfFloat E ∧
      (Samples.foldl (FImageOverlappedAccumulator.AccumulatePixelData E)
          a).FetchFinalPixelDataByte E =
        (Permuted.foldl (FImageOverlappedAccumulator.AccumulatePixelData E)
          a).FetchFinalPixelDataByte E := by
  have hstate : Samples.foldl (FImageOverlappedAccumulator.AccumulatePixelData E) a =
      Permuted.foldl (FImageOverlappedAccumulator.AccumulatePixelData E) a :=
    h.foldl_eq' (fun x _ y _ z => accumulatePixelData_comm E z x y) a
  rw [hstate]
  exact ⟨rfl, rfl, rfl, rfl⟩

/-- C8 at a concrete input: two samples accumulated into a 2x2 accumulator in
both orders. -/
theorem accumulation_is_order_independent_witness :
    [FullSampleCall, SmallSampleCall].foldl
        (FImageOverlappedAccumulator.AccumulatePixelData SampleEngine) AllocatedAccumulator =
      [SmallSampleCall, FullSampleCall].foldl
        (FImageOverlappedAccumulator.AccumulatePixelData SampleEngine) AllocatedAccumulator :=
  (accumulation_is_order_independent SampleEngine AllocatedAccumulator
    [FullSampleCall, SmallSampleCall] [SmallSampleCall, FullSampleCall]
    (List.Perm.swap _ _ _)).1

/-! ## The fast path and the single-sample copy -/

/-- A run off the fast path whose payload is not the last tile and last
temporal sample emits no complete-pass buffer, whether it accumulates or is
stopped by a check. -/
theorem completePass_not_last (E : FEngine) (InParams : FImageSampleAccumulationArgs)
    (a : FImageOverlappedAccumulator) (s : FImagePixelData) (p : FImagePixelDataPayload)
    (hwf : s.IsDataWellFormed = true) (hp : s.Payload = some p)
    (hslow : TakesFastPath p = false)
    (hlast : (p.IsLastTile && p.IsLastTemporalSample) = false) :
    CompletePassEmissions (AccumulateSample_TaskThread E InParams a s).Events = [] := by
  cases hres : ResizeIfNeeded E p s with
  | none =>
    rw [run_resize_rejected E InParams a s p hwf hp hslow hres]
    exact completePass_eventsBeforeResize InParams p a s
  | some d =>
    cases hok : p.GetOverlapPaddedSizeIsValid d.Size
    · rw [run_size_check_fails E InParams a s d p hwf hp hslow hres hok]
      exact completePass_eventsBeforeResize InParams p a s
    · rw [run_accumulates E InParams a s d p hwf hp hslow hres hok, hlast,
        if_neg Bool.false_ne_true]
      exact completePass_not_final p d _ (completePass_eventsBeforeResize InParams p a s)

/-- C9, as stated, fails: a well-formed 2x2 sample of the first of two tiles,
with one temporal and one spatial sample, is the first tile and the first
temporal sample and has one spatial sample, yet it is not forwarded: the run
allocates the accumulator, accumulates the sample and emits nothing. -/
theorem first_tile_of_two_is_accumulated :
    (FourPixelSample .Float32 FirstOfTwoTilesPayload).IsDataWellFormed = true ∧
      FirstOfTwoTilesPayload.IsFirstTile = true ∧
      FirstOfTwoTilesPayload.IsFirstTemporalSample = true ∧
      FirstOfTwoTilesPayload.SpatialSampleCount = 1 ∧
      CompletePassEmissions (AccumulateSample_TaskThread SampleEngine AlphaArgs EmptyAccumulator
        (FourPixelSample .Float32 FirstOfTwoTilesPayload)).Events = [] ∧
      AccumulateCalls (AccumulateSample_TaskThread SampleEngine AlphaArgs EmptyAccumulator
        (FourPixelSample .Float32 FirstOfTwoTilesPayload)).Events =
        [AccumulateArguments FirstOfTwoTilesPayload
          (FourPixelSample .Float32 FirstOfTwoTilesPayload)] ∧
      (AccumulateSample_TaskThread SampleEngine AlphaArgs EmptyAccumulator
        (FourPixelSample .Float32 FirstOfTwoTilesPayload)).Accumulator.NumChannels = 4 := by
  have hres := resize_correct_size SampleEngine FirstOfTwoTilesPayload
    (FourPixelSample .Float32 FirstOfTwoTilesPayload) (by decide)
  refine ⟨by decide, rfl, rfl, rfl, ?_, ?_, ?_⟩
  · exact completePass_not_last _ _ _ _ FirstOfTwoTilesPayload (by decide) rfl (by decide) rfl
  · exact (accumulateCalls_run_accumulates _ _ _ _ _ FirstOfTwoTilesPayload (by decide) rfl
      (by decide) hres (by decide)).2
  · rw [run_accumulates _ _ _ _ _ FirstOfTwoTilesPayload (by decide) rfl (by decide) hres
      (by decide)]
    have hlast : (FirstOfTwoTilesPayload.IsLastTile &&
      FirstOfTwoTilesPayload.IsLastTemporalSample) = false := rfl
    rw [hlast, if_neg Bool.false_ne_true]
    exact (foldl_addContribution_fields _ _).2.2

/-- C9, amended: a well-formed sample that is the first tile and the first
temporal sample and has one spatial sample bypasses the accumulator and is
forwarded directly to the output merger when it is also the last tile and the
last temporal sample: the run returns, its last call hands the sample itself to
`OnCompleteRenderPassDataAvailable`, and the accumulator is untouched.  When it
is not also the last tile and the last temporal sample it is not forwarded: no
complete-pass buffer is emitted. -/
theorem first_sample_bypasses_when_also_last (E : FEngine)
    (InParams : FImageSampleAccumulationArgs) (a : FImageOverlappedAccumulator)
    (s : FImagePixelData) (p : FImagePixelDataPayload)
    (hwf : s.IsDataWellFormed = true) (hp : s.Payload = some p)
    (hft : p.IsFirstTile = true) (hfs : p.IsFirstTemporalSample = true)
    (hss : p.SpatialSampleCount = 1) :
    ((p.IsLastTile = true ∧ p.IsLastTemporalSample = true) →
      AccumulateSample_TaskThread E InParams a s =
        { Status := .Returned
          Events := SendSingleSample p s ++ [FEvent.OnCompleteRenderPassDataAvailable s]
          Accumulator := a }) ∧
    (¬ (p.IsLastTile = true ∧ p.IsLastTemporalSample = true) →
      CompletePassEmissions (AccumulateSample_TaskThread E InParams a s).Events = []) := by
  constructor
  · intro hlast
    exact run_fast_path E InParams a s p hwf hp
      (takesFastPath_of_flags p hft hlast.1 hfs hlast.2 hss)
  · intro hlast
    have hcond : (p.IsLastTile && p.IsLastTemporalSample) = false := by
      cases h1 : p.IsLastTile <;> cases h2 : p.IsLastTemporalSample <;> simp_all
    have hslow : TakesFastPath p = false := by
      cases h1 : p.IsLastTile <;> cases h2 : p.IsLastTemporalSample <;>
        simp_all [TakesFastPath]
    exact completePass_not_last E InParams a s p hwf hp hslow hcond

/-- C9, amended, at a concrete input: a well-formed 2x2 sample of a frame with
one tile, one temporal and one spatial sample. -/
theorem first_sample_bypasses_when_also_last_witness :
    AccumulateSample_TaskThread SampleEngine AlphaArgs EmptyAccumulator
        (FourPixelSample .Color (SingleTilePayload 1 1 false)) =
      { Status := .Returned
        Events := SendSingleSample (SingleTilePayload 1 1 false)
            (FourPixelSample .Color (SingleTilePayload 1 1 false)) ++
          [FEvent.OnCompleteRenderPassDataAvailable
            (FourPixelSample .Color (SingleTilePayload 1 1 false))]
        Accumulator := EmptyAccumulator } :=
  (first_sample_bypasses_when_also_last SampleEngine AlphaArgs EmptyAccumulator
    (FourPixelSample .Color (SingleTilePayload 1 1 false)) (SingleTilePayload 1 1 false)
    (by decide) rfl (by decide) (by decide) rfl).1 ⟨rfl, rfl⟩

/-- C10: for a well-formed sample of a frame with one tile, one temporal and
one spatial sample, submitted with `bWriteSampleToDisk` set, the run makes one
single-sample call and one complete-pass call, and the two buffers have the
same pixels (and the same size and format): the first is a copy of the
sample, the second is the sample. -/
theorem fast_path_copy_equals_forwarded (E : FEngine)
    (InParams : FImageSampleAccumulationArgs) (a : FImageOverlappedAccumulator)
    (s : FImagePixelData) (p : FImagePixelDataPayload)
    (hwf : s.IsDataWellFormed = true) (hp : s.Payload = some p)
    (hft : p.IsFirstTile = true) (hlt : p.IsLastTile = true)
    (hfs : p.IsFirstTemporalSample = true) (hls : p.IsLastTemporalSample = true)
    (hss : p.SpatialSampleCount = 1) (hwrite : p.bWriteSampleToDisk = true) :
    ∃ Single Complete,
      SingleSampleEmissions (AccumulateSample_TaskThread E InParams a s).Events = [Single] ∧
      CompletePassEmissions (AccumulateSample_TaskThread E InParams a s).Events = [Complete] ∧
      Single.Pixels = Complete.Pixels ∧ Single.Size = Complete.Size ∧
      Single.PixelType = Complete.PixelType ∧ Complete = s := by
  rw [run_fast_path E InParams a s p hwf hp (takesFastPath_of_flags p hft hlt hfs hls hss)]
  refine ⟨s.CopyImageData, s, ?_, ?_, rfl, rfl, rfl, rfl⟩
  · simp [SingleSampleEmissions, SendSingleSample, hwrite, FEvent.SingleSampleData]
  · simp [CompletePassEmissions, SendSingleSample, hwrite, FEvent.CompletePassData]

/-- C10 at a concrete input: a well-formed 2x2 `Float16` sample of a frame with
one tile, one temporal and one spatial sample, with the debug copy enabled. -/
theorem fast_path_copy_equals_forwarded_witness :
    ∃ Single Complete,
      SingleSampleEmissions (AccumulateSample_TaskThread SampleEngine AlphaArgs EmptyAccumulator
        (FourPixelSample .Float16 (SingleTilePayload 1 1 true))).Events = [Single] ∧
      CompletePassEmissions (AccumulateSample_TaskThread SampleEngine AlphaArgs EmptyAccumulator
        (FourPixelSample .Float16 (SingleTilePayload 1 1 true))).Events = [Complete] ∧
      Single.Pixels = Complete.Pixels ∧ Single.Size = Complete.Size ∧
      Single.PixelType = Complete.PixelType ∧
      Complete = FourPixelSample .Float16 (SingleTilePayload 1 1 true) :=
  fast_path_copy_equals_forwarded SampleEngine AlphaArgs EmptyAccumulator
    (FourPixelSample .Float16 (SingleTilePayload 1 1 true)) (SingleTilePayload 1 1 true)
    (by decide) rfl (by decide) rfl (by decide) rfl rfl rfl

/-! ## The accumulator pool: one search and the loop -/

/-- What `findIdx?` returns, in terms of the elements: the element at the index
satisfies the test and no element before it does. -/
theorem findIdx_some_spec {α : Type} (p : α → Bool) (xs : List α) (i : Nat)
    (h : xs.findIdx? p = some i) :
    ∃ x, xs[i]? = some x ∧ p x = true ∧ ∀ j y, j < i → xs[j]? = some y → p y = false := by
  obtain ⟨hi, hp, hlt⟩ := List.findIdx?_eq_some_iff_getElem.1 h
  refine ⟨xs[i], List.getElem?_eq_getElem hi, hp, ?_⟩
  intro j y hji hy
  have hj : j < xs.length := Nat.lt_trans hji hi
  have := hlt j hji
  rw [List.getElem?_eq_getElem hj] at hy
  cases hy
  simpa using this

/-- An element that satisfies the test makes `findIdx?` return an index. -/
theorem findIdx_some_of_mem {α : Type} (p : α → Bool) (xs : List α)
    (h : ∃ x ∈ xs, p x = true) : ∃ i, xs.findIdx? p = some i := by
  cases hf : xs.findIdx? p with
  | some i => exact ⟨i, rfl⟩
  | none =>
    obtain ⟨x, hx, hpx⟩ := h
    have := List.findIdx?_eq_none_iff.1 hf x hx
    rw [this] at hpx
    exact absurd hpx (by decide)

/-- A search that finds an instance carrying the key returns it and leaves the
pool as it is. -/
theorem searchOnce_bound (Pool : FAccumulatorPool) (f : Int)
    (p : FMoviePipelinePassIdentifier) (i : Nat)
    (h : Pool.Accumulators.findIdx? (fun x => x.IsBoundTo f p) = some i) :
    Pool.SearchOnce f p = some (i, Pool) := by
  simp only [FAccumulatorPool.SearchOnce, h]

/-- A search that finds no instance carrying the key binds the first
inactive instance to the key. -/
theorem searchOnce_free (Pool : FAccumulatorPool) (f : Int)
    (p : FMoviePipelinePassIdentifier) (i : Nat)
    (hb : Pool.Accumulators.findIdx? (fun x => x.IsBoundTo f p) = none)
    (hf : Pool.Accumulators.findIdx? (fun x => !x.IsActive) = some i) :
    Pool.SearchOnce f p = some (i,
      { Accumulators := Pool.Accumulators.set i
          { ActiveFrameNumber := f, ActivePassIdentifier := p, bIsActive := true,
            TaskPrereq := none } }) := by
  simp only [FAccumulatorPool.SearchOnce, hb, hf]

/-- A search that finds neither an instance carrying the key nor an inactive
one finds nothing. -/
theorem searchOnce_none (Pool : FAccumulatorPool) (f : Int)
    (p : FMoviePipelinePassIdentifier)
    (hb : Pool.Accumulators.findIdx? (fun x => x.IsBoundTo f p) = none)
    (hf : Pool.Accumulators.findIdx? (fun x => !x.IsActive) = none) :
    Pool.SearchOnce f p = none := by
  simp only [FAccumulatorPool.SearchOnce, hb, hf]

/-- When one search finds an index, the call returns it after the first
iteration, whatever the fuel. -/
theorem blockAndGet_of_searchOnce (Pool : FAccumulatorPool) (f : Int)
    (p : FMoviePipelinePassIdentifier) (Found : Nat × FAccumulatorPool)
    (h : Pool.SearchOnce f p = some Found) (Fuel : Nat) :
    Pool.BlockAndGetAccumulator_GameThread (Fuel + 1) f p = some Found := by
  simp only [FAccumulatorPool.BlockAndGetAccumulator_GameThread, h]

/-- When one search finds nothing, the loop never ends: no amount of fuel gives
a result. -/
theorem blockAndGet_blocked (Pool : FAccumulatorPool) (f : Int)
    (p : FMoviePipelinePassIdentifier) (h : Pool.SearchOnce f p = none) (Fuel : Nat) :
    Pool.BlockAndGetAccumulator_GameThread Fuel f p = none := by
  induction Fuel with
  | zero => rfl
  | succ n ih => simp only [FAccumulatorPool.BlockAndGetAccumulator_GameThread, h, ih]

/-- A call that returns has found its result in one search. -/
theorem searchOnce_of_blockAndGet (Pool : FAccumulatorPool) (f : Int)
    (p : FMoviePipelinePassIdentifier) (Found : Nat × FAccumulatorPool) (Fuel : Nat)
    (h : Pool.BlockAndGetAccumulator_GameThread Fuel f p = some Found) :
    Pool.SearchOnce f p = some Found := by
  cases hs : Pool.SearchOnce f p with
  | none =>
    rw [blockAndGet_blocked Pool f p hs Fuel] at h
    exact absurd h (by simp)
  | some r =>
    cases Fuel with
    | zero => exact absurd h (by simp [FAccumulatorPool.BlockAndGetAccumulator_GameThread])
    | succ n =>
      rw [blockAndGet_of_searchOnce Pool f p r hs n] at h
      exact h

/-- Once the instance at `i` has been bound to a key that no instance carried,
the first loop finds it at `i`. -/
theorem findIdx_bound_after_bind (xs : List FAccumulatorInstance) (f : Int)
    (p : FMoviePipelinePassIdentifier) (i : Nat) (b : Bool) (t : Option Nat)
    (hb : xs.findIdx? (fun x => x.IsBoundTo f p) = none) (hi : i < xs.length) :
    (xs.set i
      { ActiveFrameNumber := f, ActivePassIdentifier := p, bIsActive := b,
        TaskPrereq := t }).findIdx? (fun x => x.IsBoundTo f p) = some i := by
  rw [List.findIdx?_eq_some_iff_getElem]
  refine ⟨by simpa using hi, ?_, ?_⟩
  · simp [List.getElem_set, FAccumulatorInstance.IsBoundTo]
  · intro j hji
    have hne : i ≠ j := by omega
    have hj : j < xs.length := by omega
    have hmem : xs[j] ∈ xs := List.getElem_mem hj
    have := List.findIdx?_eq_none_iff.1 hb _ hmem
    simp [List.getElem_set, hne, this]

/-- A returned index lies in the pool, and the pool keeps its size. -/
theorem searchOnce_index_lt (Pool Pool1 : FAccumulatorPool) (f : Int)
    (p : FMoviePipelinePassIdentifier) (i : Nat)
    (h : Pool.SearchOnce f p = some (i, Pool1)) :
    i < Pool.Accumulators.length ∧ Pool1.Accumulators.length = Pool.Accumulators.length := by
  cases hb : Pool.Accumulators.findIdx? (fun x => x.IsBoundTo f p) with
  | some j =>
    rw [searchOnce_bound Pool f p j hb] at h
    cases h
    obtain ⟨hj, -⟩ := List.findIdx?_eq_some_iff_getElem.1 hb
    exact ⟨hj, rfl⟩
  | none =>
    cases hf : Pool.Accumulators.findIdx? (fun x => !x.IsActive) with
    | some j =>
      rw [searchOnce_free Pool f p j hb hf] at h
      cases h
      obtain ⟨hj, -⟩ := List.findIdx?_eq_some_iff_getElem.1 hf
      exact ⟨hj, by simp⟩
    | none =>
      rw [searchOnce_none Pool f p hb hf] at h
      exact absurd h (by simp)

/-- A search on the pool that a search returned finds the same index and
changes nothing. -/
theorem searchOnce_again (Pool Pool1 : FAccumulatorPool) (f : Int)
    (p : FMoviePipelinePassIdentifier) (i : Nat)
    (h : Pool.SearchOnce f p = some (i, Pool1)) :
    Pool1.SearchOnce f p = some (i, Pool1) := by
  cases hb : Pool.Accumulators.findIdx? (fun x => x.IsBoundTo f p) with
  | some j =>
    rw [searchOnce_bound Pool f p j hb] at h
    cases h
    exact searchOnce_bound Pool f p i hb
  | none =>
    cases hf : Pool.Accumulators.findIdx? (fun x => !x.IsActive) with
    | some j =>
      rw [searchOnce_free Pool f p j hb hf] at h
      cases h
      obtain ⟨hj, -⟩ := List.findIdx?_eq_some_iff_getElem.1 hf
      exact searchOnce_bound _ f p i (findIdx_bound_after_bind _ f p i true none hb hj)
    | none =>
      rw [searchOnce_none Pool f p hb hf] at h
      exact absurd h (by simp)

/-- C12: if `BlockAndGetAccumulator_GameThread` has returned an instance for a
frame number and pass identifier, a second call with the same frame number and
pass identifier on the pool as the first call left it returns the
same instance (the same index), after one iteration, and leaves the pool as
it is. -/
theorem same_key_returns_same_instance (Pool Pool1 : FAccumulatorPool) (f : Int)
    (p : FMoviePipelinePassIdentifier) (i Fuel1 Fuel2 : Nat)
    (hfirst : Pool.BlockAndGetAccumulator_GameThread Fuel1 f p = some (i, Pool1)) :
    Pool1.BlockAndGetAccumulator_GameThread (Fuel2 + 1) f p = some (i, Pool1) :=
  blockAndGet_of_searchOnce Pool1 f p (i, Pool1)
    (searchOnce_again Pool Pool1 f p i (searchOnce_of_blockAndGet Pool f p (i, Pool1) Fuel1 hfirst))
    Fuel2

/-- C12 at a concrete input: two requests for frame 7 of the final image pass
on a pool of two idle instances both return the instance at index 0. -/
theorem same_key_returns_same_instance_witness :
    IdlePool.BlockAndGetAccumulator_GameThread 1 7 FinalImagePass =
        some (0, IdlePool.Run [.BlockAndGetAccumulator 1 7 FinalImagePass]) ∧
      (IdlePool.Run [.BlockAndGetAccumulator 1 7 FinalImagePass]).BlockAndGetAccumulator_GameThread
          1 7 FinalImagePass =
        some (0, IdlePool.Run [.BlockAndGetAccumulator 1 7 FinalImagePass]) :=
  ⟨by decide, same_key_returns_same_instance IdlePool _ 7 FinalImagePass 0 1 0 (by decide)⟩

/-- C19: `BlockAndGetAccumulator_GameThread` returns after a single iteration
of its loop whenever some instance carries the requested key or some instance
is inactive.  If an instance carries the key, the lowest-index one is returned
and the pool is unchanged; otherwise the lowest-index inactive instance is
returned, newly bound to the key (frame number and pass identifier assigned,
active, no task prerequisite) with every other instance unchanged.  If neither
exists, no number of iterations gives a result: the pool is what each
iteration starts from, so the call does not return. -/
theorem blockAndGet_returns_lowest (Pool : FAccumulatorPool) (f : Int)
    (p : FMoviePipelinePassIdentifier) :
    ((∃ x ∈ Pool.Accumulators, x.IsBoundTo f p = true) →
      ∃ i x, Pool.Accumulators[i]? = some x ∧ x.IsBoundTo f p = true ∧
        (∀ j y, j < i → Pool.Accumulators[j]? = some y → y.IsBoundTo f p = false) ∧
        ∀ Fuel, Pool.BlockAndGetAccumulator_GameThread (Fuel + 1) f p = some (i, Pool)) ∧
    ((∀ x ∈ Pool.Accumulators, x.IsBoundTo f p = false) →
      (∃ x ∈ Pool.Accumulators, x.IsActive = false) →
      ∃ i x, Pool.Accumulators[i]? = some x ∧ x.IsActive = false ∧
        (∀ j y, j < i → Pool.Accumulators[j]? = some y → y.IsActive = true) ∧
        ∀ Fuel, Pool.BlockAndGetAccumulator_GameThread (Fuel + 1) f p =
          some (i,
            { Accumulators := Pool.Accumulators.set i
                { ActiveFrameNumber := f, ActivePassIdentifier := p, bIsActive := true,
                  TaskPrereq := none } })) ∧
    ((∀ x ∈ Pool.Accumulators, x.IsBoundTo f p = false) →
      (∀ x ∈ Pool.Accumulators, x.IsActive = true) →
      ∀ Fuel, Pool.BlockAndGetAccumulator_GameThread Fuel f p = none) := by
  refine ⟨?_, ?_, ?_⟩
  · intro hex
    obtain ⟨i, hi⟩ := findIdx_some_of_mem (fun x => x.IsBoundTo f p) Pool.Accumulators hex
    obtain ⟨x, hx, hpx, hlow⟩ := findIdx_some_spec _ _ _ hi
    exact ⟨i, x, hx, hpx, hlow,
      blockAndGet_of_searchOnce Pool f p _ (searchOnce_bound Pool f p i hi)⟩
  · intro hnone hex
    have hb : Pool.Accumulators.findIdx? (fun x => x.IsBoundTo f p) = none :=
      List.findIdx?_eq_none_iff.2 hnone
    have hex2 : ∃ x ∈ Pool.Accumulators, (fun x : FAccumulatorInstance => !x.IsActive) x = true := by
      obtain ⟨x, hx, hxa⟩ := hex
      exact ⟨x, hx, by simp [hxa]⟩
    obtain ⟨i, hi⟩ := findIdx_some_of_mem _ Pool.Accumulators hex2
    obtain ⟨x, hx, hpx, hlow⟩ := findIdx_some_spec _ _ _ hi
    refine ⟨i, x, hx, by simpa using hpx, ?_,
      blockAndGet_of_searchOnce Pool f p _ (searchOnce_free Pool f p i hb hi)⟩
    intro j y hji hy
    simpa using hlow j y hji hy
  · intro hnone hall Fuel
    have hb : Pool.Accumulators.findIdx? (fun x => x.IsBoundTo f p) = none :=
      List.findIdx?_eq_none_iff.2 hnone
    have hf : Pool.Accumulators.findIdx? (fun x => !x.IsActive) = none := by
      rw [List.findIdx?_eq_none_iff]
      intro x hx
      simp [hall x hx]
    exact blockAndGet_blocked Pool f p (searchOnce_none Pool f p hb hf) Fuel

/-- C19 at concrete inputs: on a pool of two idle instances a request for
frame 7 binds index 0; once both instances are active for frames 7 and 8, a
request for frame 9 does not return, whatever the fuel. -/
theorem blockAndGet_returns_lowest_witness :
    (∀ Fuel, IdlePool.BlockAndGetAccumulator_GameThread (Fuel + 1) 7 FinalImagePass =
      some (0, IdlePool.Run [.BlockAndGetAccumulator 1 7 FinalImagePass])) ∧
    (∀ Fuel, (IdlePool.Run [.BlockAndGetAccumulator 1 7 FinalImagePass,
        .BlockAndGetAccumulator 1 8 FinalImagePass]).BlockAndGetAccumulator_GameThread
        Fuel 9 FinalImagePass = none) := by
  constructor
  · obtain ⟨i, x, hx, hxa, hlow, hret⟩ :=
      (blockAndGet_returns_lowest IdlePool 7 FinalImagePass).2.1 (by decide)
        ⟨IdleInstance, by decide, rfl⟩
    intro Fuel
    have h0 : i = 0 := by
      cases i with
      | zero => rfl
      | succ n => exact absurd (hlow 0 IdleInstance (by omega) rfl) (by decide)
    subst h0
    exact hret Fuel
  · exact (blockAndGet_returns_lowest _ 9 FinalImagePass).2.2 (by decide) (by decide)

/-! ## The invariant of the pool -/

/-- Replacing one element keeps a pairwise relation when the new element is
related, on both sides, to every element of the list. -/
theorem pairwise_set {α : Type} (R : α → α → Prop) (v : α) :
    ∀ (l : List α) (i : Nat), l.Pairwise R → (∀ y ∈ l, R v y ∧ R y v) →
      (l.set i v).Pairwise R := by
  intro l
  induction l with
  | nil => intro i _ _; simp
  | cons x xs ih =>
    intro i hl hv
    rw [List.pairwise_cons] at hl
    cases i with
    | zero =>
      rw [List.set_cons_zero, List.pairwise_cons]
      exact ⟨fun y hy => (hv y (List.mem_cons_of_mem _ hy)).1, hl.2⟩
    | succ n =>
      rw [List.set_cons_succ, List.pairwise_cons]
      refine ⟨?_, ih n hl.2 (fun y hy => hv y (List.mem_cons_of_mem _ hy))⟩
      intro y hy
      rcases List.mem_or_eq_of_mem_set hy with h | h
      · exact hl.1 y h
      · rw [h]
        exact (hv x (List.mem_cons_self _ _)).2

/-- A pool without an active instance satisfies the invariant. -/
theorem noTwoActive_of_idle (Pool : FAccumulatorPool)
    (hidle : ∀ x ∈ Pool.Accumulators, x.bIsActive = false) : NoTwoActiveShareKey Pool := by
  unfold NoTwoActiveShareKey
  rw [List.pairwise_iff_forall_sublist]
  intro x y hxy
  have hx : x ∈ Pool.Accumulators := hxy.subset (by simp)
  intro hs
  have h1 := hs.1
  rw [hidle x hx] at h1
  exact absurd h1 (by decide)

/-- One search keeps the invariant. -/
theorem noTwoActive_searchOnce (Pool Pool1 : FAccumulatorPool) (f : Int)
    (p : FMoviePipelinePassIdentifier) (i : Nat) (hinv : NoTwoActiveShareKey Pool)
    (h : Pool.SearchOnce f p = some (i, Pool1)) : NoTwoActiveShareKey Pool1 := by
  cases hb : Pool.Accumulators.findIdx? (fun x => x.IsBoundTo f p) with
  | some j =>
    rw [searchOnce_bound Pool f p j hb] at h
    cases h
    exact hinv
  | none =>
    cases hf : Pool.Accumulators.findIdx? (fun x => !x.IsActive) with
    | some j =>
      rw [searchOnce_free Pool f p j hb hf] at h
      cases h
      unfold NoTwoActiveShareKey at *
      apply pairwise_set _ _ _ _ hinv
      intro y hy
      have hy2 := List.findIdx?_eq_none_iff.1 hb y hy
      simp only [FAccumulatorInstance.IsBoundTo, Bool.and_eq_false_iff, beq_eq_false_iff_ne,
        ne_eq] at hy2
      constructor
      · rintro ⟨-, -, h3, h4⟩
        rcases hy2 with h | h
        · exact h h3
        · exact h h4
      · rintro ⟨-, -, h3, h4⟩
        rcases hy2 with h | h
        · exact h h3.symm
        · exact h h4.symm
    | none =>
      rw [searchOnce_none Pool f p hb hf] at h
      exact absurd h (by simp)

/-- A release keeps the invariant. -/
theorem noTwoActive_release (Pool : FAccumulatorPool) (i : Nat)
    (hinv : NoTwoActiveShareKey Pool) : NoTwoActiveShareKey (Pool.SetIsActive i false) := by
  unfold FAccumulatorPool.SetIsActive
  cases hx : Pool.Accumulators[i]? with
  | none => exact hinv
  | some x =>
    unfold NoTwoActiveShareKey at *
    apply pairwise_set _ _ _ _ hinv
    intro y _
    constructor
    · rintro ⟨h1, -⟩
      simp [FAccumulatorInstance.SetIsActive] at h1
    · rintro ⟨-, h2, -⟩
      simp [FAccumulatorInstance.SetIsActive] at h2

/-- Every call keeps the invariant. -/
theorem noTwoActive_apply (Pool : FAccumulatorPool) (c : FPoolCall)
    (hinv : NoTwoActiveShareKey Pool) : NoTwoActiveShareKey (Pool.Apply c) := by
  cases c with
  | BlockAndGetAccumulator Fuel f p =>
    simp only [FAccumulatorPool.Apply]
    cases h : Pool.BlockAndGetAccumulator_GameThread Fuel f p with
    | none => exact hinv
    | some Found =>
      exact noTwoActive_searchOnce Pool Found.2 f p Found.1 hinv
        (searchOnce_of_blockAndGet Pool f p Found Fuel h)
  | Release i => exact noTwoActive_release Pool i hinv

/-- Every sequence of calls keeps the invariant. -/
theorem noTwoActive_run (Calls : List FPoolCall) (Pool : FAccumulatorPool)
    (hinv : NoTwoActiveShareKey Pool) : NoTwoActiveShareKey (Pool.Run Calls) := by
  induction Calls generalizing Pool with
  | nil => exact hinv
  | cons c cs ih => exact ih (Pool.Apply c) (noTwoActive_apply Pool c hinv)

/-- C13: starting from a pool in which no accumulator is active, after every
sequence of `BlockAndGetAccumulator_GameThread` calls (with any fuel) and
`SetIsActive(false)` releases no two active accumulators carry the same (frame
number, pass identifier) key. -/
theorem active_keys_stay_distinct (Pool : FAccumulatorPool) (Calls : List FPoolCall)
    (hidle : ∀ x ∈ Pool.Accumulators, x.bIsActive = false) :
    NoTwoActiveShareKey (Pool.Run Calls) :=
  noTwoActive_run Calls Pool (noTwoActive_of_idle Pool hidle)

/-- C13 at a concrete input: two requests for frame 7, a release and a
request for frame 8 on a pool of two idle instances. -/
theorem active_keys_stay_distinct_witness :
    NoTwoActiveShareKey (IdlePool.Run [.BlockAndGetAccumulator 1 7 FinalImagePass,
      .BlockAndGetAccumulator 1 7 FinalImagePass, .Release 0,
      .BlockAndGetAccumulator 1 8 FinalImagePass]) :=
  active_keys_stay_distinct IdlePool _ (by decide)

/-- C14 at the failing input: on a pool of two idle instances, frame 7 of the
final image pass is requested (index 0 is bound and active), the instance at
index 0 is released with `SetIsActive(false)`, and frame 7 is requested again.
The first loop matches the stale frame number and pass identifier of index 0
without looking at `bIsActive`, so the call returns index 0, whose `IsActive()`
is false on return; the instance at index 1 is idle and untouched. -/
theorem released_instance_is_returned_inactive :
    (IdlePool.Run [.BlockAndGetAccumulator 1 7 FinalImagePass,
        .Release 0]).BlockAndGetAccumulator_GameThread 1 7 FinalImagePass =
      some (0,
        { Accumulators :=
            [{ ActiveFrameNumber := 7, ActivePassIdentifier := FinalImagePass,
               bIsActive := false, TaskPrereq := none },
             IdleInstance] }) ∧
    ((IdlePool.Run [.BlockAndGetAccumulator 1 7 FinalImagePass,
        .Release 0]).BlockAndGetAccumulator_GameThread 1 7 FinalImagePass).map
      (fun Found => Found.2.Accumulators[Found.1]?.map FAccumulatorInstance.IsActive) =
      some (some false) := by
  decide

/-! ## The single-sample copy and the lazy allocation -/

/-- The lazy allocation makes no single-sample call. -/
theorem singleSample_allocate (InParams : FImageSampleAccumulationArgs)
    (p : FImagePixelDataPayload) (a : FImageOverlappedAccumulator) :
    SingleSampleEmissions (AllocateIfNeeded InParams p a).2 = [] := by
  unfold AllocateIfNeeded SingleSampleEmissions
  split <;> simp [FEvent.SingleSampleData]

/-- The fetch event of the final fetch is neither a single-sample call nor an
allocation call. -/
theorem fetchFinal_event_kind (E : FEngine) (p : FImagePixelDataPayload)
    (a : FImageOverlappedAccumulator) (d : FImagePixelData) :
    (FetchFinal E p a d).1.SingleSampleData = none ∧
      (FetchFinal E p a d).1.IsAllocation = false := by
  unfold FetchFinal
  cases d.PixelType <;> simp [FEvent.SingleSampleData, FEvent.IsAllocation]

/-- The events that follow the debug copy and the lazy allocation in a run off
the fast path: nothing when a check stops the run, the accumulation, and on the
last tile and last temporal sample the fetch, the emission and the reset. -/
theorem run_events_after_allocation (E : FEngine) (InParams : FImageSampleAccumulationArgs)
    (a : FImageOverlappedAccumulator) (s : FImagePixelData) (p : FImagePixelDataPayload)
    (hwf : s.IsDataWellFormed = true) (hp : s.Payload = some p)
    (hslow : TakesFastPath p = false) :
    ∃ Rest, (AccumulateSample_TaskThread E InParams a s).Events =
        EventsBeforeResize InParams p a s ++ Rest ∧
      SingleSampleEmissions Rest = [] ∧ ∀ e ∈ Rest, e.IsAllocation = false := by
  cases hres : ResizeIfNeeded E p s with
  | none =>
    rw [run_resize_rejected E InParams a s p hwf hp hslow hres]
    exact ⟨[], by simp, rfl, by simp⟩
  | some d =>
    cases hok : p.GetOverlapPaddedSizeIsValid d.Size
    · rw [run_size_check_fails E InParams a s d p hwf hp hslow hres hok]
      exact ⟨[], by simp, rfl, by simp⟩
    · rw [run_accumulates E InParams a s d p hwf hp hslow hres hok]
      have hf := fetchFinal_event_kind E p (AccumulatedState E InParams p a d) d
      cases hcond : (p.IsLastTile && p.IsLastTemporalSample)
      · rw [if_neg Bool.false_ne_true]
        refine ⟨_, rfl, rfl, ?_⟩
        intro e he
        simp at he
        subst he
        rfl
      · rw [if_pos rfl]
        refine ⟨[FEvent.AccumulatePixelData (AccumulateArguments p d)] ++
          [(FetchFinal E p (AccumulatedState E InParams p a d) d).1,
            FEvent.OnCompleteRenderPassDataAvailable
              (FetchFinal E p (AccumulatedState E InParams p a d) d).2,
            FEvent.Reset], by simp, ?_, ?_⟩
        · unfold SingleSampleEmissions
          simp only [List.filterMap_append, List.filterMap_cons, List.filterMap_nil, hf.1]
          rfl
        · intro e he
          simp only [List.mem_append, List.mem_cons, List.mem_singleton, List.not_mem_nil,
            or_false] at he
          rcases he with h | h | h | h
          · subst h; rfl
          · subst h; exact hf.2
          · subst h; rfl
          · subst h; rfl

/-- C11: for every well-formed sample (with its payload) the task function
calls `OnSingleSampleDataAvailable` exactly once, with a copy of the submitted
buffer (its pixels, size and format as submitted, before any resize or
accumulation), if `bWriteSampleToDisk` is set, and never otherwise.  The call
is the first event of the run, so it precedes every complete-pass emission of
the invocation. -/
theorem single_sample_copy_sent_first (E : FEngine) (InParams : FImageSampleAccumulationArgs)
    (a : FImageOverlappedAccumulator) (s : FImagePixelData) (p : FImagePixelDataPayload)
    (hwf : s.IsDataWellFormed = true) (hp : s.Payload = some p) :
    SingleSampleEmissions (AccumulateSample_TaskThread E InParams a s).Events =
        (if p.bWriteSampleToDisk then [s.CopyImageData] else []) ∧
      s.CopyImageData = s ∧
      ∃ Rest, (AccumulateSample_TaskThread E InParams a s).Events =
          SendSingleSample p s ++ Rest ∧
        SingleSampleEmissions Rest = [] ∧
        CompletePassEmissions (AccumulateSample_TaskThread E InParams a s).Events =
          CompletePassEmissions Rest := by
  have hsent : SingleSampleEmissions (SendSingleSample p s) =
      (if p.bWriteSampleToDisk then [s.CopyImageData] else []) := by
    unfold SendSingleSample SingleSampleEmissions
    cases p.bWriteSampleToDisk <;> simp [FEvent.SingleSampleData]
  have hrest : ∃ Rest, (AccumulateSample_TaskThread E InParams a s).Events =
      SendSingleSample p s ++ Rest ∧ SingleSampleEmissions Rest = [] := by
    cases hfast : TakesFastPath p
    · obtain ⟨Rest, hev, hsingle, -⟩ := run_events_after_allocation E InParams a s p hwf hp hfast
      refine ⟨(AllocateIfNeeded InParams p a).2 ++ Rest, ?_, ?_⟩
      · rw [hev, EventsBeforeResize, List.append_assoc]
      · have h2 := singleSample_allocate InParams p a
        unfold SingleSampleEmissions at *
        simp only [List.filterMap_append, h2, hsingle, List.append_nil]
    · rw [run_fast_path E InParams a s p hwf hp hfast]
      exact ⟨[FEvent.OnCompleteRenderPassDataAvailable s], rfl, rfl⟩
  obtain ⟨Rest, hev, hsingle⟩ := hrest
  refine ⟨?_, rfl, Rest, hev, hsingle, ?_⟩
  · rw [hev]
    unfold SingleSampleEmissions at *
    simp only [List.filterMap_append, hsent, hsingle, List.append_nil]
  · rw [hev]
    have h1 := completePass_sendSingleSample p s
    unfold CompletePassEmissions at *
    simp only [List.filterMap_append, h1, List.nil_append]

/-- C11 at a concrete input: a well-formed 1x1 `Float32` sample with the debug
copy enabled, the last of a frame with two spatial samples, where 2x2 is
expected: the copy that is sent is the 1x1 buffer as submitted. -/
theorem single_sample_copy_sent_first_witness :
    SingleSampleEmissions (AccumulateSample_TaskThread SampleEngine AlphaArgs EmptyAccumulator
        (OnePixelSample .Float32 (SingleTilePayload 1 2 true))).Events =
      [OnePixelSample .Float32 (SingleTilePayload 1 2 true)] :=
  (single_sample_copy_sent_first SampleEngine AlphaArgs EmptyAccumulator
    (OnePixelSample .Float32 (SingleTilePayload 1 2 true)) (SingleTilePayload 1 2 true)
    (by decide) rfl).1

/-- The allocation calls of the lazy allocation: `InitMemory` and `ZeroPlanes`
when the channel count is 0 on entry, none otherwise. -/
theorem allocate_events (InParams : FImageSampleAccumulationArgs)
    (p : FImagePixelDataPayload) (a : FImageOverlappedAccumulator) :
    (AllocateIfNeeded InParams p a).2 =
      if a.NumChannels = 0 then
        [FEvent.InitMemory p.GetAccumulatorSize (if InParams.bAccumulateAlpha then 4 else 3),
          FEvent.ZeroPlanes]
      else [] := by
  unfold AllocateIfNeeded
  split <;> rfl

/-- C18: for every well-formed sample off the fast path the accumulator is
initialised if and only if its `NumChannels` is 0 on entry: the allocation
calls of the run are `InitMemory` with the payload's accumulator size followed
by `ZeroPlanes` in that case, and none otherwise.  When it is initialised the
channel count is 4 with `bAccumulateAlpha` and 3 without, the plane size is
the payload's accumulator size and the gamma is the sample's; when
`NumChannels` is not 0 the accumulator (planes, plane size, channel count,
gamma) is as it was.  The sample is then accumulated into that state. -/
theorem accumulator_is_allocated_lazily (E : FEngine) (InParams : FImageSampleAccumulationArgs)
    (a : FImageOverlappedAccumulator) (s : FImagePixelData) (p : FImagePixelDataPayload)
    (hwf : s.IsDataWellFormed = true) (hp : s.Payload = some p)
    (hslow : TakesFastPath p = false) :
    (AccumulateSample_TaskThread E InParams a s).Events.filter FEvent.IsAllocation =
        (if a.NumChannels = 0 then
          [FEvent.InitMemory p.GetAccumulatorSize (if InParams.bAccumulateAlpha then 4 else 3),
            FEvent.ZeroPlanes]
        else []) ∧
      (a.NumChannels = 0 →
        (AllocateIfNeeded InParams p a).1 =
          { ((a.InitMemory p.GetAccumulatorSize
                (if InParams.bAccumulateAlpha then 4 else 3)).ZeroPlanes) with
            AccumulationGamma := p.AccumulationGamma } ∧
        (AllocateIfNeeded InParams p a).1.NumChannels =
          (if InParams.bAccumulateAlpha then 4 else 3) ∧
        (AllocateIfNeeded InParams p a).1.PlaneSize = p.GetAccumulatorSize ∧
        (AllocateIfNeeded InParams p a).1.AccumulationGamma = p.AccumulationGamma) ∧
      (a.NumChannels ≠ 0 → (AllocateIfNeeded InParams p a).1 = a) ∧
      (∀ d, ResizeIfNeeded E p s = some d → p.GetOverlapPaddedSizeIsValid d.Size = true →
        (AccumulateSample_TaskThread E InParams a s).Accumulator =
          if p.IsLastTile && p.IsLastTemporalSample then
            ((AllocateIfNeeded InParams p a).1.AccumulatePixelData E
              (AccumulateArguments p d)).Reset
          else (AllocateIfNeeded InParams p a).1.AccumulatePixelData E
            (AccumulateArguments p d)) := by
  refine ⟨?_, ?_, ?_, ?_⟩
  · obtain ⟨Rest, hev, -, hrest⟩ := run_events_after_allocation E InParams a s p hwf hp hslow
    have hsent : (SendSingleSample p s).filter FEvent.IsAllocation = [] := by
      unfold SendSingleSample
      split <;> simp [FEvent.IsAllocation]
    have hfilter : Rest.filter FEvent.IsAllocation = [] := by
      rw [List.filter_eq_nil_iff]
      intro e he
      simp [hrest e he]
    rw [hev, EventsBeforeResize, List.filter_append, List.filter_append, hsent, hfilter,
      allocate_events]
    split <;> simp [FEvent.IsAllocation]
  · intro h0
    simp only [AllocateIfNeeded, h0, if_true]
    exact ⟨trivial, rfl, rfl, trivial⟩
  · intro h0
    simp [AllocateIfNeeded, h0]
  · intro d hres hok
    rw [run_accumulates E InParams a s d p hwf hp hslow hres hok]
    cases hcond : (p.IsLastTile && p.IsLastTemporalSample)
    · rw [if_neg Bool.false_ne_true, if_neg Bool.false_ne_true]
      rfl
    · rw [if_pos rfl, if_pos rfl]
      rfl

/-- C18 at a concrete input: a well-formed 2x2 sample of the first of two
tiles submitted to an unallocated accumulator with `bAccumulateAlpha`: the run
allocates a 4x2 accumulator with four channels. -/
theorem accumulator_is_allocated_lazily_witness :
    (AccumulateSample_TaskThread SampleEngine AlphaArgs EmptyAccumulator
        (FourPixelSample .Float32 FirstOfTwoTilesPayload)).Events.filter FEvent.IsAllocation =
      [FEvent.InitMemory { X := 4, Y := 2 } 4, FEvent.ZeroPlanes] :=
  (accumulator_is_allocated_lazily SampleEngine AlphaArgs EmptyAccumulator
    (FourPixelSample .Float32 FirstOfTwoTilesPayload) FirstOfTwoTilesPayload
    (by decide) rfl (by decide)).1

/-! ## Reset -/

/-- C15: `Reset` sets the channel count to 0 and every cell of every sum plane
and of the weight plane to zero, and it is idempotent: a second `Reset` leaves
the accumulator as the first one left it. -/
theorem reset_zeroes_and_is_idempotent (a : FImageOverlappedAccumulator) :
    a.Reset.NumChannels = 0 ∧
      (∀ Plane ∈ a.Reset.ChannelPlanes, ∀ v ∈ Plane, v = 0) ∧
      (∀ v ∈ a.Reset.WeightPlane, v = 0) ∧
      a.Reset.Reset = a.Reset := by
  refine ⟨rfl, ?_, ?_, ?_⟩
  · intro Plane hPlane v hv
    simp only [FImageOverlappedAccumulator.Reset, List.mem_map] at hPlane
    obtain ⟨Q, -, rfl⟩ := hPlane
    simp only [List.mem_map] at hv
    obtain ⟨_, -, rfl⟩ := hv
    rfl
  · intro v hv
    simp only [FImageOverlappedAccumulator.Reset, List.mem_map] at hv
    obtain ⟨_, -, rfl⟩ := hv
    rfl
  · simp [FImageOverlappedAccumulator.Reset, List.map_map, Function.comp_def]

/-! ## Arrival order and the complete-pass emission -/

/-- Adding into the cell that follows a prefix of the plane. -/
theorem addAt_append_cons (L R : List ℚ) (x v : ℚ) :
    FImageOverlappedAccumulator.AddAt L.length v (L ++ x :: R) = L ++ (x + v) :: R := by
  induction L with
  | nil => rfl
  | cons y ys ih => simp [FImageOverlappedAccumulator.AddAt, ih]

/-- Adding into the first zero cell after the `k` filled cells of a plane. -/
theorem addAt_filled (L : List ℚ) (k n : Nat) (v : ℚ) (hk : L.length = k) (h : k < n) :
    FImageOverlappedAccumulator.AddAt k v (L ++ List.replicate (n - k) 0) =
      (L ++ [v]) ++ List.replicate (n - (k + 1)) 0 := by
  subst hk
  have hrep : List.replicate (n - L.length) (0 : ℚ) =
      0 :: List.replicate (n - (L.length + 1)) 0 := by
    have : n - L.length = (n - (L.length + 1)) + 1 := by omega
    rw [this, List.replicate_succ]
  rw [hrep, addAt_append_cons]
  simp

/-- A well-formed buffer holds `SizeX * SizeY` pixels. -/
theorem wellFormed_length (d : FImagePixelData) (h : d.IsDataWellFormed = true) :
    (d.Pixels.length : Int) = d.Size.X * d.Size.Y := by
  unfold FImagePixelData.IsDataWellFormed FImagePixelData.GetRawDataSizeInBytes
    FImagePixelData.GetBitDepth FImagePixelData.GetNumChannels at h
  generalize d.Size.X * d.Size.Y = m at h ⊢
  generalize (d.Pixels.length : Int) = k at h ⊢
  cases hty : d.PixelType <;>
    simp only [hty, EImagePixelType.PixelBytes, EImagePixelType.GetBitDepth, beq_iff_eq] at h <;>
    omega

/-- Adding the next pixel of a full-weight sample, placed at its own row and
column, fills the next cell. -/
theorem addContribution_partiallyFilled (E : FEngine) (Size : FIntPoint) (n : Nat) (g : ℚ)
    (qs : List FLinearColor) (q : FLinearColor)
    (c : FImageOverlappedAccumulator.FContribution) (hn : n = 3 ∨ n = 4) (hX : 0 < Size.X)
    (hlt : qs.length < FImageOverlappedAccumulator.PlaneCells Size)
    (hpos : c.Position = { X := (qs.length : Int) % Size.X, Y := (qs.length : Int) / Size.X })
    (hw : c.Weight = 1)
    (hch : c.Channels = [E.Linearize g q.R, E.Linearize g q.G, E.Linearize g q.B,
      E.Linearize g q.A]) :
    (PartiallyFilled E Size n g qs).AddContribution c =
      PartiallyFilled E Size n g (qs ++ [q]) := by
  have hk : (qs.length : Int) < Size.X * Size.Y := by
    unfold FImageOverlappedAccumulator.PlaneCells at hlt
    omega
  have h1 : 0 ≤ (qs.length : Int) % Size.X := Int.emod_nonneg _ (by omega)
  have h2 : (qs.length : Int) % Size.X < Size.X := Int.emod_lt_of_pos _ hX
  have h3 : 0 ≤ (qs.length : Int) / Size.X := Int.ediv_nonneg (by omega) (by omega)
  have h4 : (qs.length : Int) / Size.X < Size.Y :=
    Int.ediv_lt_of_lt_mul hX (by rw [mul_comm]; exact hk)
  have hidx : ((qs.length : Int) / Size.X * Size.X + (qs.length : Int) % Size.X).toNat =
      qs.length := by
    rw [Int.ediv_add_emod']
    exact Int.toNat_natCast _
  unfold FImageOverlappedAccumulator.AddContribution
  rw [hpos, hw, hch]
  rcases hn with rfl | rfl
  · simp only [PartiallyFilled, h1, h2, h3, h4, and_self, if_true, hidx, List.take,
      FImageOverlappedAccumulator.AddChannels, one_mul]
    rw [addAt_filled _ qs.length _ _ (by simp) hlt, addAt_filled _ qs.length _ _ (by simp) hlt,
      addAt_filled _ qs.length _ _ (by simp) hlt, addAt_filled _ qs.length _ _ (by simp) hlt]
    simp [List.replicate_succ']
  · simp only [PartiallyFilled, h1, h2, h3, h4, and_self, if_true, hidx, List.take,
      FImageOverlappedAccumulator.AddChannels, one_mul]
    rw [addAt_filled _ qs.length _ _ (by simp) hlt, addAt_filled _ qs.length _ _ (by simp) hlt,
      addAt_filled _ qs.length _ _ (by simp) hlt, addAt_filled _ qs.length _ _ (by simp) hlt,
      addAt_filled _ qs.length _ _ (by simp) hlt]
    simp [List.replicate_succ']

/-- Adding the pixels of a full-weight sample one after the other, each at its
own row and column, fills the plane cell by cell. -/
theorem foldl_partiallyFilled (E : FEngine) (Size : FIntPoint) (n : Nat) (g : ℚ)
    (F : Nat × FLinearColor → FImageOverlappedAccumulator.FContribution)
    (hn : n = 3 ∨ n = 4) (hX : 0 < Size.X)
    (hF : ∀ k q, (F (k, q)).Position = { X := (k : Int) % Size.X, Y := (k : Int) / Size.X } ∧
      (F (k, q)).Weight = 1 ∧
      (F (k, q)).Channels = [E.Linearize g q.R, E.Linearize g q.G, E.Linearize g q.B,
        E.Linearize g q.A])
    (qs : List FLinearColor) (hlen : qs.length ≤ FImageOverlappedAccumulator.PlaneCells Size) :
    (qs.enum.map F).foldl FImageOverlappedAccumulator.AddContribution
        (PartiallyFilled E Size n g []) = PartiallyFilled E Size n g qs := by
  induction qs using List.reverseRecOn with
  | nil => rfl
  | append_singleton qs q ih =>
    have hlt : qs.length < FImageOverlappedAccumulator.PlaneCells Size := by
      simp only [List.length_append, List.length_singleton] at hlen
      omega
    rw [List.enum_append, List.enumFrom_singleton, List.map_append, List.foldl_append,
      ih (by omega)]
    simp only [List.map_cons, List.map_nil, List.foldl_cons, List.foldl_nil]
    obtain ⟨h1, h2, h3⟩ := hF qs.length q
    exact addContribution_partiallyFilled E Size n g qs q _ hn hX hlt h1 h2 h3

/-- A freshly allocated and zeroed accumulator with three or four channels is
the partially filled one with no pixel added. -/
theorem zeroed_eq_partiallyFilled (E : FEngine) (a : FImageOverlappedAccumulator)
    (Size : FIntPoint) (n : Nat) (g : ℚ) (hn : n = 3 ∨ n = 4) :
    ({ ((a.InitMemory Size (n : Int)).ZeroPlanes) with AccumulationGamma := g } :
      FImageOverlappedAccumulator) = PartiallyFilled E Size n g [] := by
  rcases hn with rfl | rfl <;>
    simp [FImageOverlappedAccumulator.InitMemory, FImageOverlappedAccumulator.ZeroPlanes,
      PartiallyFilled, List.replicate]

/-- The weight and the sums that a full-weight sample leaves in cell `i`. -/
theorem partiallyFilled_cell (E : FEngine) (Size : FIntPoint) (g : ℚ)
    (qs : List FLinearColor) (i : Nat) (hi : i < qs.length) :
    (List.replicate qs.length (1 : ℚ) ++
        List.replicate (FImageOverlappedAccumulator.PlaneCells Size - qs.length) 0).getD i 0 =
        1 ∧
      ∀ ch : FLinearColor → ℚ,
        (qs.map (fun q => E.Linearize g (ch q)) ++
          List.replicate (FImageOverlappedAccumulator.PlaneCells Size - qs.length) 0).getD i 0 =
        E.Linearize g (ch qs[i]) := by
  constructor
  · rw [List.getD_append _ _ _ _ (by simpa using hi),
      List.getD_eq_getElem _ _ (by simpa using hi)]
    simp
  · intro ch
    rw [List.getD_append _ _ _ _ (by simpa using hi),
      List.getD_eq_getElem _ _ (by simpa using hi)]
    simp

/-- Fetching from four planes filled by a full-weight sample gives the sample
back when the gamma is undone as it was applied. -/
theorem fetch_partiallyFilled_four (E : FEngine) (Size : FIntPoint) (g : ℚ)
    (qs : List FLinearColor) (hlen : qs.length = FImageOverlappedAccumulator.PlaneCells Size)
    (hgamma : ∀ v, E.Encode g (E.Linearize g v) = v) :
    (PartiallyFilled E Size 4 g qs).FetchFinalPixelDataLinearColor E = qs := by
  unfold FImageOverlappedAccumulator.FetchFinalPixelDataLinearColor
  apply List.ext_getElem
  · simp [PartiallyFilled, hlen]
  · intro i h1 h2
    obtain ⟨hw, hc⟩ := partiallyFilled_cell E Size g qs i h2
    simp only [List.getElem_map, List.getElem_range,
      FImageOverlappedAccumulator.NormalizedChannel, PartiallyFilled, List.take,
      List.get?_cons_zero, List.get?_cons_succ, hw, div_one]
    rw [hc (fun q => q.R), hc (fun q => q.G), hc (fun q => q.B), hc (fun q => q.A)]
    simp only [hgamma]

/-- Fetching from three planes filled by a full-weight sample gives the red,
green and blue values of the sample back; the alpha channel, which the
accumulator does not hold, reads 1. -/
theorem fetch_partiallyFilled_three (E : FEngine) (Size : FIntPoint) (g : ℚ)
    (qs : List FLinearColor) (hlen : qs.length = FImageOverlappedAccumulator.PlaneCells Size)
    (hgamma : ∀ v, E.Encode g (E.Linearize g v) = v) :
    (PartiallyFilled E Size 3 g qs).FetchFinalPixelDataLinearColor E =
      qs.map (fun q => { R := q.R, G := q.G, B := q.B, A := 1 }) := by
  unfold FImageOverlappedAccumulator.FetchFinalPixelDataLinearColor
  apply List.ext_getElem
  · simp [PartiallyFilled, hlen]
  · intro i h1 h2
    have h3 : i < qs.length := by simpa using h2
    obtain ⟨hw, hc⟩ := partiallyFilled_cell E Size g qs i h3
    simp only [List.getElem_map, List.getElem_range,
      FImageOverlappedAccumulator.NormalizedChannel, PartiallyFilled, List.take,
      List.get?_cons_zero, List.get?_cons_succ, List.get?_nil, hw, div_one]
    rw [hc (fun q => q.R), hc (fun q => q.G), hc (fun q => q.B)]
    simp only [hgamma]

/-- C16: round trip.  A freshly allocated and zeroed accumulator whose plane
size is the size of the sample receives one well-formed sample with weight 1
everywhere, each pixel placed at its own row and column (the sample covers the
entire output region), with a gamma that is undone as it is applied.  The
fetched normalised result is then the pixel array of the sample, channel by
channel, when the accumulator holds four channels; with three channels the
red, green and blue values are reproduced and the alpha channel, which is not
accumulated, reads 1. -/
theorem single_full_weight_sample_round_trips (E : FEngine)
    (a : FImageOverlappedAccumulator) (c : FAccumulateCall) (g : ℚ) (n : Nat)
    (hwf : c.Data.IsDataWellFormed = true) (hX : 0 < c.Data.Size.X)
    (hplace : ∀ x y, E.Place c.Offset c.SubpixelShift x y = { X := x, Y := y })
    (hwx : ∀ x, c.WeightX.CalculateWeight x = 1)
    (hwy : ∀ y, c.WeightY.CalculateWeight y = 1)
    (hgamma : ∀ v, E.Encode g (E.Linearize g v) = v) :
    (n = 4 →
      (({ ((a.InitMemory c.Data.Size (n : Int)).ZeroPlanes) with AccumulationGamma := g } :
        FImageOverlappedAccumulator).AccumulatePixelData E c).FetchFinalPixelDataLinearColor E =
        c.Data.Pixels) ∧
    (n = 3 →
      (({ ((a.InitMemory c.Data.Size (n : Int)).ZeroPlanes) with AccumulationGamma := g } :
        FImageOverlappedAccumulator).AccumulatePixelData E c).FetchFinalPixelDataLinearColor E =
        c.Data.Pixels.map (fun q => { R := q.R, G := q.G, B := q.B, A := 1 })) := by
  have hlenZ := wellFormed_length c.Data hwf
  have hlen : c.Data.Pixels.length = FImageOverlappedAccumulator.PlaneCells c.Data.Size := by
    unfold FImageOverlappedAccumulator.PlaneCells
    omega
  have hfold : ∀ m : Nat, m = 3 ∨ m = 4 →
      ({ ((a.InitMemory c.Data.Size (m : Int)).ZeroPlanes) with AccumulationGamma := g } :
        FImageOverlappedAccumulator).AccumulatePixelData E c =
      PartiallyFilled E c.Data.Size m g c.Data.Pixels := by
    intro m hm
    rw [zeroed_eq_partiallyFilled E a c.Data.Size m g hm]
    unfold FImageOverlappedAccumulator.AccumulatePixelData Contributions
    apply foldl_partiallyFilled E c.Data.Size m g _ hm hX _ _ (by omega)
    intro k q
    simp [PartiallyFilled, hplace, hwx, hwy]
  constructor
  · intro h4
    subst h4
    rw [hfold 4 (Or.inr rfl)]
    exact fetch_partiallyFilled_four E c.Data.Size g c.Data.Pixels hlen hgamma
  · intro h3
    subst h3
    rw [hfold 3 (Or.inl rfl)]
    exact fetch_partiallyFilled_three E c.Data.Size g c.Data.Pixels hlen hgamma

/-- C16 at a concrete input: the 2x2 sample with grey levels 1 to 4,
accumulated with full weight at offset (0, 0) into a fresh 2x2 accumulator with
four channels, is fetched back unchanged. -/
theorem single_full_weight_sample_round_trips_witness :
    (({ ((EmptyAccumulator.InitMemory FullSampleCall.Data.Size ((4 : Nat) : Int)).ZeroPlanes) with
        AccumulationGamma := 1 } :
      FImageOverlappedAccumulator).AccumulatePixelData SampleEngine
        FullSampleCall).FetchFinalPixelDataLinearColor SampleEngine =
      [Grey 1, Grey 2, Grey 3, Grey 4] :=
  (single_full_weight_sample_round_trips SampleEngine EmptyAccumulator FullSampleCall 1 4
    (by decide) (by decide)
    (by intro x y; simp [SampleEngine, FullSampleCall, AccumulateArguments, SingleTilePayload])
    (fun _ => rfl) (fun _ => rfl) (fun _ => rfl)).1 rfl

/-! ## Tiling: principal point offset and projection matrix -/

/-- In the `int32` range the wrapped value is the value itself. -/
theorem wrap32_of_inRange (x : Int) (hlo : -2147483648 ≤ x) (hhi : x ≤ 2147483647) :
    Wrap32 x = x := by
  unfold Wrap32
  omega

/-- A wrapped value lies in the `int32` range. -/
theorem wrap32_range (x : Int) : -2147483648 ≤ Wrap32 x ∧ Wrap32 x ≤ 2147483647 := by
  unfold Wrap32
  omega

/-- The overlap scale of an axis, `1 + w / tile`, is not zero unless the
doubled pad `w` is the negative of the tile size. -/
theorem overlapScale_ne_zero (w Tile : Int) (hTile : 0 < Tile) (hw : w + Tile ≠ 0) :
    (1 : ℚ) + (w : ℚ) / (Tile : ℚ) ≠ 0 := by
  have h1 : (Tile : ℚ) ≠ 0 := by
    have : Tile ≠ 0 := by omega
    exact_mod_cast this
  have h2 : (w : ℚ) + (Tile : ℚ) ≠ 0 := by exact_mod_cast hw
  intro h
  apply h2
  field_simp at h
  linarith

/-- The offset of one axis in closed form: dividing by the overlap scale and
multiplying by the overlap scale over the tile count leaves
`(2 * i + 1 - n) / n`. -/
theorem offset_closed_form (i n s : ℚ) (hs : s ≠ 0) :
    (i + 1 / 2 - 1 / 2 * n) * 2 / s * (s / n) = (2 * i + 1 - n) / n := by
  by_cases hn : n = 0
  · subst hn
    simp
  · field_simp
    ring

/-- The closed form `(2 * i + 1 - n) / n` lies in [-1, 1] for `0 ≤ i < n`. -/
theorem closed_form_bounds (i n : Int) (hi : 0 ≤ i) (hin : i < n) :
    (-1 : ℚ) ≤ (2 * (i : ℚ) + 1 - (n : ℚ)) / (n : ℚ) ∧
      (2 * (i : ℚ) + 1 - (n : ℚ)) / (n : ℚ) ≤ 1 := by
  have hn : (0 : ℚ) < (n : ℚ) := by
    have : (0 : Int) < n := by omega
    exact_mod_cast this
  have hi2 : (0 : ℚ) ≤ (i : ℚ) := by exact_mod_cast hi
  have hin2 : (i : ℚ) + 1 ≤ (n : ℚ) := by
    have : i + 1 ≤ n := by omega
    exact_mod_cast this
  constructor
  · rw [le_div_iff₀ hn]
    linarith
  · rw [div_le_iff₀ hn]
    linarith

/-- Where no overlap scale is zero, that is where the `int32` product
`2 * OverlappedPad` is not the negative of the tile size, the offsets returned
by `CalculatePrinciplePointOffsetForTiling` for tile indexes `0 ≤ i < n` and a
positive tile size are `(2 * i_x + 1 - n_x) / n_x` and
`-(2 * i_y + 1 - n_y) / n_y`, and both lie in [-1, 1]. -/
theorem principal_point_offset_of_nonzero_scale (S : FMoviePipelineRenderPassMetrics)
    (hix : 0 ≤ S.TileIndexes.X) (hix2 : S.TileIndexes.X < S.TileCounts.X)
    (hiy : 0 ≤ S.TileIndexes.Y) (hiy2 : S.TileIndexes.Y < S.TileCounts.Y)
    (htx : 0 < S.TileSize.X) (hty : 0 < S.TileSize.Y)
    (hsx : Wrap32 (2 * S.OverlappedPad.X) + S.TileSize.X ≠ 0)
    (hsy : Wrap32 (2 * S.OverlappedPad.Y) + S.TileSize.Y ≠ 0) :
    (CalculatePrinciplePointOffsetForTiling S).X =
        (2 * (S.TileIndexes.X : ℚ) + 1 - (S.TileCounts.X : ℚ)) / (S.TileCounts.X : ℚ) ∧
      (CalculatePrinciplePointOffsetForTiling S).Y =
        -((2 * (S.TileIndexes.Y : ℚ) + 1 - (S.TileCounts.Y : ℚ)) / (S.TileCounts.Y : ℚ)) ∧
      -1 ≤ (CalculatePrinciplePointOffsetForTiling S).X ∧
      (CalculatePrinciplePointOffsetForTiling S).X ≤ 1 ∧
      -1 ≤ (CalculatePrinciplePointOffsetForTiling S).Y ∧
      (CalculatePrinciplePointOffsetForTiling S).Y ≤ 1 := by
  have hx : (CalculatePrinciplePointOffsetForTiling S).X =
      (2 * (S.TileIndexes.X : ℚ) + 1 - (S.TileCounts.X : ℚ)) / (S.TileCounts.X : ℚ) :=
    offset_closed_form _ _ _ (overlapScale_ne_zero _ _ htx hsx)
  have hy : (CalculatePrinciplePointOffsetForTiling S).Y =
      -((2 * (S.TileIndexes.Y : ℚ) + 1 - (S.TileCounts.Y : ℚ)) / (S.TileCounts.Y : ℚ)) :=
    congrArg Neg.neg (offset_closed_form _ _ _ (overlapScale_ne_zero _ _ hty hsy))
  obtain ⟨bx1, bx2⟩ := closed_form_bounds _ _ hix hix2
  obtain ⟨by1, by2⟩ := closed_form_bounds _ _ hiy hiy2
  refine ⟨hx, hy, ?_, ?_, ?_, ?_⟩
  · rw [hx]; exact bx1
  · rw [hx]; exact bx2
  · rw [hy]; linarith
  · rw [hy]; linarith

/-- The same for a pad whose double fits `int32`: with
`0 ≤ OverlappedPad ≤ 1073741823` on both axes no overlap scale is zero. -/
theorem principal_point_offset_without_overflow (S : FMoviePipelineRenderPassMetrics)
    (hix : 0 ≤ S.TileIndexes.X) (hix2 : S.TileIndexes.X < S.TileCounts.X)
    (hiy : 0 ≤ S.TileIndexes.Y) (hiy2 : S.TileIndexes.Y < S.TileCounts.Y)
    (htx : 0 < S.TileSize.X) (hty : 0 < S.TileSize.Y)
    (hpx : 0 ≤ S.OverlappedPad.X) (hpx2 : S.OverlappedPad.X ≤ 1073741823)
    (hpy : 0 ≤ S.OverlappedPad.Y) (hpy2 : S.OverlappedPad.Y ≤ 1073741823) :
    (CalculatePrinciplePointOffsetForTiling S).X =
        (2 * (S.TileIndexes.X : ℚ) + 1 - (S.TileCounts.X : ℚ)) / (S.TileCounts.X : ℚ) ∧
      (CalculatePrinciplePointOffsetForTiling S).Y =
        -((2 * (S.TileIndexes.Y : ℚ) + 1 - (S.TileCounts.Y : ℚ)) / (S.TileCounts.Y : ℚ)) ∧
      -1 ≤ (CalculatePrinciplePointOffsetForTiling S).X ∧
      (CalculatePrinciplePointOffsetForTiling S).X ≤ 1 ∧
      -1 ≤ (CalculatePrinciplePointOffsetForTiling S).Y ∧
      (CalculatePrinciplePointOffsetForTiling S).Y ≤ 1 := by
  have hwx : Wrap32 (2 * S.OverlappedPad.X) = 2 * S.OverlappedPad.X :=
    wrap32_of_inRange _ (by omega) (by omega)
  have hwy : Wrap32 (2 * S.OverlappedPad.Y) = 2 * S.OverlappedPad.Y :=
    wrap32_of_inRange _ (by omega) (by omega)
  exact principal_point_offset_of_nonzero_scale S hix hix2 hiy hiy2 htx hty
    (by rw [hwx]; omega) (by rw [hwy]; omega)

/-- C24 at a failing input: tile (0, 0) of a 2x2 tiling of 100x100 tiles with
an overlap pad of 2147483598 pixels on both axes.  The `int32` product
`2 * OverlappedPad` of lines 484-485 wraps to -100, so both overlap scales are
1 + (-100) / 100 = 0: lines 487-488 divide the tile offsets, -1 and -1, by
zero, and the scales returned in `Z` and `W` are 0.  The offsets the claim
gives for this tile are -1/2 and 1/2. -/
theorem principal_point_offset_divides_by_zero :
    Wrap32 (2 * (TiledState { X := 0, Y := 0 } { X := 2, Y := 2 } { X := 100, Y := 100 }
        { X := 2147483598, Y := 2147483598 }).OverlappedPad.X) = -100 ∧
      TileMiddleOffsetX (TiledState { X := 0, Y := 0 } { X := 2, Y := 2 } { X := 100, Y := 100 }
        { X := 2147483598, Y := 2147483598 }) = -1 ∧
      TileMiddleOffsetY (TiledState { X := 0, Y := 0 } { X := 2, Y := 2 } { X := 100, Y := 100 }
        { X := 2147483598, Y := 2147483598 }) = -1 ∧
      OverlapScaleX (TiledState { X := 0, Y := 0 } { X := 2, Y := 2 } { X := 100, Y := 100 }
        { X := 2147483598, Y := 2147483598 }) = 0 ∧
      OverlapScaleY (TiledState { X := 0, Y := 0 } { X := 2, Y := 2 } { X := 100, Y := 100 }
        { X := 2147483598, Y := 2147483598 }) = 0 ∧
      (CalculatePrinciplePointOffsetForTiling
        (TiledState { X := 0, Y := 0 } { X := 2, Y := 2 } { X := 100, Y := 100 }
          { X := 2147483598, Y := 2147483598 })).Z = 0 ∧
      (CalculatePrinciplePointOffsetForTiling
        (TiledState { X := 0, Y := 0 } { X := 2, Y := 2 } { X := 100, Y := 100 }
          { X := 2147483598, Y := 2147483598 })).W = 0 := by
  refine ⟨?_, ?_, ?_, ?_, ?_, ?_, ?_⟩ <;>
    norm_num [CalculatePrinciplePointOffsetForTiling, OverlapScaleX, OverlapScaleY,
      TileMiddleOffsetX, TileMiddleOffsetY, TiledState, Wrap32]

/-- C25 at the failing input: tile (0, 0) of a 2x2 tiling of 100x50 tiles with
an overlap pad of 10 pixels on both axes, applied to the zero matrix.  The pad
ratios are 6/5 on X and 7/5 on Y and `OffsetY` is -1.  Line 523 divides
`OffsetY` by `PadRatioX`: `M[2][1]` receives -5/6, where `OffsetY / PadRatioY`
is -5/7.  `M[2][0]` receives `OffsetX / PadRatioX`, 5/6. -/
theorem vertical_offset_uses_horizontal_pad_ratio :
    PadRatioX (TiledState { X := 0, Y := 0 } { X := 2, Y := 2 } { X := 100, Y := 50 }
        { X := 10, Y := 10 }) = 6 / 5 ∧
      PadRatioY (TiledState { X := 0, Y := 0 } { X := 2, Y := 2 } { X := 100, Y := 50 }
        { X := 10, Y := 10 }) = 7 / 5 ∧
      ProjectionOffsetY (TiledState { X := 0, Y := 0 } { X := 2, Y := 2 } { X := 100, Y := 50 }
        { X := 10, Y := 10 }) = -1 ∧
      (ModifyProjectionMatrixForTiling
        (TiledState { X := 0, Y := 0 } { X := 2, Y := 2 } { X := 100, Y := 50 }
          { X := 10, Y := 10 }) ZeroMatrix).1.M 2 1 = -5 / 6 ∧
      (ModifyProjectionMatrixForTiling
        (TiledState { X := 0, Y := 0 } { X := 2, Y := 2 } { X := 100, Y := 50 }
          { X := 10, Y := 10 }) ZeroMatrix).1.M 2 0 = 5 / 6 := by
  have h21 : ¬ ((2 : Fin 4) = 1) := by decide
  have h20 : ¬ ((2 : Fin 4) = 0) := by decide
  refine ⟨?_, ?_, ?_, ?_, ?_⟩ <;>
    norm_num [ModifyProjectionMatrixForTiling, PadRatioX, PadRatioY, ProjectionOffsetX,
      ProjectionOffsetY, TiledState, ZeroMatrix, Wrap32, h21, h20]

/-- C26, as stated, fails: with 100x100 tiles, a 2x2 tiling and an overlap pad
of 8 pixels on X and none on Y, `ModifyProjectionMatrixForTiling` takes the pad
ratio 1 (its test wants both pads positive) and divides by `ScaleX` = 1/2,
while `CalculatePrinciplePointOffsetForTiling` returns the scale
`Z` = (1 + 16/100) / 2 = 29/50. -/
theorem scales_differ_with_pad_on_one_axis :
    ProjectionScaleX (TiledState { X := 0, Y := 0 } { X := 2, Y := 2 } { X := 100, Y := 100 }
        { X := 8, Y := 0 }) = 1 / 2 ∧
      (ModifyProjectionMatrixForTiling
        (TiledState { X := 0, Y := 0 } { X := 2, Y := 2 } { X := 100, Y := 100 }
          { X := 8, Y := 0 }) ZeroMatrix).2 = 1 / 2 ∧
      (CalculatePrinciplePointOffsetForTiling
        (TiledState { X := 0, Y := 0 } { X := 2, Y := 2 } { X := 100, Y := 100 }
          { X := 8, Y := 0 })).Z = 29 / 50 := by
  refine ⟨?_, ?_, ?_⟩ <;>
    norm_num [ModifyProjectionMatrixForTiling, ProjectionScaleX, PadRatioX,
      CalculatePrinciplePointOffsetForTiling, OverlapScaleX, TiledState, Wrap32]

/-- The pad ratio written as the overlap scale: where the `int32` sum
`w + tile` does not wrap, `(w + tile) / tile` is `1 + w / tile` for a tile
size that is not zero. -/
theorem padRatio_eq_overlapScale (w Tile : Int) (hTile : Tile ≠ 0)
    (hsum : Wrap32 (w + Tile) = w + Tile) :
    ((Wrap32 (w + Tile) : Int) : ℚ) / (Tile : ℚ) = 1 + (w : ℚ) / (Tile : ℚ) := by
  have h : (Tile : ℚ) ≠ 0 := by exact_mod_cast hTile
  rw [hsum]
  push_cast
  field_simp
  ring

/-- C26, amended: for every sample state with a positive tile size whose
overlap pad is zero on both axes, or positive on both axes with the sum
`OverlappedPad * 2 + TileSize` of each axis, as formed in `int32`, within the
`int32` range, the factors `ScaleX` and `ScaleY` by which
`ModifyProjectionMatrixForTiling` divides `M[0][0]` and `M[1][1]` (`ScaleX`
also being the returned DoF sensor scale) equal, in exact arithmetic, the
scale components `Z` and `W` returned by
`CalculatePrinciplePointOffsetForTiling` for the same state. -/
theorem tiling_scales_agree (S : FMoviePipelineRenderPassMetrics) (M : FMatrix)
    (htx : 0 < S.TileSize.X) (hty : 0 < S.TileSize.Y)
    (hpad : (0 < S.OverlappedPad.X ∧ 0 < S.OverlappedPad.Y ∧
        Wrap32 (S.OverlappedPad.X * 2) + S.TileSize.X ≤ 2147483647 ∧
        Wrap32 (S.OverlappedPad.Y * 2) + S.TileSize.Y ≤ 2147483647) ∨
      (S.OverlappedPad.X = 0 ∧ S.OverlappedPad.Y = 0)) :
    ProjectionScaleX S = (CalculatePrinciplePointOffsetForTiling S).Z ∧
      ProjectionScaleY S = (CalculatePrinciplePointOffsetForTiling S).W ∧
      (ModifyProjectionMatrixForTiling S M).2 = (CalculatePrinciplePointOffsetForTiling S).Z ∧
      (ModifyProjectionMatrixForTiling S M).1.M 0 0 =
        M.M 0 0 / (CalculatePrinciplePointOffsetForTiling S).Z ∧
      (ModifyProjectionMatrixForTiling S M).1.M 1 1 =
        M.M 1 1 / (CalculatePrinciplePointOffsetForTiling S).W := by
  have hx : ProjectionScaleX S = (CalculatePrinciplePointOffsetForTiling S).Z := by
    unfold ProjectionScaleX PadRatioX CalculatePrinciplePointOffsetForTiling OverlapScaleX
    rcases hpad with ⟨h1, h2, h3, _⟩ | ⟨h1, h2⟩
    · have hr := wrap32_range (S.OverlappedPad.X * 2)
      simp only [gt_iff_lt, h1, h2, and_self, if_true]
      rw [padRatio_eq_overlapScale _ _ (by omega)
        (wrap32_of_inRange _ (by omega) (by omega)), mul_comm S.OverlappedPad.X 2]
    · simp [h1, h2, Wrap32]
  have hy : ProjectionScaleY S = (CalculatePrinciplePointOffsetForTiling S).W := by
    unfold ProjectionScaleY PadRatioY CalculatePrinciplePointOffsetForTiling OverlapScaleY
    rcases hpad with ⟨h1, h2, _, h4⟩ | ⟨h1, h2⟩
    · have hr := wrap32_range (S.OverlappedPad.Y * 2)
      simp only [gt_iff_lt, h1, h2, and_self, if_true]
      rw [padRatio_eq_overlapScale _ _ (by omega)
        (wrap32_of_inRange _ (by omega) (by omega)), mul_comm S.OverlappedPad.Y 2]
    · simp [h1, h2, Wrap32]
  refine ⟨hx, hy, hx, ?_, ?_⟩
  · rw [← hx]
    simp [ModifyProjectionMatrixForTiling]
  · rw [← hy]
    simp [ModifyProjectionMatrixForTiling]

/-- C26, amended, at a concrete input: 100x100 tiles, a 2x2 tiling and an
overlap pad of 8 pixels on both axes. -/
theorem tiling_scales_agree_witness :
    ProjectionScaleX (TiledState { X := 0, Y := 0 } { X := 2, Y := 2 } { X := 100, Y := 100 }
        { X := 8, Y := 8 }) =
      (CalculatePrinciplePointOffsetForTiling
        (TiledState { X := 0, Y := 0 } { X := 2, Y := 2 } { X := 100, Y := 100 }
          { X := 8, Y := 8 })).Z :=
  (tiling_scales_agree
    (TiledState { X := 0, Y := 0 } { X := 2, Y := 2 } { X := 100, Y := 100 } { X := 8, Y := 8 })
    ZeroMatrix (by decide) (by decide)
    (Or.inl ⟨by decide, by decide, by decide, by decide⟩)).1

/-! ## Path tracer sampling -/

/-- C29: with path tracing enabled, `bDiscardResult` on return is its input
value OR `SpatialSampleIndex != SpatialSampleCount - 1` (in `int32`
arithmetic, which is the plain difference for every count above the smallest
`int32`): it is true for every spatial sample but the last and a set flag is
never cleared.  With path tracing disabled the sample state, `bDiscardResult`
included, is left as it was. -/
theorem path_tracer_discards_all_but_last (S : FMoviePipelineRenderPassMetrics)
    (View : FPathTracerView) :
    (PathTracerSampling true S View).1.bDiscardResult =
        (S.bDiscardResult || !(S.SpatialSampleIndex == Wrap32 (S.SpatialSampleCount - 1))) ∧
      (-2147483648 < S.SpatialSampleCount → S.SpatialSampleCount ≤ 2147483647 →
        (PathTracerSampling true S View).1.bDiscardResult =
          (S.bDiscardResult || !(S.SpatialSampleIndex == S.SpatialSampleCount - 1))) ∧
      (S.SpatialSampleIndex ≠ Wrap32 (S.SpatialSampleCount - 1) →
        (PathTracerSampling true S View).1.bDiscardResult = true) ∧
      (S.bDiscardResult = true → (PathTracerSampling true S View).1.bDiscardResult = true) ∧
      (S.bDiscardResult = false → S.SpatialSampleIndex = Wrap32 (S.SpatialSampleCount - 1) →
        (PathTracerSampling true S View).1.bDiscardResult = false) ∧
      (PathTracerSampling false S View).1 = S := by
  refine ⟨rfl, ?_, ?_, ?_, ?_, rfl⟩
  · intro hlo hhi
    simp only [PathTracerSampling, if_true]
    rw [wrap32_of_inRange _ (by omega) (by omega)]
  · intro hne
    simp [PathTracerSampling, hne]
  · intro hset
    simp [PathTracerSampling, hset]
  · intro hclear hlast
    simp [PathTracerSampling, hclear, hlast]

/-- C29 at a concrete input: the first of four spatial samples with the flag
clear: the result is discarded. -/
theorem path_tracer_discards_all_but_last_witness :
    (PathTracerSampling true
      { TiledState { X := 0, Y := 0 } { X := 1, Y := 1 } { X := 100, Y := 100 }
          { X := 0, Y := 0 } with SpatialSampleIndex := 0, SpatialSampleCount := 4 }
      { bOverride_PathTracingSamplesPerPixel := false, PathTracingSamplesPerPixel := 1,
        bForcePathTracerReset := false }).1.bDiscardResult = true :=
  (path_tracer_discards_all_but_last _ _).2.2.1 (by decide)

/-! ## Size of the lazily allocated accumulator -/

/-- C30, as stated, fails: a well-formed 2x2 sample of the first of two tiles,
whose payload reports a 4x2 accumulator and 2x2 overlap-padded extents,
submitted to an unallocated accumulator: the buffer is allocated with
`InitMemory` of size 4x2 and the accumulator has plane size 4x2 after the run,
not 2x2. -/
theorem allocated_plane_differs_from_padded_size :
    FirstOfTwoTilesPayload.GetOverlapPaddedSize = { X := 2, Y := 2 } ∧
      (AccumulateSample_TaskThread SampleEngine AlphaArgs EmptyAccumulator
        (FourPixelSample .Float32 FirstOfTwoTilesPayload)).Events.filter FEvent.IsAllocation =
        [FEvent.InitMemory { X := 4, Y := 2 } 4, FEvent.ZeroPlanes] ∧
      (AccumulateSample_TaskThread SampleEngine AlphaArgs EmptyAccumulator
        (FourPixelSample .Float32 FirstOfTwoTilesPayload)).Accumulator.PlaneSize =
        { X := 4, Y := 2 } := by
  have hres := resize_correct_size SampleEngine FirstOfTwoTilesPayload
    (FourPixelSample .Float32 FirstOfTwoTilesPayload) (by decide)
  have hrun := run_accumulates SampleEngine AlphaArgs EmptyAccumulator
    (FourPixelSample .Float32 FirstOfTwoTilesPayload) _ FirstOfTwoTilesPayload
    (by decide) rfl (by decide) hres (by decide)
  have hlast : (FirstOfTwoTilesPayload.IsLastTile &&
    FirstOfTwoTilesPayload.IsLastTemporalSample) = false := rfl
  rw [hlast, if_neg Bool.false_ne_true] at hrun
  refine ⟨rfl, ?_, ?_⟩
  · rw [hrun]
    rfl
  · rw [hrun]
    exact (accumulatePixelData_planeSize _ _ _).trans rfl

/-- C30, amended: when the accumulation buffer is lazily allocated by a
well-formed sample off the fast path (`NumChannels` is 0 on entry), its plane
size equals the payload's accumulator size, `GetAccumulatorSize()`: this is the
size passed to `InitMemory`, the plane size of the state the sample is
accumulated into, and the plane size of the accumulator after the run.  It
equals `GetOverlapPaddedSize()` exactly when the payload reports the same
value for both. -/
theorem allocated_plane_is_accumulator_size (E : FEngine)
    (InParams : FImageSampleAccumulationArgs) (a : FImageOverlappedAccumulator)
    (s : FImagePixelData) (p : FImagePixelDataPayload)
    (hwf : s.IsDataWellFormed = true) (hp : s.Payload = some p)
    (hslow : TakesFastPath p = false) (h0 : a.NumChannels = 0) :
    (AllocateIfNeeded InParams p a).2 =
        [FEvent.InitMemory p.GetAccumulatorSize (if InParams.bAccumulateAlpha then 4 else 3),
          FEvent.ZeroPlanes] ∧
      (AllocateIfNeeded InParams p a).1.PlaneSize = p.GetAccumulatorSize ∧
      (∀ d, ResizeIfNeeded E p s = some d → p.GetOverlapPaddedSizeIsValid d.Size = true →
        (AccumulateSample_TaskThread E InParams a s).Accumulator.PlaneSize =
          p.GetAccumulatorSize) ∧
      ((AllocateIfNeeded InParams p a).1.PlaneSize = p.GetOverlapPaddedSize ↔
        p.GetAccumulatorSize = p.GetOverlapPaddedSize) := by
  have hsize : (AllocateIfNeeded InParams p a).1.PlaneSize = p.GetAccumulatorSize := by
    rw [allocate_planeSize, if_pos h0]
  refine ⟨?_, hsize, ?_, ?_⟩
  · rw [allocate_events, if_pos h0]
  · intro d hres hok
    rw [run_accumulates E InParams a s d p hwf hp hslow hres hok]
    have hacc : (AccumulatedState E InParams p a d).PlaneSize = p.GetAccumulatorSize :=
      (accumulatePixelData_planeSize E _ _).trans hsize
    cases hcond : (p.IsLastTile && p.IsLastTemporalSample)
    · rw [if_neg Bool.false_ne_true]
      exact hacc
    · rw [if_pos rfl]
      exact hacc
  · rw [hsize]

/-- C30, amended, at a concrete input: the 2x2 sample of the first of two
tiles, submitted to an unallocated accumulator, leaves a 4x2 accumulator. -/
theorem allocated_plane_is_accumulator_size_witness :
    (AllocateIfNeeded AlphaArgs FirstOfTwoTilesPayload EmptyAccumulator).1.PlaneSize =
      { X := 4, Y := 2 } :=
  (allocated_plane_is_accumulator_size SampleEngine AlphaArgs EmptyAccumulator
    (FourPixelSample .Float32 FirstOfTwoTilesPayload) FirstOfTwoTilesPayload
    (by decide) rfl (by decide) rfl).2.1

/-! ## Incremental cooking: the tile ranges -/

/-- C22 at a failing input: 2 tiles per axis (4 tiles), `TileStartIndex` 1 and
`TilesPerIncrement` 2147483647, nothing failing.  The sum
`TileIndexStart + TilesPerIncrement` leaves the `int32` range before
`FMath::Min` bounds it by the tile count, and `Cook` succeeds after handing
`OnPreCookTiles` the ranges [1, 2147483647], [-2147483648, -2] and [-1, 3]:
the first range ends far beyond the last tile, 3, and the other two begin
below the first tile to cook, 1. -/
theorem cook_ranges_leave_the_tiles_on_overflow :
    Cook { TilesPerAxis := 2, TilesPerIncrement := 2147483647, TileStartIndex := 1 }
        AllSucceed 4 =
      some { bSuccess := true,
             PreCookTiles := [(1, 2147483647), (-2147483648, -2), (-1, 3)] } ∧
      Clamp 1 0 (Wrap32 (2 * 2)) = 1 ∧ Wrap32 (2 * 2) - 1 = 3 := by
  decide

/-- The tiles of a range and of the ranges after it, put together. -/
theorem range_map_append (s : Int) (a b : Nat) :
    (List.range a).map (fun (i : Nat) => s + (i : Int)) ++
        (List.range b).map (fun (i : Nat) => (s + (a : Int)) + (i : Int)) =
      (List.range (a + b)).map (fun (i : Nat) => s + (i : Int)) := by
  rw [List.range_add, List.map_append, List.map_map]
  congr 1
  apply List.map_congr_left
  intro i _
  simp only [Function.comp, Nat.cast_add]
  omega

/-- The number of increments still to come. -/
theorem increments_step (d inc : Nat) (hinc : 0 < inc) (hd : 0 < d) :
    (d - min inc d + inc - 1) / inc + 1 = (d + inc - 1) / inc := by
  by_cases h : inc ≤ d
  · rw [Nat.min_eq_left h]
    have h1 : d + inc - 1 = (d - inc + inc - 1) + inc := by omega
    rw [h1, Nat.add_div_right _ hinc]
  · have h2 : min inc d = d := Nat.min_eq_right (by omega)
    rw [h2]
    have h3 : (d - d + inc - 1) / inc = 0 := Nat.div_eq_of_lt (by omega)
    have h4 : (d + inc - 1) / inc = 1 :=
      Nat.div_eq_of_lt_le (by omega) (by omega)
    rw [h3, h4]

/-- Away from the ends of the `int32` range, and with nothing failing, the tile
loop of `Cook` succeeds within `N - start + 1` passes, and the ranges it hands
to `OnPreCookTiles` hold, put one after the other, the tiles from `start` to
`N - 1` in order, each once; every range holds at least one tile and at most
`TilesPerIncrement`, and there are `ceil((N - start) / TilesPerIncrement)`
ranges. -/
theorem cookTiles_covers (C : UProceduralIncrementalCooker) (Env : FCookEnvironment)
    (N : Int) (hinc : 1 ≤ C.TilesPerIncrement) (hN : N + C.TilesPerIncrement ≤ 2147483648)
    (hsucc : ∀ k, Env.Increment k = .Succeeds) :
    ∀ (Fuel k : Nat) (Start : Int) (Calls : List (Int × Int)),
      0 ≤ Start → Start ≤ N → (N - Start).toNat < Fuel →
      ∃ Ranges : List (Int × Int),
        CookTiles C Env N Fuel k Start Calls =
          some { bSuccess := true, PreCookTiles := Calls ++ Ranges } ∧
        Ranges.flatMap TilesOf =
          (List.range (N - Start).toNat).map (fun (i : Nat) => Start + (i : Int)) ∧
        (∀ R ∈ Ranges, R.1 ≤ R.2 ∧ R.2 - R.1 + 1 ≤ C.TilesPerIncrement) ∧
        Ranges.length =
          ((N - Start).toNat + C.TilesPerIncrement.toNat - 1) / C.TilesPerIncrement.toNat := by
  intro Fuel
  induction Fuel with
  | zero => intro k Start Calls _ _ h; omega
  | succ Fuel ih =>
    intro k Start Calls h0 hle hfuel
    rw [CookTiles]
    by_cases hlt : Start < N
    · have hw1 : Wrap32 (Start + C.TilesPerIncrement) = Start + C.TilesPerIncrement :=
        wrap32_of_inRange _ (by omega) (by omega)
      have hw2 : Wrap32 (min (Start + C.TilesPerIncrement) N - 1) =
          min (Start + C.TilesPerIncrement) N - 1 :=
        wrap32_of_inRange _ (by omega) (by omega)
      have hw3 : Wrap32 (min (Start + C.TilesPerIncrement) N - 1 + 1) =
          min (Start + C.TilesPerIncrement) N :=
        by rw [wrap32_of_inRange _ (by omega) (by omega)]; omega
      rw [if_pos hlt]
      simp only [hw1, hw2, hw3, hsucc]
      generalize hS : min (Start + C.TilesPerIncrement) N = Next at *
      obtain ⟨Ranges, hrun, htiles, hsize, hcount⟩ :=
        ih (k + 1) Next (Calls ++ [(Start, Next - 1)]) (by omega) (by omega) (by omega)
      refine ⟨(Start, Next - 1) :: Ranges, ?_, ?_, ?_, ?_⟩
      · rw [hrun]
        simp
      · obtain ⟨a, ha⟩ : ∃ a : Nat, (Next - 1 - Start + 1).toNat = a := ⟨_, rfl⟩
        have hlen : (N - Start).toNat = a + (N - Next).toNat := by omega
        have hnext : Next = Start + (a : Int) := by omega
        rw [List.flatMap_cons, htiles, hlen, ← range_map_append, ← hnext]
        unfold TilesOf
        simp only [ha]
      · intro R hR
        rcases List.mem_cons.mp hR with hR | hR
        · rw [hR]
          simp only []
          omega
        · exact hsize R hR
      · rw [List.length_cons, hcount]
        have hstep := increments_step (N - Start).toNat C.TilesPerIncrement.toNat
          (by omega) (by omega)
        have hd : (N - Next).toNat =
            (N - Start).toNat - min C.TilesPerIncrement.toNat (N - Start).toNat := by omega
        rw [hd]
        exact hstep
    · rw [if_neg hlt]
      have hz : (N - Start).toNat = 0 := by omega
      refine ⟨[], by simp, by simp [hz], by simp, ?_⟩
      rw [hz, List.length_nil]
      exact (Nat.div_eq_of_lt (by omega)).symm

/-- The same for `Cook` itself: with a tile count `N` that is not negative and
`N + TilesPerIncrement` within the `int32` range, and with nothing failing,
`Cook` succeeds and the ranges handed to `OnPreCookTiles` hold the tiles from
`clamp(TileStartIndex, 0, N)` to `N - 1`, each once and in order. -/
theorem cook_covers_without_overflow (C : UProceduralIncrementalCooker)
    (Env : FCookEnvironment) (hinc : 1 ≤ C.TilesPerIncrement)
    (h0 : 0 ≤ Wrap32 (C.TilesPerAxis * C.TilesPerAxis))
    (hN : Wrap32 (C.TilesPerAxis * C.TilesPerAxis) + C.TilesPerIncrement ≤ 2147483648)
    (hworld : Env.bWorldAndConfig = true) (hpre : Env.bPreCookAndSession = true)
    (hsucc : ∀ k, Env.Increment k = .Succeeds) :
    ∃ Ranges : List (Int × Int),
      Cook C Env ((Wrap32 (C.TilesPerAxis * C.TilesPerAxis)).toNat + 1) =
        some { bSuccess := true, PreCookTiles := Ranges } ∧
      Ranges.flatMap TilesOf =
        (List.range (Wrap32 (C.TilesPerAxis * C.TilesPerAxis) -
            Clamp C.TileStartIndex 0 (Wrap32 (C.TilesPerAxis * C.TilesPerAxis))).toNat).map
          (fun (i : Nat) =>
            Clamp C.TileStartIndex 0 (Wrap32 (C.TilesPerAxis * C.TilesPerAxis)) + (i : Int)) ∧
      (∀ R ∈ Ranges, R.1 ≤ R.2 ∧ R.2 - R.1 + 1 ≤ C.TilesPerIncrement) ∧
      Ranges.length =
        ((Wrap32 (C.TilesPerAxis * C.TilesPerAxis) -
            Clamp C.TileStartIndex 0 (Wrap32 (C.TilesPerAxis * C.TilesPerAxis))).toNat +
          C.TilesPerIncrement.toNat - 1) / C.TilesPerIncrement.toNat := by
  have hclamp : 0 ≤ Clamp C.TileStartIndex 0 (Wrap32 (C.TilesPerAxis * C.TilesPerAxis)) ∧
      Clamp C.TileStartIndex 0 (Wrap32 (C.TilesPerAxis * C.TilesPerAxis)) ≤
        Wrap32 (C.TilesPerAxis * C.TilesPerAxis) := by
    unfold Clamp
    split_ifs <;> omega
  obtain ⟨Ranges, hrun, hrest⟩ := cookTiles_covers C Env _ hinc hN hsucc
    ((Wrap32 (C.TilesPerAxis * C.TilesPerAxis)).toNat + 1) 0
    (Clamp C.TileStartIndex 0 (Wrap32 (C.TilesPerAxis * C.TilesPerAxis))) []
    hclamp.1 hclamp.2 (by omega)
  refine ⟨Ranges, ?_, hrest⟩
  have hnot : ¬ (C.TilesPerIncrement < 1) := by omega
  unfold Cook
  rw [hworld, hpre]
  simp only [Bool.not_true, Bool.false_eq_true, if_false, hnot]
  rw [hrun]
  simp

/-! ## Parameter sheet: labelled display names -/

/-- C23 at a failing input: three float parameters with the display names
"A", "A" and "A 1".  The duplicated name "A" is labelled "A 1" and "A 2", and
the first label is the display name the third parameter already has: the
resulting list carries "A 1" twice. -/
theorem labelled_display_name_collides :
    DisplayNames (UpdateParametersSheet
        [FloatParameter "a" "A", FloatParameter "b" "A", FloatParameter "c" "A 1"]) =
      [TEXT "A 1", TEXT "A 2", TEXT "A 1"] ∧
      ¬ (DisplayNames (UpdateParametersSheet
        [FloatParameter "a" "A", FloatParameter "b" "A", FloatParameter "c" "A 1"])).Nodup := by
  decide


/-! ## Strings: basic facts -/

theorem mangledElemPrefix_eq : MangledElemPrefix = [122] := by decide
theorem mdlSuffix_eq : MDLSuffix = [46, 109, 100, 108] := by decide
theorem fileSeparator_eq : FileSeparator = [47] := by decide
theorem mdlSeparator_eq : MDLSeparator = [58, 58] := by decide
theorem mangledPathPrefixPkg_eq : MangledPathPrefixPkg = [77, 65, 78, 71, 76, 69, 68] := by
  decide
theorem text_dot_eq : TEXT "." = [46] := by decide
theorem text_dotdot_eq : TEXT ".." = [46, 46] := by decide
theorem text_underscore_eq : TEXT "_" = [95] := by decide

/-- Both separators are non-empty and made of '/' or ':'. -/
theorem pathSeparator_cases (b : Bool) :
    PathSeparator b = [47] ∨ PathSeparator b = [58, 58] := by
  cases b
  · left; exact fileSeparator_eq
  · right; exact mdlSeparator_eq

/-- A code unit whose lower case is not a lower-case letter is itself. -/
theorem toLower_eq_small (c d : Nat) (h : ToLower c = d) (hd : d < 97) : c = d := by
  unfold ToLower at h
  split_ifs at h <;> omega

/-- Lower case leaves every code unit outside A-Z as it is. -/
theorem toLower_of_not_upper (c : Nat) (h : ¬ (65 ≤ c ∧ c ≤ 90)) : ToLower c = c := by
  unfold ToLower
  rw [if_neg h]

theorem equals_self (A : FString) : FString.Equals A A = true := by
  simp [FString.Equals]

/-- Equality with "." ignores nothing: it is equality of strings. -/
theorem equals_dot (A : FString) : FString.Equals A [46] = true ↔ A = [46] := by
  constructor
  · intro h
    simp only [FString.Equals, decide_eq_true_eq] at h
    match A, h with
    | [c], h =>
      simp only [List.map_cons, List.map_nil, List.cons.injEq, and_true] at h
      have hc : ToLower 46 = 46 := by decide
      rw [hc] at h
      rw [toLower_eq_small c 46 h (by omega)]
    | [], h => simp at h
    | _ :: _ :: _, h => simp at h
  · intro h
    rw [h]
    exact equals_self _

/-- Equality with ".." is equality of strings. -/
theorem equals_dotdot (A : FString) : FString.Equals A [46, 46] = true ↔ A = [46, 46] := by
  constructor
  · intro h
    simp only [FString.Equals, decide_eq_true_eq] at h
    match A, h with
    | [c, d], h =>
      simp only [List.map_cons, List.map_nil, List.cons.injEq, and_true] at h
      have hc : ToLower 46 = 46 := by decide
      rw [hc] at h
      rw [toLower_eq_small c 46 h.1 (by omega), toLower_eq_small d 46 h.2 (by omega)]
    | [], h => simp at h
    | [_], h => simp at h
    | _ :: _ :: _ :: _, h => simp at h
  · intro h
    rw [h]
    exact equals_self _

/-- The relative elements are exactly "." and "..". -/
theorem isRelativeModule_iff (M : FString) :
    IsRelativeModule M = true ↔ M = [46] ∨ M = [46, 46] := by
  unfold IsRelativeModule
  rw [Bool.or_eq_true, text_dot_eq, text_dotdot_eq, equals_dot, equals_dotdot]


/-! ## Strings: cutting at a delimiter -/

theorem parseFrom_nil (Delim Cur : FString) (k : Nat) :
    FString.ParseIntoArrayFrom Delim k Cur [] = if Cur.isEmpty then [] else [Cur] := by
  cases k <;> rfl

theorem parseFrom_cons_succ (Delim Cur Rest : FString) (k c : Nat) :
    FString.ParseIntoArrayFrom Delim (k + 1) Cur (c :: Rest) =
      FString.ParseIntoArrayFrom Delim k Cur Rest := rfl

theorem parseFrom_cons_zero (Delim Cur Rest : FString) (c : Nat) :
    FString.ParseIntoArrayFrom Delim 0 Cur (c :: Rest) =
      if Delim.isPrefixOf (c :: Rest) then
        (if Cur.isEmpty then [] else [Cur]) ++
          FString.ParseIntoArrayFrom Delim (Delim.length - 1) [] Rest
      else FString.ParseIntoArrayFrom Delim 0 (Cur ++ [c]) Rest := rfl

/-- The code units of a delimiter just found are passed over. -/
theorem parseFrom_skip (Delim d s Cur : FString) :
    FString.ParseIntoArrayFrom Delim d.length Cur (d ++ s) =
      FString.ParseIntoArrayFrom Delim 0 Cur s := by
  induction d with
  | nil => rfl
  | cons x d ih =>
    rw [List.length_cons, List.cons_append, parseFrom_cons_succ]
    exact ih

/-- At a delimiter the piece read so far is closed. -/
theorem parseFrom_delim (Delim s Cur : FString) (hne : Delim ≠ []) :
    FString.ParseIntoArrayFrom Delim 0 Cur (Delim ++ s) =
      (if Cur.isEmpty then [] else [Cur]) ++ FString.ParseIntoArrayFrom Delim 0 [] s := by
  match Delim, hne with
  | x :: d, _ =>
    have hpre : (x :: d).isPrefixOf (x :: (d ++ s)) = true := by
      rw [ List.isPrefixOf_iff_prefix]
      exact List.prefix_append (x :: d) s
    rw [List.cons_append, parseFrom_cons_zero, hpre, if_pos rfl, List.length_cons,
      Nat.add_sub_cancel, parseFrom_skip]

/-- Code units that do not occur in the delimiter are added to the piece. -/
theorem parseFrom_word (Delim e s Cur : FString) (hne : Delim ≠ [])
    (hfree : ∀ c ∈ e, c ∉ Delim) :
    FString.ParseIntoArrayFrom Delim 0 Cur (e ++ s) =
      FString.ParseIntoArrayFrom Delim 0 (Cur ++ e) s := by
  induction e generalizing Cur with
  | nil => simp
  | cons c e ih =>
    have hc : c ∉ Delim := hfree c (List.mem_cons_self c e)
    have hpre : Delim.isPrefixOf (c :: (e ++ s)) = false := by
      match Delim, hne, hc with
      | x :: d, _, hc =>
        have hx : ¬ (x = c) := fun h => hc (h ▸ List.mem_cons_self x d)
        simp [List.isPrefixOf, hx]
    rw [List.cons_append, parseFrom_cons_zero, hpre, if_neg Bool.false_ne_true,
      ih (Cur ++ [c]) (fun c hc => hfree c (List.mem_cons_of_mem _ hc))]
    simp

/-- A leading delimiter yields no piece. -/
theorem parse_delim_append (Delim s : FString) (hne : Delim ≠ []) :
    FString.ParseIntoArray (Delim ++ s) Delim = FString.ParseIntoArray s Delim := by
  have hemp : Delim.isEmpty = false := by
    cases Delim with
    | nil => exact absurd rfl hne
    | cons x d => rfl
  unfold FString.ParseIntoArray
  rw [hemp, if_neg Bool.false_ne_true, if_neg Bool.false_ne_true, parseFrom_delim _ _ _ hne]
  rfl

/-- A non-empty word free of the delimiter's code units, followed by the
delimiter, is the first piece. -/
theorem parse_word_delim (Delim e s : FString) (hne : Delim ≠ []) (he : e ≠ [])
    (hfree : ∀ c ∈ e, c ∉ Delim) :
    FString.ParseIntoArray (e ++ (Delim ++ s)) Delim = e :: FString.ParseIntoArray s Delim := by
  have hemp : Delim.isEmpty = false := by
    cases Delim with
    | nil => exact absurd rfl hne
    | cons x d => rfl
  have hee : e.isEmpty = false := by
    cases e with
    | nil => exact absurd rfl he
    | cons x d => rfl
  unfold FString.ParseIntoArray
  rw [hemp, if_neg Bool.false_ne_true, if_neg Bool.false_ne_true,
    parseFrom_word _ _ _ _ hne hfree, List.nil_append, parseFrom_delim _ _ _ hne, hee,
    if_neg Bool.false_ne_true]
  rfl

/-- A word free of the delimiter's code units is the only piece, and an empty
string has none. -/
theorem parse_word (Delim e : FString) (hne : Delim ≠ []) (hfree : ∀ c ∈ e, c ∉ Delim) :
    FString.ParseIntoArray e Delim = if e.isEmpty then [] else [e] := by
  have hemp : Delim.isEmpty = false := by
    cases Delim with
    | nil => exact absurd rfl hne
    | cons x d => rfl
  unfold FString.ParseIntoArray
  rw [hemp, if_neg Bool.false_ne_true]
  have h := parseFrom_word Delim e [] [] hne hfree
  rw [List.append_nil, List.nil_append] at h
  rw [h, parseFrom_nil]

/-- The pieces of a chain of words are the words. -/
theorem parse_chain (Delim : FString) (ws : List FString) (t : FString) (hne : Delim ≠ [])
    (hws : ∀ w ∈ ws, w ≠ [] ∧ ∀ c ∈ w, c ∉ Delim) (ht : ∀ c ∈ t, c ∉ Delim) :
    FString.ParseIntoArray (Chain Delim ws t) Delim = ws ++ if t.isEmpty then [] else [t] := by
  induction ws with
  | nil =>
    simp only [Chain, List.map_nil, List.flatten_nil, List.nil_append]
    exact parse_word Delim t hne ht
  | cons w ws ih =>
    have hw := hws w (List.mem_cons_self w ws)
    have h : Chain Delim (w :: ws) t = w ++ (Delim ++ Chain Delim ws t) := by
      simp [Chain]
    rw [h, parse_word_delim Delim w _ hne hw.1 hw.2,
      ih (fun w hw => hws w (List.mem_cons_of_mem _ hw))]
    rfl

theorem chain_append_word (Sep : FString) (ws : List FString) (w : FString) :
    Chain Sep ws [] ++ (w ++ Sep) = Chain Sep (ws ++ [w]) [] := by
  simp [Chain]

theorem chain_append_last (Sep : FString) (ws : List FString) (w : FString) :
    Chain Sep ws [] ++ w = Chain Sep ws w := by
  simp [Chain]

theorem chain_append_chain (Sep : FString) (ws vs : List FString) (t : FString) :
    Chain Sep ws [] ++ Chain Sep vs t = Chain Sep (ws ++ vs) t := by
  simp [Chain]


/-! ## Strings: numbers -/

/-- The digits written for a number: there is at least one, all are decimal
digits, and reading them continues a value of 0 to the number. -/
theorem fromIntDigits_spec (Fuel : Nat) :
    ∀ n Acc, n < Fuel → ∃ D : FString, FromIntDigits Fuel n Acc = D ++ Acc ∧ D ≠ [] ∧
      (∀ c ∈ D, 48 ≤ c ∧ c ≤ 57) ∧
      ∀ Rest, StrtoiDigits (D ++ Rest) 0 = StrtoiDigits Rest n := by
  induction Fuel with
  | zero => intro n _ h; omega
  | succ Fuel ih =>
    intro n Acc hn
    by_cases h10 : n < 10
    · refine ⟨[48 + n], ?_, by simp, ?_, ?_⟩
      · simp [FromIntDigits, h10]
      · intro c hc
        simp only [List.mem_singleton] at hc
        omega
      · intro Rest
        have hd : 48 ≤ 48 + n ∧ 48 + n ≤ 57 := by omega
        simp only [List.singleton_append, StrtoiDigits, hd, and_self, if_true]
        congr 1
        omega
    · obtain ⟨D, hD, hne, hdig, hval⟩ := ih (n / 10) ((48 + n % 10) :: Acc) (by omega)
      refine ⟨D ++ [48 + n % 10], ?_, by simp, ?_, ?_⟩
      · simp [FromIntDigits, h10, hD]
      · intro c hc
        rcases List.mem_append.mp hc with hc | hc
        · exact hdig c hc
        · simp only [List.mem_singleton] at hc
          omega
      · intro Rest
        have hd : 48 ≤ 48 + n % 10 ∧ 48 + n % 10 ≤ 57 := by omega
        rw [List.append_assoc, hval]
        simp only [List.singleton_append, StrtoiDigits, hd, and_self, if_true]
        congr 1
        omega

/-- The text of a natural number. -/
theorem fromInt_natCast (n : Nat) :
    ∃ D : FString, FString.FromInt (n : Int) = D ∧ D ≠ [] ∧ (∀ c ∈ D, 48 ≤ c ∧ c ≤ 57) ∧
      ∀ Rest, StrtoiDigits (D ++ Rest) 0 = StrtoiDigits Rest n := by
  obtain ⟨D, hD, hne, hdig, hval⟩ := fromIntDigits_spec (n + 1) n [] (by omega)
  refine ⟨D, ?_, hne, hdig, hval⟩
  have hneg : ¬ ((n : Int) < 0) := by omega
  unfold FString.FromInt
  rw [if_neg hneg, Int.natAbs_ofNat, hD, List.append_nil]

/-- Reading a run of digits: neither white space nor a sign is found, and the
value of the digits is returned when it is within the `int32` range. -/
theorem strtoi_digits (D : FString) (n : Nat) (hne : D ≠ [])
    (hdig : ∀ c ∈ D, 48 ≤ c ∧ c ≤ 57) (hval : StrtoiDigits D 0 = n)
    (hn : n ≤ 2147483647) : Strtoi D = n := by
  match D, hne with
  | c :: Rest, _ =>
    have hc := hdig c (List.mem_cons_self c Rest)
    have hsp : IsSpace c = false := by
      simp only [IsSpace, decide_eq_false_iff_not]
      omega
    have h45 : ¬ (c = 45) := by omega
    have h43 : ¬ (c = 43) := by omega
    unfold Strtoi
    rw [List.dropWhile_cons_of_neg (by simp [hsp])]
    have hm : (match c :: Rest with
        | 45 :: R => -(StrtoiDigits R 0 : Int)
        | 43 :: R => (StrtoiDigits R 0 : Int)
        | R => (StrtoiDigits R 0 : Int)) = (StrtoiDigits (c :: Rest) 0 : Int) := by
      split
      · rename_i heq
        exact absurd (List.cons.inj heq).1 h45
      · rename_i heq
        exact absurd (List.cons.inj heq).1 h43
      · rfl
    simp only [hm, hval]
    omega

/-- The number read back from its text. -/
theorem strtoi_fromInt (n : Nat) (hn : n ≤ 2147483647) :
    Strtoi (FString.FromInt (n : Int)) = n := by
  obtain ⟨D, hD, hne, hdig, hval⟩ := fromInt_natCast n
  rw [hD]
  have h := hval []
  rw [List.append_nil] at h
  exact strtoi_digits D n hne hdig (by rw [h]; rfl) hn


/-! ## Mangling of one element -/

/-- What is already in `Output` stays in front. -/
theorem mangleChars_append (Output M : FString) :
    MangleChars Output M = Output ++ MangleChars [] M := by
  induction M generalizing Output with
  | nil => simp [MangleChars]
  | cons c Rest ih =>
    unfold MangleChars
    split_ifs
    · rw [ih (Output ++ [c]), ih ([] ++ [c])]
      simp
    · rw [ih (Output ++ _), ih ([] ++ _)]
      simp

/-- The mangled code units, one code unit of the element at a time. -/
theorem mangleChars_cons (c : Nat) (Rest : FString) :
    MangleChars [] (c :: Rest) =
      (if IsValidMdlPathChar c then [c] else 95 :: (FString.FromInt (c : Int) ++ [95])) ++
        MangleChars [] Rest := by
  rw [MangleChars]
  split_ifs
  · rw [mangleChars_append]
    simp
  · rw [mangleChars_append, text_underscore_eq]
    simp

/-- A decimal digit is an identifier character. -/
theorem isIdentifierChar_digit (c : Nat) (h : 48 ≤ c ∧ c ≤ 57) : IsIdentifierChar c = true := by
  simp only [IsIdentifierChar, IsValidMdlPathChar, Bool.or_eq_true, decide_eq_true_eq]
  omega

/-- Mangled code units are letters, digits and underscores. -/
theorem mangleChars_identifier (M : FString) :
    ∀ x ∈ MangleChars [] M, IsIdentifierChar x = true := by
  induction M with
  | nil => intro x hx; simp [MangleChars] at hx
  | cons c Rest ih =>
    intro x hx
    rw [mangleChars_cons] at hx
    rcases List.mem_append.mp hx with hx | hx
    · by_cases hv : IsValidMdlPathChar c = true
      · rw [if_pos hv, List.mem_singleton] at hx
        rw [hx]
        simp [IsIdentifierChar, hv]
      · rw [if_neg hv] at hx
        obtain ⟨D, hD, _, hdig, _⟩ := fromInt_natCast c
        rw [hD] at hx
        rcases List.mem_cons.mp hx with hx | hx
        · rw [hx]; decide
        · rcases List.mem_append.mp hx with hx | hx
          · exact isIdentifierChar_digit x (hdig x hx)
          · rw [List.mem_singleton] at hx
            rw [hx]; decide
    · exact ih x hx

/-- A non-empty element has mangled code units. -/
theorem mangleChars_ne_nil (M : FString) (h : M ≠ []) : MangleChars [] M ≠ [] := by
  match M, h with
  | c :: Rest, _ =>
    rw [mangleChars_cons]
    split_ifs <;> simp

/-- While a number is being read, code units other than the underscore are
collected in `MangledChar`. -/
theorem unmangleChars_number (D Tail MangledChar U : FString)
    (hD : ∀ c ∈ D, c ≠ 95 ∧ c ≠ 0) :
    UnmangleChars (D ++ Tail) true MangledChar U =
      UnmangleChars Tail true (MangledChar ++ D) U := by
  induction D generalizing MangledChar with
  | nil => simp
  | cons c D ih =>
    have hc : ¬ (c = 95) := (hD c (List.mem_cons_self c D)).1
    have h0 : ¬ (c = 0) := (hD c (List.mem_cons_self c D)).2
    rw [List.cons_append, UnmangleChars, if_neg hc]
    simp only [if_true, AppendChar, h0, if_false]
    rw [ih (MangledChar ++ [c]) (fun c hc => hD c (List.mem_cons_of_mem _ hc))]
    simp

/-- Decoding the mangled code units of an element gives the element back. -/
theorem unmangleChars_mangleChars (M : FString) (hM : ∀ c ∈ M, 0 < c ∧ c < 65536) :
    ∀ MangledChar U, UnmangleChars (MangleChars [] M) false MangledChar U = U ++ M := by
  induction M with
  | nil => intro MangledChar U; simp [MangleChars, UnmangleChars]
  | cons c Rest ih =>
    intro MangledChar U
    have hRest : ∀ c ∈ Rest, 0 < c ∧ c < 65536 := fun c hc => hM c (List.mem_cons_of_mem _ hc)
    have hc := hM c (List.mem_cons_self c Rest)
    have h0 : ¬ (c = 0) := by omega
    rw [mangleChars_cons]
    by_cases hv : IsValidMdlPathChar c = true
    · have h95 : ¬ (c = 95) := by
        intro h
        rw [h] at hv
        exact absurd hv (by decide)
      rw [if_pos hv, List.singleton_append, UnmangleChars, if_neg h95]
      simp only [Bool.false_eq_true, if_false, AppendChar, h0]
      rw [ih hRest]
      simp
    · obtain ⟨D, hD, hne, hdig, hval⟩ := fromInt_natCast c
      have hstr : Strtoi D = (c : Int) := by
        have h := strtoi_fromInt c (by omega)
        rw [hD] at h
        exact h
      have hD95 : ∀ d ∈ D, d ≠ 95 ∧ d ≠ 0 := fun d hd => by
        have := hdig d hd
        omega
      have htc : ToTCHAR (c : Int) = c := by
        unfold ToTCHAR
        omega
      rw [if_neg hv, hD, List.cons_append, UnmangleChars, if_pos rfl]
      simp only [Bool.not_false, if_true]
      rw [List.append_assoc, unmangleChars_number D _ [] U hD95, List.nil_append,
        List.singleton_append, UnmangleChars, if_pos rfl]
      simp only [Bool.not_true, Bool.false_eq_true, if_false]
      rw [hstr, htc, ih hRest]
      simp [AppendChar, h0]

/-- The shape of a mangled element. -/
theorem mangledElement_eq (M : FString) :
    ∃ D : FString, FString.FromInt (FString.Len M) = D ∧ D ≠ [] ∧
      (∀ c ∈ D, 48 ≤ c ∧ c ≤ 57) ∧ (∀ Rest, StrtoiDigits (D ++ Rest) 0 = StrtoiDigits Rest M.length) ∧
      MangledElement M = 122 :: (D ++ 122 :: MangleChars [] M) := by
  obtain ⟨D, hD, hne, hdig, hval⟩ := fromInt_natCast M.length
  refine ⟨D, hD, hne, hdig, hval, ?_⟩
  unfold MangledElement FString.Len
  rw [hD, mangledElemPrefix_eq]
  simp

/-- A mangled element is made of letters, digits and underscores. -/
theorem mangledElement_identifier (M : FString) :
    ∀ x ∈ MangledElement M, IsIdentifierChar x = true := by
  obtain ⟨D, _, _, hdig, _, heq⟩ := mangledElement_eq M
  intro x hx
  rw [heq] at hx
  rcases List.mem_cons.mp hx with hx | hx
  · rw [hx]; decide
  · rcases List.mem_append.mp hx with hx | hx
    · exact isIdentifierChar_digit x (hdig x hx)
    · rcases List.mem_cons.mp hx with hx | hx
      · rw [hx]; decide
      · exact mangleChars_identifier M x hx

/-- The mangled form of a non-empty element has at least four code units. -/
theorem mangledElement_length (M : FString) (h : M ≠ []) : 4 ≤ (MangledElement M).length := by
  obtain ⟨D, _, hne, _, _, heq⟩ := mangledElement_eq M
  have h1 : 0 < D.length := List.length_pos.mpr hne
  have h2 : 0 < (MangleChars [] M).length := List.length_pos.mpr (mangleChars_ne_nil M h)
  rw [heq]
  simp only [List.length_cons, List.length_append]
  omega

/-- The first mark after a run of digits is found right behind it. -/
theorem findFrom_mark (D T : FString) (hdig : ∀ c ∈ D, 48 ≤ c ∧ c ≤ 57) :
    ∀ Index : Int, FString.FindFrom [122] (D ++ 122 :: T) Index = Index + D.length := by
  induction D with
  | nil =>
    intro Index
    have h122 : ToLower 122 = 122 := by decide
    simp [FString.FindFrom, List.isPrefixOf, h122]
  | cons c D ih =>
    intro Index
    have hc := hdig c (List.mem_cons_self c D)
    have hlow : ToLower c = c := toLower_of_not_upper c (by omega)
    have hne : ¬ (122 = c) := by omega
    have h122 : ToLower 122 = 122 := by decide
    rw [List.cons_append, FString.FindFrom]
    simp only [List.map_cons, List.map_nil, hlow, h122, List.isPrefixOf]
    simp only [Bool.and_true, beq_iff_eq, hne, if_false]
    rw [ih (fun c hc => hdig c (List.mem_cons_of_mem _ hc))]
    simp only [List.length_cons, Nat.cast_add, Nat.cast_one]
    omega

/-- An element that starts with the mark passes the test `StartsWith`. -/
theorem startsWith_mark (X : FString) :
    FString.StartsWith (122 :: X) MangledElemPrefix = true := by
  rw [mangledElemPrefix_eq]
  simp [FString.StartsWith, FString.Equals]

/-- Unmangling one mangled element gives the element back. -/
theorem unmangleModule_mangledElement (M : FString) (hlen : M.length ≤ 2147483647)
    (hM : ∀ c ∈ M, 0 < c ∧ c < 65536) : UnmangleModule (MangledElement M) = M := by
  obtain ⟨D, hD, hne, hdig, hval, heq⟩ := mangledElement_eq M
  have hstr : Strtoi D = (M.length : Int) := by
    have h := hval []
    rw [List.append_nil] at h
    exact strtoi_digits D M.length hne hdig (by rw [h]; rfl) hlen
  have hfind : FString.Find (D ++ 122 :: MangleChars [] M) [122] = (D.length : Int) := by
    unfold FString.Find
    rw [findFrom_mark D _ hdig 0]
    omega
  have hlen1 : FString.Len MangledElemPrefix = 1 := by
    rw [mangledElemPrefix_eq]; rfl
  have hnot : ¬ ((D.length : Int) = -1) := by omega
  unfold UnmangleModule
  rw [heq, startsWith_mark]
  simp only [Bool.not_true, Bool.false_eq_true, if_false, hlen1]
  have hchop : FString.RightChop (122 :: (D ++ 122 :: MangleChars [] M)) 1 =
      D ++ 122 :: MangleChars [] M := rfl
  rw [hchop, mangledElemPrefix_eq, hfind, if_neg hnot]
  have hleft : FString.Left (D ++ 122 :: MangleChars [] M) (D.length : Int) = D := by
    simp [FString.Left]
  have hright : FString.RightChop (D ++ 122 :: MangleChars [] M) ((D.length : Int) + 1) =
      MangleChars [] M := by
    have h1 : ((D.length : Int) + 1).toNat = D.length + 1 := by omega
    unfold FString.RightChop
    rw [h1]
    simp
  simp only [hleft, hright, hstr, unmangleChars_mangleChars M hM, List.nil_append,
    FString.Len, if_true]


/-! ## The loops over the elements -/

/-- An identifier character does not occur in a separator. -/
theorem identifier_not_sep (b : Bool) (c : Nat) (h : IsIdentifierChar c = true) :
    c ∉ PathSeparator b := by
  simp only [IsIdentifierChar, IsValidMdlPathChar, Bool.or_eq_true, decide_eq_true_eq] at h
  rcases pathSeparator_cases b with hs | hs <;> rw [hs] <;> simp <;> omega

/-- The package is made of identifier characters. -/
theorem package_identifier : ∀ c ∈ MangledPathPrefixPkg, IsIdentifierChar c = true := by
  decide

/-- A word of the mangled output is made of identifier characters, is not
empty and starts with a letter. -/
theorem mangledWord_identifier (Q : FString → Prop) (w : FString) (h : IsMangledWord Q w) :
    (∀ c ∈ w, IsIdentifierChar c = true) ∧
      ∃ c Rest, w = c :: Rest ∧ IsLetter c = true := by
  rcases h with h | ⟨m, _, h⟩
  · rw [h]
    exact ⟨package_identifier, 77, [65, 78, 71, 76, 69, 68], by decide, by decide⟩
  · rw [h]
    refine ⟨mangledElement_identifier m, ?_⟩
    obtain ⟨D, _, _, _, _, heq⟩ := mangledElement_eq m
    exact ⟨122, _, heq, by decide⟩

/-- One element is mangled behind what `Output` holds. -/
theorem mangle_step (Output M : FString) :
    MangleChars (Output ++ MangledElemPrefix ++ FString.FromInt (FString.Len M) ++
      MangledElemPrefix) M = Output ++ MangledElement M := by
  rw [mangleChars_append]
  simp [MangledElement]

/-- The shape of the two strings built by the loop of `MangleMdlPath`:
`Output` is a chain of mangled words, the last of them possibly without a
separator behind it, and `RelativeOutput` is a chain of relative elements. -/
theorem mangleModules_shape (Sep : FString) (Num : Int) (Q : FString → Prop) :
    ∀ (ms : List FString) (i : Int) (Output Rel : FString) (ws rs : List FString),
      i + ms.length = Num → (∀ m ∈ ms, Q m) →
      Output = Chain Sep ws [] → (∀ w ∈ ws, IsMangledWord Q w) →
      Rel = Chain Sep rs [] → (∀ r ∈ rs, IsRelativeModule r = true) →
      ∃ (ws1 : List FString) (t : FString) (rs1 : List FString),
        MangleModules Sep Num ms i Output Rel = (Chain Sep ws1 t, Chain Sep rs1 []) ∧
        (∀ w ∈ ws1, IsMangledWord Q w) ∧ (t = [] ∨ IsMangledWord Q t) ∧
        (∀ r ∈ rs1, IsRelativeModule r = true) := by
  intro ms
  induction ms with
  | nil =>
    intro i Output Rel ws rs _ _ hO hws hR hrs
    exact ⟨ws, [], rs, by rw [MangleModules, hO, hR], hws, Or.inl rfl, hrs⟩
  | cons m Rest ih =>
    intro i Output Rel ws rs hi hQ hO hws hR hrs
    have hi1 : (i + 1) + (Rest.length : Int) = Num := by
      rw [List.length_cons] at hi
      push_cast at hi
      omega
    have hQRest : ∀ m ∈ Rest, Q m := fun x hx => hQ x (List.mem_cons_of_mem _ hx)
    rw [MangleModules]
    by_cases hrel : IsRelativeModule m = true
    · have hrel1 : (FString.Equals m (TEXT ".") || FString.Equals m (TEXT "..")) = true := hrel
      rw [if_pos hrel1]
      refine ih (i + 1) Output _ ws (rs ++ [m]) hi1 hQRest hO hws ?_ ?_
      · rw [hR, chain_append_word]
      · intro r hr
        rcases List.mem_append.mp hr with hr | hr
        · exact hrs r hr
        · rw [List.mem_singleton] at hr
          rw [hr]; exact hrel
    · have hrel1 : ¬ ((FString.Equals m (TEXT ".") || FString.Equals m (TEXT "..")) = true) :=
        hrel
      rw [if_neg hrel1]
      simp only []
      obtain ⟨ws0, hO1, hws0⟩ : ∃ ws0, (if Output.isEmpty then
          Output ++ (MangledPathPrefixPkg ++ Sep) else Output) = Chain Sep ws0 [] ∧
          ∀ w ∈ ws0, IsMangledWord Q w := by
        by_cases hemp : Output.isEmpty = true
        · refine ⟨ws ++ [MangledPathPrefixPkg], ?_, ?_⟩
          · rw [if_pos hemp, hO, chain_append_word]
          · intro w hw
            rcases List.mem_append.mp hw with hw | hw
            · exact hws w hw
            · rw [List.mem_singleton] at hw
              exact Or.inl hw
        · exact ⟨ws, by rw [if_neg hemp, hO], hws⟩
      have hm : IsMangledWord Q (MangledElement m) :=
        Or.inr ⟨m, hQ m (List.mem_cons_self m Rest), rfl⟩
      rw [hO1, mangle_step]
      by_cases hlast : i < Num - 1
      · rw [if_pos hlast]
        refine ih (i + 1) _ Rel (ws0 ++ [MangledElement m]) rs hi1 hQRest ?_ ?_ hR hrs
        · rw [List.append_assoc, chain_append_word]
        · intro w hw
          rcases List.mem_append.mp hw with hw | hw
          · exact hws0 w hw
          · rw [List.mem_singleton] at hw
            rw [hw]; exact hm
      · rw [if_neg hlast]
        have hnil : Rest = [] := by
          apply List.eq_nil_of_length_eq_zero
          omega
        rw [hnil, MangleModules]
        exact ⟨ws0, MangledElement m, rs, by rw [chain_append_last, hR], hws0, Or.inr hm, hrs⟩

/-- Without the package in front, the loop of `UnmangleMdlPath` is left by
`return Input` at the first element that is not relative. -/
theorem unmangleModules_without_package (Sep : FString) (Num : Int) (M : FString)
    (hM : FString.Equals M MangledPathPrefixPkg = false) :
    ∀ (ms : List FString) (i : Int) (Output Rel : FString),
      (ms.filter (fun m => !IsRelativeModule m)).head? = some M →
      UnmangleModules Sep Num ms i false Output Rel = none := by
  intro ms
  induction ms with
  | nil => intro i Output Rel h; simp at h
  | cons m Rest ih =>
    intro i Output Rel h
    rw [UnmangleModules]
    by_cases hrel : IsRelativeModule m = true
    · have hrel1 : (FString.Equals m (TEXT ".") || FString.Equals m (TEXT "..")) = true := hrel
      rw [if_pos hrel1]
      apply ih
      rw [List.filter_cons_of_neg (by simp [hrel])] at h
      exact h
    · have hrel1 : ¬ ((FString.Equals m (TEXT ".") || FString.Equals m (TEXT "..")) = true) :=
        hrel
      rw [List.filter_cons_of_pos (by simp [hrel])] at h
      simp only [List.head?_cons, Option.some.injEq] at h
      rw [if_neg hrel1, h, hM]
      simp


/-! ## Unmangling a path without the package -/

/-- C28, as stated, fails: the first element of "mangled/foo" is not the
string "MANGLED", yet the comparison of `FString` ignores case and takes it
for the package, and the path comes back as "foo". -/
theorem lower_case_package_is_unmangled :
    FString.ParseIntoArray (ModulePathOf (TEXT "mangled/foo")) (PathSeparator false) =
        [TEXT "mangled", TEXT "foo"] ∧
      IsRelativeModule (TEXT "mangled") = false ∧
      TEXT "mangled" ≠ MangledPathPrefixPkg ∧
      UnmangleMdlPath (TEXT "mangled/foo") false = TEXT "foo" ∧
      TEXT "foo" ≠ TEXT "mangled/foo" := by
  decide

/-- C28, amended: `UnmangleMdlPath` returns its input unchanged for every input
whose first element other than "." and ".." does not compare equal to the
package "MANGLED" under the comparison of `FString`, which ignores the case of
ASCII letters. -/
theorem unmangle_returns_input_without_package (Input : FString) (bMDLSeparator : Bool)
    (Module : FString)
    (hfirst : ((FString.ParseIntoArray (ModulePathOf Input)
      (PathSeparator bMDLSeparator)).filter (fun m => !IsRelativeModule m)).head? =
        some Module)
    (hpkg : FString.Equals Module MangledPathPrefixPkg = false) :
    UnmangleMdlPath Input bMDLSeparator = Input := by
  have h := unmangleModules_without_package (PathSeparator bMDLSeparator)
    ((FString.ParseIntoArray (ModulePathOf Input) (PathSeparator bMDLSeparator)).length : Int)
    Module hpkg _ 0 [] [] hfirst
  unfold UnmangleMdlPath
  unfold ModulePathOf PathSeparator at h
  simp only [h]

/-- C28, amended, at a concrete input: the first element of
"../foo/MANGLED/z1zx" that is not relative is "foo". -/
theorem unmangle_returns_input_without_package_witness :
    UnmangleMdlPath (TEXT "../foo/MANGLED/z1zx") false = TEXT "../foo/MANGLED/z1zx" :=
  unmangle_returns_input_without_package (TEXT "../foo/MANGLED/z1zx") false (TEXT "foo")
    (by decide) (by decide)

/-! ## Written paths -/

/-- The function `MangleMdlPath`, with its local variables written out. -/
theorem mangleMdlPath_eq (Input : FString) (b : Bool) :
    MangleMdlPath Input b =
      ((if FString.StartsWith (ModulePathOf Input) (PathSeparator b) then PathSeparator b
        else (MangleModules (PathSeparator b)
          ((FString.ParseIntoArray (ModulePathOf Input) (PathSeparator b)).length : Int)
          (FString.ParseIntoArray (ModulePathOf Input) (PathSeparator b)) 0 [] []).2) ++
        (MangleModules (PathSeparator b)
          ((FString.ParseIntoArray (ModulePathOf Input) (PathSeparator b)).length : Int)
          (FString.ParseIntoArray (ModulePathOf Input) (PathSeparator b)) 0 [] []).1) ++
        (if FString.EndsWith Input MDLSuffix then MDLSuffix else []) := by
  unfold MangleMdlPath ModulePathOf PathSeparator
  simp only []
  split_ifs <;> simp

/-- The function `UnmangleMdlPath`, with its local variables written out. -/
theorem unmangleMdlPath_eq (Input : FString) (b : Bool) :
    UnmangleMdlPath Input b =
      match UnmangleModules (PathSeparator b)
          ((FString.ParseIntoArray (ModulePathOf Input) (PathSeparator b)).length : Int)
          (FString.ParseIntoArray (ModulePathOf Input) (PathSeparator b)) 0 false [] [] with
      | none => Input
      | some Out =>
        ((if FString.StartsWith (ModulePathOf Input) (PathSeparator b) then PathSeparator b
          else Out.2) ++ Out.1) ++
          (if FString.EndsWith Input MDLSuffix then MDLSuffix else []) := by
  unfold UnmangleMdlPath ModulePathOf PathSeparator
  simp only []
  split
  · rfl
  · split_ifs <;> simp

/-- A string followed by ".mdl" ends with it. -/
theorem endsWith_append_suffix (X : FString) :
    FString.EndsWith (X ++ MDLSuffix) MDLSuffix = true := by
  rw [mdlSuffix_eq]
  simp [FString.EndsWith, FString.Equals]

/-- Chopping the suffix off a string followed by ".mdl" leaves the string. -/
theorem leftChop_append_suffix (X : FString) :
    FString.LeftChop (X ++ MDLSuffix) (FString.Len MDLSuffix) = X := by
  rw [mdlSuffix_eq]
  simp [FString.LeftChop, FString.Len]

/-- A string that ends in four identifier characters does not end in ".mdl". -/
theorem endsWith_identifier_tail (A w : FString) (hlen : 4 ≤ w.length)
    (hw : ∀ c ∈ w, IsIdentifierChar c = true) :
    FString.EndsWith (A ++ w) MDLSuffix = false := by
  rw [mdlSuffix_eq]
  by_contra hcon
  rw [Bool.not_eq_false] at hcon
  simp only [FString.EndsWith, FString.Equals, Bool.and_eq_true, decide_eq_true_eq] at hcon
  obtain ⟨_, heq⟩ := hcon
  have hdrop : List.drop ((A ++ w).length - [46, 109, 100, 108].length) (A ++ w) =
      List.drop (w.length - 4) w := by
    have h1 : (A ++ w).length - [46, 109, 100, 108].length = A.length + (w.length - 4) := by
      simp only [List.length_append, List.length_cons, List.length_nil]
      omega
    rw [h1, List.drop_append]
  rw [hdrop] at heq
  have hlt : w.length - 4 < w.length := by omega
  have hcons := List.drop_eq_getElem_cons hlt
  rw [hcons] at heq
  have hmem : w[w.length - 4] ∈ w := List.getElem_mem _
  have hid := hw _ hmem
  have hlow : ToLower w[w.length - 4] = 46 := by
    have hdot : ToLower 46 = 46 := by decide
    simp only [List.map_cons, hdot, List.cons.injEq] at heq
    exact heq.1
  have h46 := toLower_eq_small _ 46 hlow (by omega)
  rw [h46] at hid
  exact absurd hid (by decide)

/-- A string that starts with the separator passes the test `StartsWith`. -/
theorem startsWith_sep_append (b : Bool) (X : FString) :
    FString.StartsWith (PathSeparator b ++ X) (PathSeparator b) = true := by
  rcases pathSeparator_cases b with hs | hs <;> rw [hs] <;>
    simp [FString.StartsWith, FString.Equals]

/-- A string whose first code unit does not occur in the separator does not
start with the separator. -/
theorem startsWith_sep_false (b : Bool) (c : Nat) (X : FString)
    (hc : c ∉ PathSeparator b) :
    FString.StartsWith (c :: X) (PathSeparator b) = false := by
  by_contra hcon
  rw [Bool.not_eq_false] at hcon
  rcases pathSeparator_cases b with hs | hs
  · rw [hs] at hcon hc
    simp only [FString.StartsWith, FString.Equals, Bool.and_eq_true, decide_eq_true_eq,
      List.length_singleton, List.take_succ_cons, List.take_zero, List.map_cons,
      List.map_nil, List.cons.injEq, and_true] at hcon
    have h47 : ToLower 47 = 47 := by decide
    rw [h47] at hcon
    have := toLower_eq_small c 47 hcon.2 (by omega)
    exact hc (by rw [this]; simp)
  · rw [hs] at hcon hc
    have h58 : ToLower 58 = 58 := by decide
    cases X with
    | nil => simp [FString.StartsWith] at hcon
    | cons d X =>
      simp only [FString.StartsWith, FString.Equals, Bool.and_eq_true, decide_eq_true_eq,
        List.length_cons, List.length_nil, List.take_succ_cons, List.take_zero, List.map_cons,
        List.map_nil, List.cons.injEq, and_true, h58] at hcon
      have := toLower_eq_small c 58 hcon.2.1 (by omega)
      exact hc (by rw [this]; simp)

/-- The pieces of joined elements are the elements. -/
theorem parse_joinPath (Sep : FString) (hne : Sep ≠ []) :
    ∀ xs : List FString, (∀ x ∈ xs, x ≠ [] ∧ ∀ c ∈ x, c ∉ Sep) →
      FString.ParseIntoArray (JoinPath Sep xs) Sep = xs := by
  intro xs
  induction xs with
  | nil =>
    intro _
    have h := parse_word Sep [] hne (fun c hc => absurd hc (List.not_mem_nil c))
    exact h
  | cons x Rest ih =>
    intro hx
    have hx0 := hx x (List.mem_cons_self x Rest)
    cases Rest with
    | nil =>
      have h := parse_word Sep x hne hx0.2
      have hemp : x.isEmpty = false := by
        cases x with
        | nil => exact absurd rfl hx0.1
        | cons c d => rfl
      rw [hemp] at h
      exact h
    | cons y Rest =>
      have h : JoinPath Sep (x :: y :: Rest) = x ++ (Sep ++ JoinPath Sep (y :: Rest)) := by
        simp [JoinPath]
      rw [h, parse_word_delim Sep x _ hne hx0.1 hx0.2,
        ih (fun z hz => hx z (List.mem_cons_of_mem _ hz))]

/-- Joined elements end with the last of them. -/
theorem joinPath_tail (Sep : FString) :
    ∀ xs : List FString, xs ≠ [] →
      (∀ x ∈ xs, 4 ≤ x.length ∧ ∀ c ∈ x, IsIdentifierChar c = true) →
      ∃ A w : FString, JoinPath Sep xs = A ++ w ∧ 4 ≤ w.length ∧
        ∀ c ∈ w, IsIdentifierChar c = true := by
  intro xs
  induction xs with
  | nil => intro h; exact absurd rfl h
  | cons x Rest ih =>
    intro _ hx
    cases Rest with
    | nil =>
      have hx0 := hx x (List.mem_cons_self x [])
      exact ⟨[], x, rfl, hx0.1, hx0.2⟩
    | cons y Rest =>
      obtain ⟨A, w, hA, hw⟩ := ih (by simp) (fun z hz => hx z (List.mem_cons_of_mem _ hz))
      refine ⟨x ++ Sep ++ A, w, ?_, hw⟩
      simp [JoinPath, hA]


/-! ## Round trip -/

/-- A mangled element is not empty. -/
theorem mangledElement_ne_nil (M : FString) : MangledElement M ≠ [] := by
  obtain ⟨D, _, _, _, _, heq⟩ := mangledElement_eq M
  rw [heq]
  simp

/-- A mangled element is neither relative nor the package. -/
theorem mangledElement_tests (M : FString) :
    IsRelativeModule (MangledElement M) = false ∧
      FString.Equals (MangledElement M) MangledPathPrefixPkg = false := by
  obtain ⟨D, _, _, _, _, heq⟩ := mangledElement_eq M
  have h122 : ToLower 122 = 122 := by decide
  rw [heq, mangledPathPrefixPkg_eq]
  constructor
  · rw [Bool.eq_false_iff]
    intro h
    rcases (isRelativeModule_iff _).mp h with h | h <;> simp at h
  · simp [FString.Equals, h122, ToLower]

/-- The loop of `MangleMdlPath` over elements none of which is relative: the
package, once, and the mangled elements joined by separators. -/
theorem mangleModules_joinPath (Sep : FString) (Num : Int) :
    ∀ (ms : List FString) (i : Int) (Output Rel : FString),
      i + ms.length = Num → (∀ m ∈ ms, IsRelativeModule m = false) → ms ≠ [] →
      MangleModules Sep Num ms i Output Rel =
        ((if Output.isEmpty then Output ++ (MangledPathPrefixPkg ++ Sep) else Output) ++
          JoinPath Sep (ms.map MangledElement), Rel) := by
  intro ms
  induction ms with
  | nil => intro i Output Rel _ _ h; exact absurd rfl h
  | cons m Rest ih =>
    intro i Output Rel hi hrel _
    have hm : ¬ ((FString.Equals m (TEXT ".") || FString.Equals m (TEXT "..")) = true) := by
      have := hrel m (List.mem_cons_self m Rest)
      unfold IsRelativeModule at this
      rw [this]
      exact Bool.false_ne_true
    rw [MangleModules, if_neg hm]
    simp only []
    rw [mangle_step]
    cases Rest with
    | nil =>
      have hlast : ¬ (i < Num - 1) := by
        simp only [List.length_singleton, Nat.cast_one] at hi
        omega
      rw [if_neg hlast, MangleModules]
      rfl
    | cons r Rest =>
      have hlast : i < Num - 1 := by
        simp only [List.length_cons, Nat.cast_add, Nat.cast_one] at hi
        omega
      have hi1 : (i + 1) + ((r :: Rest).length : Int) = Num := by
        simp only [List.length_cons, Nat.cast_add, Nat.cast_one] at hi ⊢
        omega
      rw [if_pos hlast, ih (i + 1) _ Rel hi1
        (fun x hx => hrel x (List.mem_cons_of_mem _ hx)) (by simp)]
      have hne : ((if Output.isEmpty then Output ++ (MangledPathPrefixPkg ++ Sep) else Output) ++
          MangledElement m ++ Sep).isEmpty = false := by
        have := mangledElement_ne_nil m
        cases hME : MangledElement m with
        | nil => exact absurd hME this
        | cons c d => simp
      rw [hne, if_neg Bool.false_ne_true]
      simp [JoinPath]

/-- The loop of `UnmangleMdlPath` over mangled elements, the package found:
the elements joined by separators. -/
theorem unmangleModules_joinPath (Sep : FString) (Num : Int) :
    ∀ (ms : List FString) (i : Int) (Output Rel : FString),
      i + ms.length = Num →
      (∀ m ∈ ms, m.length ≤ 2147483647 ∧ ∀ c ∈ m, 0 < c ∧ c < 65536) →
      UnmangleModules Sep Num (ms.map MangledElement) i true Output Rel =
        some (Output ++ JoinPath Sep ms, Rel) := by
  intro ms
  induction ms with
  | nil => intro i Output Rel _ _; simp [UnmangleModules, JoinPath]
  | cons m Rest ih =>
    intro i Output Rel hi hm
    have hm0 := hm m (List.mem_cons_self m Rest)
    have ht := mangledElement_tests m
    have hrel : ¬ ((FString.Equals (MangledElement m) (TEXT ".") ||
        FString.Equals (MangledElement m) (TEXT "..")) = true) := by
      have := ht.1
      unfold IsRelativeModule at this
      rw [this]
      exact Bool.false_ne_true
    rw [List.map_cons, UnmangleModules, if_neg hrel, ht.2, if_neg Bool.false_ne_true]
    simp only [Bool.not_true, Bool.false_eq_true, if_false]
    rw [unmangleModule_mangledElement m hm0.1 hm0.2]
    cases Rest with
    | nil =>
      have hlast : ¬ (i < Num - 1) := by
        simp only [List.length_singleton, Nat.cast_one] at hi
        omega
      rw [if_neg hlast, List.map_nil, UnmangleModules]
      rfl
    | cons r Rest =>
      have hlast : i < Num - 1 := by
        simp only [List.length_cons, Nat.cast_add, Nat.cast_one] at hi
        omega
      have hi1 : (i + 1) + ((r :: Rest).length : Int) = Num := by
        simp only [List.length_cons, Nat.cast_add, Nat.cast_one] at hi ⊢
        omega
      rw [if_pos hlast, ih (i + 1) _ Rel hi1 (fun x hx => hm x (List.mem_cons_of_mem _ hx))]
      simp [JoinPath]

/-- What the two path functions read off a written path whose elements are not
empty and free of the separator's code units, and which, when it has no
suffix, does not end in ".mdl": the suffix, the leading separator and the
elements. -/
theorem read_writePath (b bLead bSuf : Bool) (x : FString) (xs : List FString)
    (hxs : ∀ e ∈ x :: xs, e ≠ [] ∧ ∀ c ∈ e, c ∉ PathSeparator b)
    (hsuf : bSuf = false →
      FString.EndsWith (WritePath b bLead false (x :: xs)) MDLSuffix = false) :
    FString.EndsWith (WritePath b bLead bSuf (x :: xs)) MDLSuffix = bSuf ∧
      ModulePathOf (WritePath b bLead bSuf (x :: xs)) = WritePath b bLead false (x :: xs) ∧
      FString.StartsWith (WritePath b bLead false (x :: xs)) (PathSeparator b) = bLead ∧
      FString.ParseIntoArray (WritePath b bLead false (x :: xs)) (PathSeparator b) =
        x :: xs := by
  have hsep : PathSeparator b ≠ [] := by
    rcases pathSeparator_cases b with h | h <;> rw [h] <;> simp
  have hw : WritePath b bLead bSuf (x :: xs) =
      WritePath b bLead false (x :: xs) ++ (if bSuf then MDLSuffix else []) := by
    simp [WritePath]
  have hE : FString.EndsWith (WritePath b bLead bSuf (x :: xs)) MDLSuffix = bSuf := by
    cases bSuf
    · exact hsuf rfl
    · rw [hw, if_pos rfl]
      exact endsWith_append_suffix _
  refine ⟨hE, ?_, ?_, ?_⟩
  · unfold ModulePathOf
    rw [hE]
    cases bSuf
    · rfl
    · rw [if_pos rfl, hw, if_pos rfl]
      exact leftChop_append_suffix _
  · cases bLead
    · have hx0 := hxs x (List.mem_cons_self x xs)
      cases x with
      | nil => exact absurd rfl hx0.1
      | cons c d =>
        have hj : WritePath b false false ((c :: d) :: xs) =
            c :: (d ++ (JoinPath (PathSeparator b) ((c :: d) :: xs)).drop (d.length + 1)) := by
          cases xs <;> simp [WritePath, JoinPath]
        rw [hj]
        exact startsWith_sep_false b c _ (hx0.2 c (List.mem_cons_self c d))
    · have hj : WritePath b true false (x :: xs) =
          PathSeparator b ++ JoinPath (PathSeparator b) (x :: xs) := by
        simp [WritePath]
      rw [hj]
      exact startsWith_sep_append b _
  · have hp := parse_joinPath (PathSeparator b) hsep (x :: xs) hxs
    cases bLead
    · have hj : WritePath b false false (x :: xs) = JoinPath (PathSeparator b) (x :: xs) := by
        simp [WritePath]
      rw [hj, hp]
    · have hj : WritePath b true false (x :: xs) =
          PathSeparator b ++ JoinPath (PathSeparator b) (x :: xs) := by
        simp [WritePath]
      rw [hj, parse_delim_append _ _ hsep, hp]


/-- The mangled form of a written path: the same leading separator and suffix
around the package and the mangled elements. -/
theorem mangle_writePath (b bLead bSuf : Bool) (x : FString) (xs : List FString)
    (hxs : ∀ e ∈ x :: xs, e ≠ [] ∧ (∀ c ∈ e, c ∉ PathSeparator b) ∧
      IsRelativeModule e = false)
    (hsuf : bSuf = false →
      FString.EndsWith (WritePath b bLead false (x :: xs)) MDLSuffix = false) :
    MangleMdlPath (WritePath b bLead bSuf (x :: xs)) b =
      WritePath b bLead bSuf (MangledPathPrefixPkg :: (x :: xs).map MangledElement) := by
  obtain ⟨hE, hMP, hS, hP⟩ := read_writePath b bLead bSuf x xs
    (fun e he => ⟨(hxs e he).1, (hxs e he).2.1⟩) hsuf
  have hloop := mangleModules_joinPath (PathSeparator b) (((x :: xs).length : Nat) : Int)
    (x :: xs) 0 [] [] (by omega) (fun e he => (hxs e he).2.2) (by simp)
  rw [mangleMdlPath_eq, hMP, hS, hP, hE, hloop]
  cases bLead <;> simp [WritePath, JoinPath]

/-- Unmangling the mangled form of a written path gives the path back. -/
theorem unmangle_writePath (b bLead bSuf : Bool) (x : FString) (xs : List FString)
    (hxs : ∀ e ∈ x :: xs, e ≠ [] ∧ e.length ≤ 2147483647 ∧ ∀ c ∈ e, 0 < c ∧ c < 65536) :
    UnmangleMdlPath
        (WritePath b bLead bSuf (MangledPathPrefixPkg :: (x :: xs).map MangledElement)) b =
      WritePath b bLead bSuf (x :: xs) := by
  have hword : ∀ e ∈ MangledPathPrefixPkg :: (x :: xs).map MangledElement,
      4 ≤ e.length ∧ ∀ c ∈ e, IsIdentifierChar c = true := by
    intro e he
    rcases List.mem_cons.mp he with he | he
    · rw [he]
      exact ⟨by decide, package_identifier⟩
    · obtain ⟨m, hm, hme⟩ := List.mem_map.mp he
      rw [← hme]
      exact ⟨mangledElement_length m (hxs m hm).1, mangledElement_identifier m⟩
  have hfree : ∀ e ∈ MangledPathPrefixPkg :: (x :: xs).map MangledElement,
      e ≠ [] ∧ ∀ c ∈ e, c ∉ PathSeparator b := by
    intro e he
    have h := hword e he
    refine ⟨?_, fun c hc => identifier_not_sep b c (h.2 c hc)⟩
    intro hnil
    rw [hnil] at h
    simp at h
  have hsuf : FString.EndsWith
      (WritePath b bLead false (MangledPathPrefixPkg :: (x :: xs).map MangledElement))
      MDLSuffix = false := by
    obtain ⟨A, w, hA, hlen, hw⟩ := joinPath_tail (PathSeparator b)
      (MangledPathPrefixPkg :: (x :: xs).map MangledElement) (by simp) hword
    have hj : WritePath b bLead false (MangledPathPrefixPkg :: (x :: xs).map MangledElement) =
        ((if bLead then PathSeparator b else []) ++ A) ++ w := by
      unfold WritePath
      rw [hA]
      simp
    rw [hj]
    exact endsWith_identifier_tail _ w hlen hw
  obtain ⟨hE, hMP, hS, hP⟩ := read_writePath b bLead bSuf MangledPathPrefixPkg
    ((x :: xs).map MangledElement) hfree (fun _ => hsuf)
  have hloop := unmangleModules_joinPath (PathSeparator b)
    (((MangledPathPrefixPkg :: (x :: xs).map MangledElement).length : Nat) : Int)
    (x :: xs) (0 + 1) [] []
    (by simp only [List.length_cons, List.length_map, Nat.cast_add, Nat.cast_one]; omega)
    (fun e he => (hxs e he).2)
  have hpkg1 : ¬ ((FString.Equals MangledPathPrefixPkg (TEXT ".") ||
      FString.Equals MangledPathPrefixPkg (TEXT "..")) = true) := by decide
  have hpkg2 : FString.Equals MangledPathPrefixPkg MangledPathPrefixPkg = true :=
    equals_self _
  rw [unmangleMdlPath_eq, hMP, hS, hP, hE, UnmangleModules, if_neg hpkg1, hpkg2, if_pos rfl,
    hloop]
  cases bLead <;> simp [WritePath]


/-- The round trip for written paths: an optional leading separator, one or
more non-empty elements joined by single separators (none "." or "..", none
containing a code unit of the separator, each a string of non-zero 16-bit code
units shorter than 2^31) and an optional suffix ".mdl", where a path written
without the suffix does not end in ".mdl" in any letter case. -/
theorem round_trip_writePath (bMDLSeparator bLeadingSeparator bSuffix : Bool)
    (Element : FString) (Elements : List FString)
    (hel : ∀ e ∈ Element :: Elements, e ≠ [] ∧ e ≠ TEXT "." ∧ e ≠ TEXT ".." ∧
      (∀ c ∈ e, c ∉ PathSeparator bMDLSeparator) ∧ e.length ≤ 2147483647 ∧
      ∀ c ∈ e, 0 < c ∧ c < 65536)
    (hsuf : bSuffix = false → FString.EndsWith
      (WritePath bMDLSeparator bLeadingSeparator false (Element :: Elements)) MDLSuffix =
        false) :
    UnmangleMdlPath
        (MangleMdlPath
          (WritePath bMDLSeparator bLeadingSeparator bSuffix (Element :: Elements))
          bMDLSeparator) bMDLSeparator =
      WritePath bMDLSeparator bLeadingSeparator bSuffix (Element :: Elements) := by
  have hrel : ∀ e ∈ Element :: Elements, IsRelativeModule e = false := by
    intro e he
    have h := hel e he
    rw [Bool.eq_false_iff]
    intro hr
    rcases (isRelativeModule_iff e).mp hr with hr | hr
    · exact h.2.1 (by rw [hr, text_dot_eq])
    · exact h.2.2.1 (by rw [hr, text_dotdot_eq])
  rw [mangle_writePath bMDLSeparator bLeadingSeparator bSuffix Element Elements
      (fun e he => ⟨(hel e he).1, (hel e he).2.2.2.1, hrel e he⟩) hsuf,
    unmangle_writePath bMDLSeparator bLeadingSeparator bSuffix Element Elements
      (fun e he => ⟨(hel e he).1, (hel e he).2.2.2.2⟩)]


/-! ## The elements of a mangled path -/

/-- A chain without a last word is empty or ends with the separator. -/
theorem chain_nil_cases (Sep : FString) (ws : List FString) :
    Chain Sep ws [] = [] ∨ ∃ A, Chain Sep ws [] = A ++ Sep := by
  rcases List.eq_nil_or_concat ws with h | ⟨init, w, h⟩
  · left
    rw [h]
    rfl
  · right
    refine ⟨Chain Sep init [] ++ w, ?_⟩
    rw [h]
    simp [Chain]

/-- A string that is empty or ends with a separator does not end in ".mdl". -/
theorem endsWith_separator_tail (b : Bool) (S : FString)
    (h : S = [] ∨ ∃ A, S = A ++ PathSeparator b) : FString.EndsWith S MDLSuffix = false := by
  rw [mdlSuffix_eq]
  rcases h with h | ⟨A, h⟩
  · rw [h]
    rfl
  · obtain ⟨B, c, hB, hc⟩ : ∃ B c, S = B ++ [c] ∧ (c = 47 ∨ c = 58) := by
      rcases pathSeparator_cases b with hs | hs
      · exact ⟨A, 47, by rw [h, hs], Or.inl rfl⟩
      · exact ⟨A ++ [58], 58, by rw [h, hs]; simp, Or.inr rfl⟩
    by_contra hcon
    rw [Bool.not_eq_false] at hcon
    simp only [FString.EndsWith, FString.Equals, Bool.and_eq_true, decide_eq_true_eq] at hcon
    obtain ⟨_, heq⟩ := hcon
    have h1 : S.map ToLower =
        (S.take (S.length - [46, 109, 100, 108].length)).map ToLower ++
          ([46, 109, 100] ++ [108]) := by
      have h4 : [46, 109, 100] ++ [108] = List.map ToLower [46, 109, 100, 108] := by decide
      rw [h4, ← heq, ← List.map_append, List.take_append_drop]
    have h2 : S.map ToLower = B.map ToLower ++ [ToLower c] := by
      rw [hB]
      simp
    have h3 := congrArg List.getLast? (h1.symm.trans h2)
    rw [← List.append_assoc, List.getLast?_concat, List.getLast?_concat] at h3
    rcases hc with hc | hc <;> rw [hc] at h3 <;> revert h3 <;> decide

/-- The pieces cut from a string are not empty. -/
theorem parseFrom_ne_nil (Delim : FString) :
    ∀ (S : FString) (Skip : Nat) (Cur : FString),
      ∀ m ∈ FString.ParseIntoArrayFrom Delim Skip Cur S, m ≠ [] := by
  intro S
  induction S with
  | nil =>
    intro Skip Cur m hm
    rw [parseFrom_nil] at hm
    split_ifs at hm with hc
    · exact absurd hm (List.not_mem_nil m)
    · rw [List.mem_singleton] at hm
      rw [hm]
      intro h
      rw [h] at hc
      exact hc rfl
  | cons c Rest ih =>
    intro Skip Cur m hm
    cases Skip with
    | succ k =>
      rw [parseFrom_cons_succ] at hm
      exact ih k Cur m hm
    | zero =>
      rw [parseFrom_cons_zero] at hm
      split_ifs at hm with hp hc
      · rw [List.nil_append] at hm
        exact ih _ _ m hm
      · rcases List.mem_append.mp hm with hm | hm
        · rw [List.mem_singleton] at hm
          rw [hm]
          intro h
          rw [h] at hc
          exact hc rfl
        · exact ih _ _ m hm
      · exact ih _ _ m hm

/-- The elements of a path are not empty. -/
theorem parse_ne_nil (S Delim : FString) : ∀ m ∈ FString.ParseIntoArray S Delim, m ≠ [] := by
  intro m hm
  unfold FString.ParseIntoArray at hm
  split_ifs at hm
  · exact absurd hm (List.not_mem_nil m)
  · exact parseFrom_ne_nil Delim S 0 [] m hm

/-- A word of the mangled output that stands for a non-empty element has at
least four code units. -/
theorem mangledWord_length (Q : FString → Prop) (w : FString) (hQ : ∀ m, Q m → m ≠ [])
    (h : IsMangledWord Q w) : 4 ≤ w.length := by
  rcases h with h | ⟨m, hm, h⟩
  · rw [h]
    decide
  · rw [h]
    exact mangledElement_length m (hQ m hm)


/-- The path returned by `MangleMdlPath` is a body followed by ".mdl" exactly
when the input ends in ".mdl"; the body does not end in ".mdl", and each of
its elements is relative, the package, or a mangled element of the input. -/
theorem mangleMdlPath_body (Input : FString) (bMDLSeparator : Bool) :
    ∃ Body : FString,
      MangleMdlPath Input bMDLSeparator =
        Body ++ (if FString.EndsWith Input MDLSuffix then MDLSuffix else []) ∧
      FString.EndsWith Body MDLSuffix = false ∧
      ∀ e ∈ FString.ParseIntoArray Body (PathSeparator bMDLSeparator),
        (e = TEXT "." ∨ e = TEXT ".." ∨ e = MangledPathPrefixPkg ∨
          ∃ Module ∈ FString.ParseIntoArray (ModulePathOf Input)
              (PathSeparator bMDLSeparator),
            ∃ t : FString,
              e = MangledElemPrefix ++ FString.FromInt (FString.Len Module) ++
                MangledElemPrefix ++ t ∧
              ∀ c ∈ t, IsIdentifierChar c = true) ∧
        (IsRelativeModule e = false →
          (∀ c ∈ e, IsIdentifierChar c = true) ∧
            ∃ c Rest, e = c :: Rest ∧ IsLetter c = true) := by
  obtain ⟨ws, t, rs, hloop, hws, ht, hrs⟩ :=
    mangleModules_shape (PathSeparator bMDLSeparator)
      ((FString.ParseIntoArray (ModulePathOf Input) (PathSeparator bMDLSeparator)).length : Int)
      (fun m => m ∈ FString.ParseIntoArray (ModulePathOf Input) (PathSeparator bMDLSeparator))
      (FString.ParseIntoArray (ModulePathOf Input) (PathSeparator bMDLSeparator))
      0 [] [] [] [] (by omega) (fun m hm => hm) rfl (fun w hw => absurd hw (List.not_mem_nil w))
      rfl (fun w hw => absurd hw (List.not_mem_nil w))
  have hsep : PathSeparator bMDLSeparator ≠ [] := by
    rcases pathSeparator_cases bMDLSeparator with h | h <;> rw [h] <;> simp
  have hwordfree : ∀ w, IsMangledWord
      (fun m => m ∈ FString.ParseIntoArray (ModulePathOf Input) (PathSeparator bMDLSeparator)) w →
      w ≠ [] ∧ ∀ c ∈ w, c ∉ PathSeparator bMDLSeparator := by
    intro w hw
    obtain ⟨hid, c, Rest, hcons, _⟩ := mangledWord_identifier _ w hw
    exact ⟨by rw [hcons]; simp, fun c hc => identifier_not_sep _ c (hid c hc)⟩
  have hrelfree : ∀ r, IsRelativeModule r = true →
      r ≠ [] ∧ ∀ c ∈ r, c ∉ PathSeparator bMDLSeparator := by
    intro r hr
    rcases (isRelativeModule_iff r).mp hr with h | h <;> rw [h] <;>
      rcases pathSeparator_cases bMDLSeparator with hs | hs <;> rw [hs] <;> simp
  have htfree : ∀ c ∈ t, c ∉ PathSeparator bMDLSeparator := by
    rcases ht with ht | ht
    · rw [ht]; intro c hc; exact absurd hc (List.not_mem_nil c)
    · exact (hwordfree t ht).2
  -- the elements of the body
  have hgood : ∀ e, (IsRelativeModule e = true ∨ IsMangledWord
      (fun m => m ∈ FString.ParseIntoArray (ModulePathOf Input) (PathSeparator bMDLSeparator)) e) →
      (e = TEXT "." ∨ e = TEXT ".." ∨ e = MangledPathPrefixPkg ∨
          ∃ Module ∈ FString.ParseIntoArray (ModulePathOf Input)
              (PathSeparator bMDLSeparator),
            ∃ t : FString,
              e = MangledElemPrefix ++ FString.FromInt (FString.Len Module) ++
                MangledElemPrefix ++ t ∧
              ∀ c ∈ t, IsIdentifierChar c = true) ∧
        (IsRelativeModule e = false →
          (∀ c ∈ e, IsIdentifierChar c = true) ∧
            ∃ c Rest, e = c :: Rest ∧ IsLetter c = true) := by
    intro e he
    rcases he with he | he
    · refine ⟨?_, fun h => absurd he (by rw [h]; exact Bool.false_ne_true)⟩
      rcases (isRelativeModule_iff e).mp he with h | h
      · left; rw [h, text_dot_eq]
      · right; left; rw [h, text_dotdot_eq]
    · refine ⟨?_, fun _ => mangledWord_identifier _ e he⟩
      rcases he with h | ⟨m, hm, h⟩
      · right; right; left; exact h
      · right; right; right
        exact ⟨m, hm, MangleChars [] m, h, mangleChars_identifier m⟩
  have hlast : ∀ e ∈ (if t.isEmpty then [] else [t]), IsMangledWord
      (fun m => m ∈ FString.ParseIntoArray (ModulePathOf Input) (PathSeparator bMDLSeparator)) e := by
    intro e he
    rcases ht with ht | ht
    · rw [ht] at he
      exact absurd he (List.not_mem_nil e)
    · split_ifs at he
      · exact absurd he (List.not_mem_nil e)
      · rw [List.mem_singleton] at he
        rw [he]; exact ht
  refine ⟨(if FString.StartsWith (ModulePathOf Input) (PathSeparator bMDLSeparator) then
      PathSeparator bMDLSeparator else Chain (PathSeparator bMDLSeparator) rs []) ++
      Chain (PathSeparator bMDLSeparator) ws t, ?_, ?_, ?_⟩
  · unfold MangleMdlPath
    unfold ModulePathOf PathSeparator at hloop ⊢
    simp only [hloop]
    split_ifs <;> simp
  · rcases ht with ht | ht
    · rw [ht]
      apply endsWith_separator_tail bMDLSeparator
      have hws0 := chain_nil_cases (PathSeparator bMDLSeparator) ws
      have hrs0 := chain_nil_cases (PathSeparator bMDLSeparator) rs
      rcases hws0 with hws0 | ⟨A, hA⟩
      · rw [hws0, List.append_nil]
        split_ifs
        · exact Or.inr ⟨[], (List.nil_append _).symm⟩
        · rcases hrs0 with hrs0 | ⟨B, hB⟩
          · exact Or.inl hrs0
          · exact Or.inr ⟨B, hB⟩
      · right
        rw [hA]
        exact ⟨_ ++ A, (List.append_assoc _ _ _).symm⟩
    · obtain ⟨hid, c, Rest, hcons, _⟩ := mangledWord_identifier _ t ht
      have hlen := mangledWord_length _ t
        (fun m hm => parse_ne_nil _ _ m hm) ht
      rw [← chain_append_last (PathSeparator bMDLSeparator) ws t, ← List.append_assoc]
      exact endsWith_identifier_tail _ t hlen hid
  · intro e he
    apply hgood
    by_cases hstart : FString.StartsWith (ModulePathOf Input) (PathSeparator bMDLSeparator) = true
    · rw [if_pos hstart, parse_delim_append _ _ hsep,
        parse_chain _ ws t hsep (fun w hw => hwordfree w (hws w hw)) htfree] at he
      rcases List.mem_append.mp he with he | he
      · exact Or.inr (hws e he)
      · exact Or.inr (hlast e he)
    · rw [if_neg hstart, chain_append_chain, parse_chain _ (rs ++ ws) t hsep ?_ htfree] at he
      · rcases List.mem_append.mp he with he | he
        · rcases List.mem_append.mp he with he | he
          · exact Or.inl (hrs e he)
          · exact Or.inr (hws e he)
        · exact Or.inr (hlast e he)
      · intro w hw
        rcases List.mem_append.mp hw with hw | hw
        · exact hrelfree w (hrs w hw)
        · exact hwordfree w (hws w hw)


/-- C27: every element of a path returned by `MangleMdlPath` (the output,
without a trailing ".mdl", split at the separator) is ".", "..", the package
"MANGLED", or the mark "z", the decimal length of an element of the input, the
mark "z" and then only ASCII letters, digits and underscores.  Every element
that is not relative is made only of ASCII letters, digits and underscores and
starts with a letter. -/
theorem mangled_path_elements (Input : FString) (bMDLSeparator : Bool) :
    ∀ e ∈ FString.ParseIntoArray (ModulePathOf (MangleMdlPath Input bMDLSeparator))
        (PathSeparator bMDLSeparator),
      (e = TEXT "." ∨ e = TEXT ".." ∨ e = MangledPathPrefixPkg ∨
        ∃ Module ∈ FString.ParseIntoArray (ModulePathOf Input)
            (PathSeparator bMDLSeparator),
          ∃ t : FString,
            e = MangledElemPrefix ++ FString.FromInt (FString.Len Module) ++
              MangledElemPrefix ++ t ∧
            ∀ c ∈ t, IsIdentifierChar c = true) ∧
      (IsRelativeModule e = false →
        (∀ c ∈ e, IsIdentifierChar c = true) ∧
          ∃ c Rest, e = c :: Rest ∧ IsLetter c = true) := by
  obtain ⟨Body, hM, hno, hel⟩ := mangleMdlPath_body Input bMDLSeparator
  have hbody : ModulePathOf (MangleMdlPath Input bMDLSeparator) = Body := by
    unfold ModulePathOf
    rw [hM]
    by_cases hsuf : FString.EndsWith Input MDLSuffix = true
    · rw [if_pos hsuf, endsWith_append_suffix, if_pos rfl, leftChop_append_suffix]
    · rw [if_neg hsuf, List.append_nil, hno, if_neg Bool.false_ne_true]
  rw [hbody]
  exact hel

/-- C27 at a concrete input: "/C:/mat.mdl" is mangled to
"/MANGLED/z2zC_58_/z3zmat.mdl", and its element "z2zC_58_" is made of
identifier characters. -/
theorem mangled_path_elements_witness :
    MangleMdlPath (TEXT "/C:/mat.mdl") false = TEXT "/MANGLED/z2zC_58_/z3zmat.mdl" ∧
      TEXT "z2zC_58_" ∈
        FString.ParseIntoArray (ModulePathOf (MangleMdlPath (TEXT "/C:/mat.mdl") false))
          (PathSeparator false) ∧
      ∀ c ∈ TEXT "z2zC_58_", IsIdentifierChar c = true :=
  ⟨by decide, by decide,
    ((mangled_path_elements (TEXT "/C:/mat.mdl") false (TEXT "z2zC_58_") (by decide)).2
      (by decide)).1⟩

/-! ## The round trip of a path -/

/-- Every piece cut from a string is made of code units of the string and of
the piece read so far, and is no longer than both together. -/
theorem parseFrom_sub (Delim : FString) :
    ∀ (S : FString) (Skip : Nat) (Cur : FString),
      ∀ m ∈ FString.ParseIntoArrayFrom Delim Skip Cur S,
        (∀ c ∈ m, c ∈ Cur ∨ c ∈ S) ∧ m.length ≤ Cur.length + S.length := by
  intro S
  induction S with
  | nil =>
    intro Skip Cur m hm
    rw [parseFrom_nil] at hm
    split_ifs at hm with hc
    · exact absurd hm (List.not_mem_nil m)
    · rw [List.mem_singleton] at hm
      rw [hm]
      exact ⟨fun c hc => Or.inl hc, by simp⟩
  | cons x Rest ih =>
    intro Skip Cur m hm
    cases Skip with
    | succ k =>
      rw [parseFrom_cons_succ] at hm
      obtain ⟨h1, h2⟩ := ih k Cur m hm
      refine ⟨fun c hc => ?_, by simp only [List.length_cons]; omega⟩
      rcases h1 c hc with h | h
      · exact Or.inl h
      · exact Or.inr (List.mem_cons_of_mem _ h)
    | zero =>
      rw [parseFrom_cons_zero] at hm
      split_ifs at hm with hp hc
      · rw [List.nil_append] at hm
        obtain ⟨h1, h2⟩ := ih _ _ m hm
        refine ⟨fun c hc => ?_, by simp at h2 ⊢; omega⟩
        rcases h1 c hc with h | h
        · exact absurd h (List.not_mem_nil c)
        · exact Or.inr (List.mem_cons_of_mem _ h)
      · rcases List.mem_append.mp hm with hm | hm
        · rw [List.mem_singleton] at hm
          rw [hm]
          exact ⟨fun c hc => Or.inl hc, by omega⟩
        · obtain ⟨h1, h2⟩ := ih _ _ m hm
          refine ⟨fun c hc => ?_,
            by simp at h2 ⊢; omega⟩
          rcases h1 c hc with h | h
          · exact absurd h (List.not_mem_nil c)
          · exact Or.inr (List.mem_cons_of_mem _ h)
      · obtain ⟨h1, h2⟩ := ih _ _ m hm
        refine ⟨fun c hc => ?_, ?_⟩
        · rcases h1 c hc with h | h
          · rcases List.mem_append.mp h with h | h
            · exact Or.inl h
            · rw [List.mem_singleton] at h
              rw [h]
              exact Or.inr (List.mem_cons_self x Rest)
          · exact Or.inr (List.mem_cons_of_mem _ h)
        · simp only [List.length_append, List.length_singleton, List.length_cons,
            List.length_nil] at h2 ⊢
          omega

/-- Every element of a path is made of code units of the path and is no longer
than the path. -/
theorem parse_sub (S Delim : FString) :
    ∀ m ∈ FString.ParseIntoArray S Delim, (∀ c ∈ m, c ∈ S) ∧ m.length ≤ S.length := by
  intro m hm
  unfold FString.ParseIntoArray at hm
  split_ifs at hm
  · exact absurd hm (List.not_mem_nil m)
  · obtain ⟨h1, h2⟩ := parseFrom_sub Delim S 0 [] m hm
    refine ⟨fun c hc => ?_, by simpa using h2⟩
    rcases h1 c hc with h | h
    · exact absurd h (List.not_mem_nil c)
    · exact h

/-- The path without its suffix is made of code units of the path and is no
longer than the path. -/
theorem modulePathOf_sub (Input : FString) :
    (∀ c ∈ ModulePathOf Input, c ∈ Input) ∧ (ModulePathOf Input).length ≤ Input.length := by
  unfold ModulePathOf
  split_ifs
  · unfold FString.LeftChop
    exact ⟨fun c hc => List.mem_of_mem_take hc, by rw [List.length_take]; omega⟩
  · exact ⟨fun c hc => hc, le_refl _⟩

/-- A word of the mangled form of a list of elements is the package or the
mangled form of one of the elements. -/
theorem mem_mangledWords (ns : List FString) (w : FString) (hw : w ∈ MangledWords ns) :
    IsMangledWord (fun m => m ∈ ns) w := by
  unfold MangledWords at hw
  split_ifs at hw
  · exact absurd hw (List.not_mem_nil w)
  · rcases List.mem_cons.mp hw with hw | hw
    · exact Or.inl hw
    · obtain ⟨m, hm, hme⟩ := List.mem_map.mp hw
      exact Or.inr ⟨m, hm, hme.symm⟩

/-- The mangled words of a list of elements that is not empty. -/
theorem mangledWords_cons (n : FString) (ns : List FString) :
    MangledWords (n :: ns) = MangledPathPrefixPkg :: (n :: ns).map MangledElement := rfl

theorem mangledWords_append_singleton (done : List FString) (m : FString) :
    MangledWords (done ++ [m]) =
      MangledPathPrefixPkg :: (done.map MangledElement ++ [MangledElement m]) := by
  cases done <;> simp [MangledWords]

/-- What `Output` holds once the package is in it. -/
theorem output_with_package (Sep : FString) (done : List FString) :
    (if (Chain Sep (MangledWords done) []).isEmpty then
        Chain Sep (MangledWords done) [] ++ (MangledPathPrefixPkg ++ Sep)
      else Chain Sep (MangledWords done) []) =
      Chain Sep (MangledPathPrefixPkg :: done.map MangledElement) [] := by
  cases done with
  | nil => simp [MangledWords, Chain]
  | cons n ns =>
    rw [mangledWords_cons, mangledPathPrefixPkg_eq]
    simp [Chain]

/-- The two strings built by the loop of `MangleMdlPath`, for any elements:
`RelativeOutput` is the chain of the relative elements, and `Output` is a
chain whose words are the mangled words of the other elements. -/
theorem mangleModules_exact (Sep : FString) (Num : Int) :
    ∀ (ms : List FString) (i : Int) (Output Rel : FString) (done rs0 : List FString),
      i + ms.length = Num → Output = Chain Sep (MangledWords done) [] →
      Rel = Chain Sep rs0 [] →
      ∃ (ws : List FString) (t : FString),
        MangleModules Sep Num ms i Output Rel =
          (Chain Sep ws t, Chain Sep (rs0 ++ ms.filter IsRelativeModule) []) ∧
        ws ++ (if t.isEmpty then [] else [t]) =
          MangledWords (done ++ ms.filter (fun m => !IsRelativeModule m)) := by
  intro ms
  induction ms with
  | nil =>
    intro i Output Rel done rs0 _ hO hR
    exact ⟨MangledWords done, [], by simp [MangleModules, hO, hR], by simp⟩
  | cons m Rest ih =>
    intro i Output Rel done rs0 hi hO hR
    have hi1 : (i + 1) + (Rest.length : Int) = Num := by
      rw [List.length_cons] at hi
      push_cast at hi
      omega
    rw [MangleModules]
    by_cases hrel : IsRelativeModule m = true
    · have hrel1 : (FString.Equals m (TEXT ".") || FString.Equals m (TEXT "..")) = true := hrel
      rw [if_pos hrel1]
      obtain ⟨ws, t, h1, h2⟩ := ih (i + 1) Output (Rel ++ (m ++ Sep)) done (rs0 ++ [m]) hi1 hO
        (by rw [hR, chain_append_word])
      refine ⟨ws, t, ?_, ?_⟩
      · rw [h1, List.filter_cons_of_pos hrel]
        simp
      · rw [h2, List.filter_cons_of_neg (by simp [hrel])]
    · have hrel1 : ¬ ((FString.Equals m (TEXT ".") || FString.Equals m (TEXT "..")) = true) :=
        hrel
      rw [if_neg hrel1]
      simp only []
      rw [hO, output_with_package, mangle_step]
      by_cases hlast : i < Num - 1
      · rw [if_pos hlast]
        obtain ⟨ws, t, h1, h2⟩ := ih (i + 1)
          (Chain Sep (MangledPathPrefixPkg :: done.map MangledElement) [] ++
            MangledElement m ++ Sep) Rel (done ++ [m]) rs0 hi1
          (by rw [mangledWords_append_singleton, List.append_assoc, chain_append_word]; rfl) hR
        refine ⟨ws, t, ?_, ?_⟩
        · rw [h1, List.filter_cons_of_neg hrel]
        · rw [h2, List.filter_cons_of_pos (by simp [hrel])]
          simp
      · rw [if_neg hlast]
        have hnil : Rest = [] := by
          apply List.eq_nil_of_length_eq_zero
          omega
        rw [hnil, MangleModules]
        refine ⟨MangledPathPrefixPkg :: done.map MangledElement, MangledElement m, ?_, ?_⟩
        · rw [chain_append_last, hR, List.filter_cons_of_neg hrel]
          simp
        · have hne : (MangledElement m).isEmpty = false := by
            have := mangledElement_ne_nil m
            cases hME : MangledElement m with
            | nil => exact absurd hME this
            | cons c d => rfl
          rw [hne, List.filter_cons_of_pos (by simp [hrel])]
          simp [mangledWords_append_singleton]

/-- A word of the mangled form of non-empty elements is not empty, is free of
the separator's code units and has at least four identifier characters. -/
theorem mangledWords_word (b : Bool) (ns : List FString) (hns : ∀ n ∈ ns, n ≠ [])
    (w : FString) (hw : w ∈ MangledWords ns) :
    w ≠ [] ∧ (∀ c ∈ w, c ∉ PathSeparator b) ∧ 4 ≤ w.length ∧
      ∀ c ∈ w, IsIdentifierChar c = true := by
  have hword := mem_mangledWords ns w hw
  obtain ⟨hid, c, Rest, hcons, _⟩ := mangledWord_identifier _ w hword
  exact ⟨by rw [hcons]; simp, fun c hc => identifier_not_sep b c (hid c hc),
    mangledWord_length _ w hns hword, hid⟩

/-- A relative element is not empty and free of the separator's code units. -/
theorem relative_word (b : Bool) (r : FString) (hr : IsRelativeModule r = true) :
    r ≠ [] ∧ ∀ c ∈ r, c ∉ PathSeparator b := by
  rcases (isRelativeModule_iff r).mp hr with h | h <;> rw [h] <;>
    rcases pathSeparator_cases b with hs | hs <;> rw [hs] <;> simp

/-- A chain of non-empty words free of the separator's code units does not
start with the separator. -/
theorem startsWith_chain (b : Bool) (ws : List FString) (t : FString)
    (hws : ∀ w ∈ ws, w ≠ [] ∧ ∀ c ∈ w, c ∉ PathSeparator b)
    (ht : ∀ c ∈ t, c ∉ PathSeparator b) :
    FString.StartsWith (Chain (PathSeparator b) ws t) (PathSeparator b) = false := by
  cases ws with
  | nil =>
    cases t with
    | nil =>
      rcases pathSeparator_cases b with hs | hs <;> rw [hs] <;> rfl
    | cons c d =>
      have h : Chain (PathSeparator b) [] (c :: d) = c :: d := by simp [Chain]
      rw [h]
      exact startsWith_sep_false b c d (ht c (List.mem_cons_self c d))
  | cons w ws =>
    have hw := hws w (List.mem_cons_self w ws)
    cases w with
    | nil => exact absurd rfl hw.1
    | cons c d =>
      have h : Chain (PathSeparator b) ((c :: d) :: ws) t =
          c :: (d ++ PathSeparator b ++ Chain (PathSeparator b) ws t) := by
        simp [Chain]
      rw [h]
      exact startsWith_sep_false b c _ (hw.2 c (List.mem_cons_self c d))

/-- The loop of `UnmangleMdlPath` over relative elements: each goes to
`RelativeOutput` with a separator behind it. -/
theorem unmangleModules_relative (Sep : FString) (Num : Int) :
    ∀ (rs Tail : List FString) (i : Int) (bLocated : Bool) (Output Rel : FString),
      (∀ r ∈ rs, IsRelativeModule r = true) →
      UnmangleModules Sep Num (rs ++ Tail) i bLocated Output Rel =
        UnmangleModules Sep Num Tail (i + rs.length) bLocated Output
          (Rel ++ Chain Sep rs []) := by
  intro rs
  induction rs with
  | nil => intro Tail i bLocated Output Rel _; simp [Chain]
  | cons r rs ih =>
    intro Tail i bLocated Output Rel hrs
    have hr : (FString.Equals r (TEXT ".") || FString.Equals r (TEXT "..")) = true :=
      hrs r (List.mem_cons_self r rs)
    rw [List.cons_append, UnmangleModules, if_pos hr,
      ih Tail (i + 1) bLocated Output _ (fun x hx => hrs x (List.mem_cons_of_mem _ hx))]
    have h1 : i + 1 + (rs.length : Int) = i + ((r :: rs).length : Int) := by
      simp only [List.length_cons, Nat.cast_add, Nat.cast_one]
      omega
    have h2 : Rel ++ (r ++ Sep) ++ Chain Sep rs [] = Rel ++ Chain Sep (r :: rs) [] := by
      simp [Chain]
    rw [h1, h2]

/-- The loop of `UnmangleMdlPath` over a mangled path: relative elements, then
the mangled words of the other elements. -/
theorem unmangleModules_mangledWords (Sep : FString) (rs ns : List FString)
    (hrs : ∀ r ∈ rs, IsRelativeModule r = true)
    (hns : ∀ n ∈ ns, n.length ≤ 2147483647 ∧ ∀ c ∈ n, 0 < c ∧ c < 65536) :
    UnmangleModules Sep (((rs ++ MangledWords ns).length : Nat) : Int) (rs ++ MangledWords ns)
        0 false [] [] =
      some (JoinPath Sep ns, Chain Sep rs []) := by
  rw [unmangleModules_relative Sep _ rs _ 0 false [] [] hrs]
  cases ns with
  | nil => simp [MangledWords, UnmangleModules, JoinPath]
  | cons n ns =>
    have hpkg1 : ¬ ((FString.Equals MangledPathPrefixPkg (TEXT ".") ||
        FString.Equals MangledPathPrefixPkg (TEXT "..")) = true) := by decide
    have hpkg2 : FString.Equals MangledPathPrefixPkg MangledPathPrefixPkg = true :=
      equals_self _
    rw [mangledWords_cons, UnmangleModules, if_neg hpkg1, hpkg2, if_pos rfl,
      unmangleModules_joinPath Sep _ (n :: ns) _ [] _
        (by simp only [List.length_append, List.length_cons, List.length_map, Nat.cast_add,
              Nat.cast_one]; omega) hns]
    simp

/-- The path returned by `MangleMdlPath`, for any input: `ws` and `t` are the
words of `Output`. -/
theorem mangleMdlPath_words (Input : FString) (b : Bool) :
    ∃ (ws : List FString) (t : FString),
      MangleMdlPath Input b =
        ((if FString.StartsWith (ModulePathOf Input) (PathSeparator b) then PathSeparator b
          else Chain (PathSeparator b)
            ((FString.ParseIntoArray (ModulePathOf Input) (PathSeparator b)).filter
              IsRelativeModule) []) ++ Chain (PathSeparator b) ws t) ++
          (if FString.EndsWith Input MDLSuffix then MDLSuffix else []) ∧
      ws ++ (if t.isEmpty then [] else [t]) =
        MangledWords ((FString.ParseIntoArray (ModulePathOf Input) (PathSeparator b)).filter
          (fun m => !IsRelativeModule m)) := by
  obtain ⟨ws, t, hloop, hwt⟩ := mangleModules_exact (PathSeparator b)
    (((FString.ParseIntoArray (ModulePathOf Input) (PathSeparator b)).length : Nat) : Int)
    (FString.ParseIntoArray (ModulePathOf Input) (PathSeparator b)) 0 [] [] [] []
    (by omega) rfl rfl
  refine ⟨ws, t, ?_, by simpa using hwt⟩
  rw [mangleMdlPath_eq, hloop]
  simp

/-- Unmangling a mangled path gives the normal form of the path, for every
path of non-zero 16-bit code units shorter than 2^31. -/
theorem unmangle_mangle_eq_normalPath (p : FString) (b : Bool)
    (hp : ∀ c ∈ p, 0 < c ∧ c < 65536) (hlen : p.length ≤ 2147483647) :
    UnmangleMdlPath (MangleMdlPath p b) b = NormalPath p b := by
  have hsep : PathSeparator b ≠ [] := by
    rcases pathSeparator_cases b with h | h <;> rw [h] <;> simp
  -- the elements of the path
  have hms : ∀ m ∈ FString.ParseIntoArray (ModulePathOf p) (PathSeparator b),
      m ≠ [] ∧ m.length ≤ 2147483647 ∧ ∀ c ∈ m, 0 < c ∧ c < 65536 := by
    intro m hm
    obtain ⟨h1, h2⟩ := parse_sub _ _ m hm
    obtain ⟨h3, h4⟩ := modulePathOf_sub p
    exact ⟨parse_ne_nil _ _ m hm, by omega, fun c hc => hp c (h3 c (h1 c hc))⟩
  have hrs : ∀ r ∈ (FString.ParseIntoArray (ModulePathOf p) (PathSeparator b)).filter
      IsRelativeModule, IsRelativeModule r = true := fun r hr => (List.mem_filter.mp hr).2
  have hns : ∀ n ∈ (FString.ParseIntoArray (ModulePathOf p) (PathSeparator b)).filter
      (fun m => !IsRelativeModule m),
      n ≠ [] ∧ n.length ≤ 2147483647 ∧ ∀ c ∈ n, 0 < c ∧ c < 65536 :=
    fun n hn => hms n (List.mem_filter.mp hn).1
  -- the mangled path
  obtain ⟨ws, t, hM, hwt⟩ := mangleMdlPath_words p b
  obtain ⟨Body, hB, hno, -⟩ := mangleMdlPath_body p b
  have hbody : (if FString.StartsWith (ModulePathOf p) (PathSeparator b) then PathSeparator b
      else Chain (PathSeparator b)
        ((FString.ParseIntoArray (ModulePathOf p) (PathSeparator b)).filter
          IsRelativeModule) []) ++ Chain (PathSeparator b) ws t = Body :=
    List.append_cancel_right (hM.symm.trans hB)
  have hword : ∀ w ∈ ws ++ (if t.isEmpty then [] else [t]),
      w ≠ [] ∧ (∀ c ∈ w, c ∉ PathSeparator b) := by
    intro w hw
    rw [hwt] at hw
    have h := mangledWords_word b _ (fun n hn => (hns n hn).1) w hw
    exact ⟨h.1, h.2.1⟩
  have hws : ∀ w ∈ ws, w ≠ [] ∧ ∀ c ∈ w, c ∉ PathSeparator b :=
    fun w hw => hword w (List.mem_append_left _ hw)
  have ht : ∀ c ∈ t, c ∉ PathSeparator b := by
    cases ht0 : t with
    | nil => intro c hc; exact absurd hc (List.not_mem_nil c)
    | cons x d =>
      have := hword t (by rw [ht0]; simp)
      rw [ht0] at this
      exact this.2
  -- what `UnmangleMdlPath` reads off the mangled path
  have hE : FString.EndsWith (MangleMdlPath p b) MDLSuffix = FString.EndsWith p MDLSuffix := by
    rw [hB]
    cases hsuf : FString.EndsWith p MDLSuffix
    · rw [if_neg Bool.false_ne_true, List.append_nil, hno]
    · rw [if_pos rfl, endsWith_append_suffix]
  have hMP : ModulePathOf (MangleMdlPath p b) = Body := by
    unfold ModulePathOf
    rw [hB]
    by_cases hsuf : FString.EndsWith p MDLSuffix = true
    · rw [if_pos hsuf, endsWith_append_suffix, if_pos rfl, leftChop_append_suffix]
    · rw [if_neg hsuf, List.append_nil, hno, if_neg Bool.false_ne_true]
  unfold NormalPath
  rw [unmangleMdlPath_eq, hMP, hE, ← hbody]
  by_cases hsw : FString.StartsWith (ModulePathOf p) (PathSeparator b) = true
  · have hP : FString.ParseIntoArray (PathSeparator b ++ Chain (PathSeparator b) ws t)
        (PathSeparator b) = [] ++ MangledWords
          ((FString.ParseIntoArray (ModulePathOf p) (PathSeparator b)).filter
            (fun m => !IsRelativeModule m)) := by
      rw [parse_delim_append _ _ hsep, parse_chain _ ws t hsep hws ht, hwt, List.nil_append]
    rw [if_pos hsw, hP, unmangleModules_mangledWords (PathSeparator b) [] _
      (fun r hr => absurd hr (List.not_mem_nil r)) (fun n hn => (hns n hn).2),
      startsWith_sep_append]
    simp
  · have hP : FString.ParseIntoArray
        (Chain (PathSeparator b)
          ((FString.ParseIntoArray (ModulePathOf p) (PathSeparator b)).filter
            IsRelativeModule) [] ++ Chain (PathSeparator b) ws t) (PathSeparator b) =
        (FString.ParseIntoArray (ModulePathOf p) (PathSeparator b)).filter IsRelativeModule ++
          MangledWords ((FString.ParseIntoArray (ModulePathOf p) (PathSeparator b)).filter
            (fun m => !IsRelativeModule m)) := by
      rw [chain_append_chain, parse_chain _ _ t hsep ?_ ht, List.append_assoc, hwt]
      intro w hw
      rcases List.mem_append.mp hw with hw | hw
      · exact relative_word b w (hrs w hw)
      · exact hws w hw
    have hS : FString.StartsWith
        (Chain (PathSeparator b)
          ((FString.ParseIntoArray (ModulePathOf p) (PathSeparator b)).filter
            IsRelativeModule) [] ++ Chain (PathSeparator b) ws t) (PathSeparator b) =
        false := by
      rw [chain_append_chain]
      apply startsWith_chain b _ t _ ht
      intro w hw
      rcases List.mem_append.mp hw with hw | hw
      · exact relative_word b w (hrs w hw)
      · exact hws w hw
    rw [if_neg hsw, hP, unmangleModules_mangledWords (PathSeparator b) _ _ hrs
      (fun n hn => (hns n hn).2), hS]
    simp

/-- C21, as stated, fails, in three ways.  The path "x/.mdl", with the
separator '/', is made of the elements "x" and ".mdl": its end is taken for
the suffix, it is mangled to "MANGLED/z1zx.mdl" and comes back as "x.mdl".  The
path "a.MDL" is one element: the suffix test ignores case, and it comes back
as "a.mdl".  The path "a::::b", with the separator "::", is made of the
elements "a:" and ":b", neither containing "::": it is cut into "a" and "b"
and comes back as "a::b". -/
theorem mangle_round_trip_fails :
    (WritePath false false false [TEXT "x", TEXT ".mdl"] = TEXT "x/.mdl" ∧
      (∀ e ∈ [TEXT "x", TEXT ".mdl"], e ≠ [] ∧ e ≠ TEXT "." ∧ e ≠ TEXT ".." ∧
        ¬ (PathSeparator false <:+: e)) ∧
      MangleMdlPath (TEXT "x/.mdl") false = TEXT "MANGLED/z1zx.mdl" ∧
      UnmangleMdlPath (MangleMdlPath (TEXT "x/.mdl") false) false = TEXT "x.mdl" ∧
      TEXT "x.mdl" ≠ TEXT "x/.mdl") ∧
    (WritePath false false false [TEXT "a.MDL"] = TEXT "a.MDL" ∧
      (∀ e ∈ [TEXT "a.MDL"], e ≠ [] ∧ e ≠ TEXT "." ∧ e ≠ TEXT ".." ∧
        ¬ (PathSeparator false <:+: e)) ∧
      UnmangleMdlPath (MangleMdlPath (TEXT "a.MDL") false) false = TEXT "a.mdl" ∧
      TEXT "a.mdl" ≠ TEXT "a.MDL") ∧
    (WritePath true false false [TEXT "a:", TEXT ":b"] = TEXT "a::::b" ∧
      (∀ e ∈ [TEXT "a:", TEXT ":b"], e ≠ [] ∧ e ≠ TEXT "." ∧ e ≠ TEXT ".." ∧
        ¬ (PathSeparator true <:+: e)) ∧
      UnmangleMdlPath (MangleMdlPath (TEXT "a::::b") true) true = TEXT "a::b" ∧
      TEXT "a::b" ≠ TEXT "a::::b") := by
  decide

/-- C21, amended: for either separator mode and every path `p` (a string of
non-zero 16-bit code units shorter than 2^31),
`UnmangleMdlPath(MangleMdlPath(p, sep), sep)` is the normal form of `p`: the
separator if `p` starts with one, else the elements "." and ".." of `p`, each
followed by a separator; then the other elements of `p` joined by single
separators; then ".mdl" if `p` ends in ".mdl" in any letter case.  So the
round trip gives `p` back exactly when `p` is in normal form. -/
theorem mangle_round_trip (p : FString) (bMDLSeparator : Bool)
    (hp : ∀ c ∈ p, 0 < c ∧ c < 65536) (hlen : p.length ≤ 2147483647) :
    UnmangleMdlPath (MangleMdlPath p bMDLSeparator) bMDLSeparator =
        NormalPath p bMDLSeparator ∧
      (UnmangleMdlPath (MangleMdlPath p bMDLSeparator) bMDLSeparator = p ↔
        NormalPath p bMDLSeparator = p) := by
  have h := unmangle_mangle_eq_normalPath p bMDLSeparator hp hlen
  exact ⟨h, by rw [h]⟩

/-- C21, amended, at concrete inputs.  The file path
"/C:/Users/my file_1/mat.mdl" is in normal form and is given back; so are
"a:b::c", "a:b" and "a:::b" with the separator "::", and "a.mdl.mdl". -/
theorem mangle_round_trip_witness :
    MangleMdlPath (TEXT "/C:/Users/my file_1/mat.mdl") false =
        TEXT "/MANGLED/z2zC_58_/z5zUsers/z9zmy_32_file_95_1/z3zmat.mdl" ∧
      UnmangleMdlPath (MangleMdlPath (TEXT "/C:/Users/my file_1/mat.mdl") false) false =
        TEXT "/C:/Users/my file_1/mat.mdl" ∧
      UnmangleMdlPath (MangleMdlPath (TEXT "a:b::c") true) true = TEXT "a:b::c" ∧
      UnmangleMdlPath (MangleMdlPath (TEXT "a:b") true) true = TEXT "a:b" ∧
      UnmangleMdlPath (MangleMdlPath (TEXT "a:::b") true) true = TEXT "a:::b" ∧
      UnmangleMdlPath (MangleMdlPath (TEXT "a.mdl.mdl") false) false = TEXT "a.mdl.mdl" :=
  ⟨by decide,
    (mangle_round_trip (TEXT "/C:/Users/my file_1/mat.mdl") false (by decide)
      (by decide)).2.mpr (by decide),
    (mangle_round_trip (TEXT "a:b::c") true (by decide) (by decide)).2.mpr (by decide),
    (mangle_round_trip (TEXT "a:b") true (by decide) (by decide)).2.mpr (by decide),
    (mangle_round_trip (TEXT "a:::b") true (by decide) (by decide)).2.mpr (by decide),
    (mangle_round_trip (TEXT "a.mdl.mdl") false (by decide) (by decide)).2.mpr (by decide)⟩

end MoviePipeline
